import Mathlib

/-!
The line-oriented codec of joro.

A shallow embedding of `decoder/decoder.go` (scanner-driven decoder, tree builder,
canonicalizer), of the row encoder of `main.go` (`toRows`, `prefixSl`, `keys`, `escape`)
and of its table view (`tototot`, `toTableRows`), followed by theorems about them.

Modelling conventions.

* A Go `string` is a `List Char`. The state of a decoder is the list of characters its
  `text/scanner` has still to deliver (`Peek` is the head, `Next` drops it, end-of-input is
  the empty list). That is not always the unread source: the first `Peek` of a fresh
  scanner discards a U+FEFF at the start of the source. `Scanner` spells the scanner out,
  `Scanner.delivered` is what it delivers, and `NewDecoder` gives the state of a fresh
  decoder on a source text, which is the text itself unless it begins with U+FEFF
  (`NewDecoder_eq`).
* `interface{}` values are split by the shapes the code can build: scalar tokens (`Tok`),
  the result of `decodeLine` (`Path`), and trees (`Val`).
* `float64` together with `strconv.ParseFloat` and the `%v` verb is a parameter
  (`NumLib`); it is library code, not code of this repository.
* A function that recurses without a structural argument takes a `fuel` argument and
  answers `Res.timeout` when it is exhausted.
-/

namespace Joro

/-- The float64 support of the Go standard library that the code calls:
`strconv.ParseFloat(s, 64)` (`none` when it reports an error) and `fmt.Sprintf("%v", x)`.
The type `ν` stands for `float64`; its equality stands for the `==` of Go, which is what
map keys and `reflect.DeepEqual` compare with. -/
structure NumLib (ν : Type) where
  parseFloat : List Char → Option ν
  format : ν → List Char

/-- The errors the decoder returns. -/
inductive DecodeError where
  | invalidMap          -- errors.New("invalid map")
  | invalidBracket      -- errors.New("invalid bracket value")
  | unexpected          -- errors.Errorf("unexpected ...", d.Peek())
  | badKeyword          -- errors.Errorf("could not parse bracket value: %s", s)
  | badFloat            -- errors.Wrapf(err, "could not parse %s as float64", s)
  | badInt              -- the error of strconv.ParseInt
  deriving DecidableEq, Repr

/-- The outcome of a call: a returned value, a returned error, a Go `panic`, or fuel
exhausted. -/
inductive Res (α : Type) where
  | ok (a : α)
  | err (e : DecodeError)
  | panic
  | timeout
  deriving DecidableEq, Repr

/-- A scalar token: what `scanStr`, `scanBracket` and `scanArrIndex` return. -/
inductive Tok (ν : Type) where
  | null                       -- nil
  | bool (b : Bool)            -- bool
  | num (x : ν)                -- float64
  | str (s : List Char)        -- string
  | int (n : Int)              -- int64
  deriving DecidableEq, Repr

/-- The result of `decodeLine`: a token, or a `*kv` whose key is a token and whose value is
again such a result. -/
inductive Path (ν : Type) where
  | leaf (t : Tok ν)
  | kv (key : Tok ν) (value : Path ν)
  deriving DecidableEq, Repr

/-- Trees: a scalar, a `map[interface{}]interface{}` (association list in insertion
order), a `map[string]interface{}` (association list) or a `[]interface{}`. -/
inductive Val (ν : Type) where
  | tok (t : Tok ν)
  | imap (m : List (Tok ν × Val ν))
  | smap (m : List (List Char × Val ν))
  | slice (xs : List (Val ν))

/-! ## Scanner and token readers -/

/-- The byte-order mark U+FEFF. -/
def bom : Char := Char.ofNat 0xFEFF

/-- The field `ch` of a `text/scanner.Scanner`, the character before the unread source:
`-2` on a fresh scanner, `scanner.EOF`, or a character. -/
inductive ScanCh where
  | fresh
  | eof
  | rune (c : Char)
  deriving DecidableEq, Repr

/-- A `text/scanner.Scanner` (library code), as far as `Peek` and `Next` use it: the field
`ch` and the source not yet read. -/
structure Scanner where
  ch : ScanCh
  src : List Char
  deriving DecidableEq, Repr

/-- The method `next` of the scanner on a source of valid UTF-8: the next character, or
`EOF`. -/
def Scanner.next (s : Scanner) : Scanner :=
  match s.src with
  | [] => ⟨.eof, []⟩
  | c :: rest => ⟨.rune c, rest⟩

/-- The method `Init`: `s.ch = -2`, nothing read. -/
def Scanner.Init (src : List Char) : Scanner := ⟨.fresh, src⟩

/-- The method `Peek`, as the scanner it leaves, whose `ch` is the character returned:
`if s.ch == -2 { s.ch = s.next(); if s.ch == '\uFEFF' { s.ch = s.next() } }; return s.ch`. -/
def Scanner.Peek (s : Scanner) : Scanner :=
  match s.ch with
  | .fresh => if s.next.ch = .rune bom then s.next.next else s.next
  | .eof => s
  | .rune _ => s

/-- The method `Next`, as the scanner it leaves; the character returned is the one `Peek`
returns: `ch := s.Peek(); if ch != EOF { s.ch = s.next() }; return ch`. -/
def Scanner.Next (s : Scanner) : Scanner :=
  match s.Peek.ch with
  | .eof => s.Peek
  | _ => s.Peek.next

/-- The characters a scanner has still to deliver through `Peek` and `Next`: its source
without a leading U+FEFF when it is fresh, `ch` followed by its source afterwards. -/
def Scanner.delivered (s : Scanner) : List Char :=
  match s.ch with
  | .fresh =>
    match s.src with
    | c :: rest => if c = bom then rest else c :: rest
    | [] => []
  | .eof => []
  | .rune c => c :: s.src

/-- `NewDecoder`: the state of the decoder on a source text, `scanner.Init` having read
nothing yet. The state is kept as the characters the scanner delivers, which for a source
that begins with U+FEFF are those after that mark. -/
def NewDecoder (src : List Char) : List Char := (Scanner.Init src).delivered

/-- `isBrank`. -/
def isBrank (c : Char) : Bool := c == ' '

/-- `skipBrank`. -/
def skipBrank : List Char → List Char
  | [] => []
  | c :: cs => if isBrank c then skipBrank cs else c :: cs

/-- `isStrChar` on a character (end-of-input is handled by the callers' `[]` case). -/
def isStrChar (c : Char) : Bool := !isBrank c && c != '\n'

/-- `scanStr`, with the string built so far as accumulator. After a backslash the next
character is taken literally, `n` giving a newline; at end-of-input `string(scanner.EOF)`
is U+FFFD. -/
def scanStrAux : List Char → List Char → List Char × List Char
  | acc, [] => (acc, [])
  | acc, c :: cs =>
    if isStrChar c then
      if c = '\\' then
        match cs with
        | [] => (acc ++ [Char.ofNat 0xFFFD], [])
        | c2 :: cs2 =>
          if c2 = 'n' then scanStrAux (acc ++ ['\n']) cs2
          else scanStrAux (acc ++ [c2]) cs2
      else scanStrAux (acc ++ [c]) cs
    else (acc, c :: cs)

/-- `scanStr`. -/
def scanStr (inp : List Char) : List Char × List Char := scanStrAux [] inp

/-- `isIntChar`: `strconv.Atoi` accepts a one-character string exactly when it is an ASCII
digit. -/
def isIntChar (c : Char) : Bool := decide ('0' ≤ c) && decide (c ≤ '9')

/-- `isNumChar`. -/
def isNumChar (c : Char) : Bool :=
  c == '.' || c == 'e' || c == '+' || c == '-' || isIntChar c

/-- `isKwdChar`: the runes of "truefalsenull". -/
def isKwdChar (c : Char) : Bool :=
  c == 't' || c == 'r' || c == 'u' || c == 'e' || c == 'f' || c == 'a' || c == 'l'
    || c == 's' || c == 'n'

/-- The loop shared by `scanInt`, `scanNum` and `scanKwd`: the longest prefix of characters
satisfying `p`, and the rest. -/
def scanWhile (p : Char → Bool) : List Char → List Char × List Char
  | [] => ([], [])
  | c :: cs =>
    if p c then ((c :: (scanWhile p cs).1), (scanWhile p cs).2) else ([], c :: cs)

/-- The value of a string of ASCII digits. -/
def digitsVal (ds : List Char) : Nat :=
  ds.foldl (fun acc c => 10 * acc + (c.toNat - '0'.toNat)) 0

/-- `strconv.ParseInt(s, 10, 64)` on a string of ASCII digits: an error on the empty string
and on a value above 2^63-1. -/
def parseInt (ds : List Char) : Option Int :=
  if ds = [] then none
  else if digitsVal ds ≤ 2 ^ 63 - 1 then some (digitsVal ds : Int) else none

/-- `scanInt`. -/
def scanInt {ν : Type} (inp : List Char) : Res (Tok ν × List Char) :=
  match parseInt (scanWhile isIntChar inp).1 with
  | some n => .ok (.int n, (scanWhile isIntChar inp).2)
  | none => .err .badInt

/-- `scanArrIndex`: skip the `#`, then `scanInt`. -/
def scanArrIndex {ν : Type} (inp : List Char) : Res (Tok ν × List Char) :=
  scanInt inp.tail

/-- `scanNum`. -/
def scanNum {ν : Type} (L : NumLib ν) (inp : List Char) : Res (Tok ν × List Char) :=
  match L.parseFloat (scanWhile isNumChar inp).1 with
  | some x => .ok (.num x, (scanWhile isNumChar inp).2)
  | none => .err .badFloat

/-- `scanKwd`. -/
def scanKwd {ν : Type} (inp : List Char) : Res (Tok ν × List Char) :=
  let s := (scanWhile isKwdChar inp).1
  let rest := (scanWhile isKwdChar inp).2
  if s = ['t', 'r', 'u', 'e'] then .ok (.bool true, rest)
  else if s = ['f', 'a', 'l', 's', 'e'] then .ok (.bool false, rest)
  else if s = ['n', 'u', 'l', 'l'] then .ok (.null, rest)
  else .err .badKeyword

/-- The dispatch of `scanBracket` after the `<` has been skipped. -/
def scanBracketBody {ν : Type} (L : NumLib ν) (inp : List Char) : Res (Tok ν × List Char) :=
  match inp with
  | [] => .err .invalidBracket
  | c :: cs =>
    if isNumChar c then scanNum L (c :: cs)
    else if isKwdChar c then scanKwd (c :: cs)
    else if c = '>' then .ok (.str [], c :: cs)
    else .err .invalidBracket

/-- The end of `scanBracket`: the next character must be `>`, which is skipped. -/
def expectClose {ν : Type} (v : Tok ν) (rest : List Char) : Res (Tok ν × List Char) :=
  match rest with
  | '>' :: rest2 => .ok (v, rest2)
  | _ => .err .unexpected

/-- `scanBracket`: skip the `<`, read the body, require the `>`. -/
def scanBracket {ν : Type} (L : NumLib ν) (inp : List Char) : Res (Tok ν × List Char) :=
  match scanBracketBody L inp.tail with
  | .ok (v, rest) => expectClose v rest
  | .err e => .err e
  | .panic => .panic
  | .timeout => .timeout

/-- The token switch at the head of `decodeLine`. -/
def scanToken {ν : Type} (L : NumLib ν) (inp : List Char) : Res (Tok ν × List Char) :=
  match inp with
  | '<' :: _ => scanBracket L inp
  | '#' :: _ => scanArrIndex inp
  | _ => .ok (.str (scanStr inp).1, (scanStr inp).2)

/-- `decodeLine`: one token, blanks, then either the newline that ends the line or the rest
of the line parsed by a recursive call. The argument is the state of the decoder, the
characters its scanner has still to deliver (`NewDecoder` for a fresh decoder). -/
def decodeLine {ν : Type} (L : NumLib ν) : Nat → List Char → Res (Path ν × List Char)
  | 0, _ => .timeout
  | fuel + 1, inp =>
    match scanToken L inp with
    | .ok (v, rest) =>
      match skipBrank rest with
      | '\n' :: rest2 => .ok (.leaf v, rest2)
      | rest2 =>
        match decodeLine L fuel rest2 with
        | .ok (deeper, rest3) => .ok (.kv v deeper, rest3)
        | .err e => .err e
        | .panic => .panic
        | .timeout => .timeout
    | .err e => .err e
    | .panic => .panic
    | .timeout => .timeout

/-! ## Encoder: escaping -/

/-- `strings.Replace(s, old, new, -1)` for a one-character `old`. -/
def replaceAll (old : Char) (new : List Char) (s : List Char) : List Char :=
  s.flatMap (fun c => if c = old then new else [c])

/-- `escape`. -/
def escape (s : List Char) : List Char :=
  if s = [] then ['<', '>']
  else
    let s1 := replaceAll '\\' ['\\', '\\'] s
    let s2 := replaceAll ' ' ['\\', ' '] s1
    let s3 := replaceAll '\n' ['\\', 'n'] s2
    match s3 with
    | c :: _ => if c = '<' ∨ c = '#' then '\\' :: s3 else s3
    | [] => s3

/-- A row of cells, and the rows of a document. -/
abbrev Rows := List (List (List Char))

/-- `prefixSl`. -/
def prefixSl (p : List Char) (ss : Rows) : Rows :=
  ss.map (fun s => p :: s)

/-- `sort.Strings`, as an insertion sort on the byte-wise string order. -/
def sortStrings (ks : List (List Char)) : List (List Char) :=
  ks.insertionSort (· ≤ ·)

/-- `keys`: the keys of a `map[string]interface{}`, sorted. -/
def keys {α : Type} (m : List (List Char × α)) : List (List Char) :=
  sortStrings (m.map Prod.fst)

/-- `m[k]` on a map modelled as an association list (`none`: no such key). -/
def mapGet {κ α : Type} [DecidableEq κ] : List (κ × α) → κ → Option α
  | [], _ => none
  | (k2, v) :: rest, k => if k = k2 then some v else mapGet rest k

/-- `m[k] = v` on a map in insertion order: the entry is replaced where it stands, a new
key is added at the end. -/
def mapSet {κ α : Type} [DecidableEq κ] : List (κ × α) → κ → α → List (κ × α)
  | [], k, v => [(k, v)]
  | (k2, v2) :: rest, k, v =>
    if k = k2 then (k2, v) :: rest else (k2, v2) :: mapSet rest k v

/-- `m[k] = v` on a `map[string]interface{}`, which is kept with its keys strictly
ascending, so that two such maps are equal in Go exactly when their models are equal. -/
def smapSet {α : Type} : List (List Char × α) → List Char → α → List (List Char × α)
  | [], k, v => [(k, v)]
  | (k2, v2) :: rest, k, v =>
    if k < k2 then (k, v) :: (k2, v2) :: rest
    else if k = k2 then (k2, v) :: rest
    else (k2, v2) :: smapSet rest k v

/-- The digits of `fmt.Sprintf("%d", n)` for `n ≥ 0`, least significant first, with fuel. -/
def natDigitsRev : Nat → Nat → List Char
  | 0, _ => []
  | fuel + 1, n =>
    if n < 10 then [Char.ofNat (n + 48)]
    else Char.ofNat (n % 10 + 48) :: natDigitsRev fuel (n / 10)

/-- `fmt.Sprintf("%d", n)` for a slice index `n`. -/
def natDigits (n : Nat) : List Char := (natDigitsRev (n + 1) n).reverse

mutual
/-- `toRows`. The type switch has no case for `int64` and `map[interface{}]interface{}`,
which leave `ret` nil. For a `map[string]interface{}` the rows of every entry are computed
by `toRowsEntries` and then taken in the order of `keys(d)` (an absent key would give the rows
of nil); `toRows_smap` states this in the form of the source loop,
`prefixSl(escape(key), toRows(d[key]))`. -/
def toRows {ν : Type} (L : NumLib ν) : Val ν → Rows
  | .tok .null => [[['<', 'n', 'u', 'l', 'l', '>']]]
  | .tok (.str d) => [[escape d]]
  | .tok (.bool true) => [[['<', 't', 'r', 'u', 'e', '>']]]
  | .tok (.bool false) => [[['<', 'f', 'a', 'l', 's', 'e', '>']]]
  | .tok (.num x) => [['<' :: (L.format x ++ ['>'])]]
  | .tok (.int _) => []
  | .imap _ => []
  | .slice d => toRowsSlice L 0 d
  | .smap d =>
    (keys d).flatMap
      (fun key => prefixSl (escape key)
        ((mapGet (toRowsEntries L d) key).getD [[['<', 'n', 'u', 'l', 'l', '>']]]))
/-- The loop of `toRows` over a slice, `i` being the index of the first item. -/
def toRowsSlice {ν : Type} (L : NumLib ν) : Nat → List (Val ν) → Rows
  | _, [] => []
  | i, item :: rest =>
    prefixSl ('#' :: natDigits i) (toRows L item) ++ toRowsSlice L (i + 1) rest
/-- The rows of the value of every entry of a map. -/
def toRowsEntries {ν : Type} (L : NumLib ν) : List (List Char × Val ν) → List (List Char × Rows)
  | [] => []
  | (k, v) :: rest => (k, toRows L v) :: toRowsEntries L rest
end

/-- The text of a list of rows: the cells of a row joined by single spaces, every row ended
by a newline. -/
def render : Rows → List Char
  | [] => []
  | row :: rest => (List.intercalate [' '] row) ++ '\n' :: render rest

/-! ## Decoder: lines, tree builder, canonicalizer -/

/-- The first loop of `decodeToMapOrV`: while the scanner is not at end-of-input, skip
blanks and decode one line. The argument is the state of the decoder, the characters its
scanner has still to deliver; the first `Peek` of a fresh decoder is the one of the loop
test, and `NewDecoder` has the U+FEFF it discards left out. -/
def decodeLines {ν : Type} (L : NumLib ν) : Nat → List Char → Res (List (Path ν))
  | 0, _ => .timeout
  | fuel + 1, inp =>
    match inp with
    | [] => .ok []
    | _ :: _ =>
      match decodeLine L (fuel + 1) (skipBrank inp) with
      | .ok (path, rest) =>
        match decodeLines L fuel rest with
        | .ok paths => .ok (path :: paths)
        | .err e => .err e
        | .panic => .panic
        | .timeout => .timeout
      | .err e => .err e
      | .panic => .panic
      | .timeout => .timeout

/-- The second loop of `decodeToMapOrV`: the `kv`s of the paths, or the first path that is
not a `*kv`. -/
def collectKvs {ν : Type} : List (Path ν) → Sum (Tok ν) (List (Tok ν × Path ν))
  | [] => .inr []
  | .leaf t :: _ => .inl t
  | .kv k v :: rest =>
    match collectKvs rest with
    | .inl t => .inl t
    | .inr kvs => .inr ((k, v) :: kvs)

/-- What the first loop of `kvsToMap` stores under a key: a scalar or a `[]kv`. -/
inductive Slot (ν : Type) where
  | scalar (t : Tok ν)
  | kvs (l : List (Tok ν × Path ν))

/-- One iteration of the first loop of `kvsToMap`. -/
def groupStep {ν : Type} [DecidableEq ν] (m : List (Tok ν × Slot ν)) (s : Tok ν × Path ν) :
    Res (List (Tok ν × Slot ν)) :=
  match s.2 with
  | .kv k2 v2 =>
    match mapGet m s.1 with
    | some (.kvs skvs) => .ok (mapSet m s.1 (.kvs (skvs ++ [(k2, v2)])))
    | some (.scalar _) => .panic
    | none => .ok (mapSet m s.1 (.kvs [(k2, v2)]))
  | .leaf t => .ok (mapSet m s.1 (.scalar t))

/-- The first loop of `kvsToMap`. -/
def group {ν : Type} [DecidableEq ν] :
    List (Tok ν × Slot ν) → List (Tok ν × Path ν) → Res (List (Tok ν × Slot ν))
  | m, [] => .ok m
  | m, s :: rest =>
    match groupStep m s with
    | .ok m2 => group m2 rest
    | .err e => .err e
    | .panic => .panic
    | .timeout => .timeout

/-- The second loop of `kvsToMap`, `recur` being the recursive call. -/
def extract {ν : Type} (recur : List (Tok ν × Path ν) → Res (List (Tok ν × Val ν))) :
    List (Tok ν × Slot ν) → Res (List (Tok ν × Val ν))
  | [] => .ok []
  | (k, .scalar t) :: rest =>
    match extract recur rest with
    | .ok r => .ok ((k, .tok t) :: r)
    | .err e => .err e
    | .panic => .panic
    | .timeout => .timeout
  | (k, .kvs l) :: rest =>
    match recur l with
    | .ok mm =>
      match extract recur rest with
      | .ok r => .ok ((k, .imap mm) :: r)
      | .err e => .err e
      | .panic => .panic
      | .timeout => .timeout
    | .err e => .err e
    | .panic => .panic
    | .timeout => .timeout

/-- `kvsToMap`. -/
def kvsToMap {ν : Type} [DecidableEq ν] :
    Nat → List (Tok ν × Path ν) → Res (List (Tok ν × Val ν))
  | 0, _ => .timeout
  | fuel + 1, kvs =>
    match group [] kvs with
    | .ok m => extract (kvsToMap fuel) m
    | .err e => .err e
    | .panic => .panic
    | .timeout => .timeout

/-- `decodeToMapOrV`. -/
def decodeToMapOrV {ν : Type} [DecidableEq ν] (L : NumLib ν) (fuel : Nat)
    (inp : List Char) : Res (Val ν) :=
  match decodeLines L fuel inp with
  | .ok paths =>
    match collectKvs paths with
    | .inl t => .ok (.tok t)
    | .inr kvs =>
      match kvsToMap fuel kvs with
      | .ok m => .ok (.imap m)
      | .err e => .err e
      | .panic => .panic
      | .timeout => .timeout
  | .err e => .err e
  | .panic => .panic
  | .timeout => .timeout

/-- `tryMakeKeyString`, `r` being the map built so far. -/
def tryMakeKeyStringAux {ν : Type} :
    List (List Char × Val ν) → List (Tok ν × Val ν) → Option (List (List Char × Val ν))
  | r, [] => some r
  | r, (.str sk, v) :: rest => tryMakeKeyStringAux (smapSet r sk v) rest
  | _, _ :: _ => none

/-- `tryMakeKeyString`. -/
def tryMakeKeyString {ν : Type} (m : List (Tok ν × Val ν)) :
    Option (List (List Char × Val ν)) :=
  tryMakeKeyStringAux [] m

/-- The first loop of `tryCvtSlice`: the keys, when all of them are `int64`. -/
def intKeys {ν : Type} : List (Tok ν × Val ν) → Option (List Int)
  | [] => some []
  | (.int ik, _) :: rest =>
    match intKeys rest with
    | some ks => some (ik :: ks)
    | none => none
  | _ :: _ => none

/-- `tryCvtSlice`: the values in ascending order of their keys (`m[k]` of an absent key
would be nil). -/
def tryCvtSlice {ν : Type} [DecidableEq ν] (m : List (Tok ν × Val ν)) :
    Option (List (Val ν)) :=
  match intKeys m with
  | some ks =>
    some ((ks.insertionSort (· ≤ ·)).map (fun k => (mapGet m (.int k)).getD (.tok .null)))
  | none => none

/-- The loop `for i, vv := range sl { nv, err := f(vv); ...; sl[i] = nv }`. -/
def mapSlice {α : Type} (f : α → Res α) : List α → Res (List α)
  | [] => .ok []
  | v :: rest =>
    match f v with
    | .ok nv =>
      match mapSlice f rest with
      | .ok r => .ok (nv :: r)
      | .err e => .err e
      | .panic => .panic
      | .timeout => .timeout
    | .err e => .err e
    | .panic => .panic
    | .timeout => .timeout

/-- The loop `for k, vv := range sm { nv, err := f(vv); ...; sm[k] = nv }`. -/
def mapValues {κ α : Type} (f : α → Res α) : List (κ × α) → Res (List (κ × α))
  | [] => .ok []
  | (k, v) :: rest =>
    match f v with
    | .ok nv =>
      match mapValues f rest with
      | .ok r => .ok ((k, nv) :: r)
      | .err e => .err e
      | .panic => .panic
      | .timeout => .timeout
    | .err e => .err e
    | .panic => .panic
    | .timeout => .timeout

/-- `makeKeyStringOrCvtSlice`: a value that is not a `map[interface{}]interface{}` is
returned as it is. -/
def makeKeyStringOrCvtSlice {ν : Type} [DecidableEq ν] : Nat → Val ν → Res (Val ν)
  | _, .tok t => .ok (.tok t)
  | _, .smap m => .ok (.smap m)
  | _, .slice xs => .ok (.slice xs)
  | 0, .imap _ => .timeout
  | fuel + 1, .imap m =>
    match tryMakeKeyString m with
    | some sm =>
      match mapValues (makeKeyStringOrCvtSlice fuel) sm with
      | .ok sm2 => .ok (.smap sm2)
      | .err e => .err e
      | .panic => .panic
      | .timeout => .timeout
    | none =>
      match tryCvtSlice m with
      | some sl =>
        match mapSlice (makeKeyStringOrCvtSlice fuel) sl with
        | .ok sl2 => .ok (.slice sl2)
        | .err e => .err e
        | .panic => .panic
        | .timeout => .timeout
      | none => .err .invalidMap

/-- `Decode`, on the state of the decoder; `Decode L fuel (NewDecoder src)` is
`NewDecoder(src).Decode()`. -/
def Decode {ν : Type} [DecidableEq ν] (L : NumLib ν) (fuel : Nat) (inp : List Char) :
    Res (Val ν) :=
  match decodeToMapOrV L fuel inp with
  | .ok v => makeKeyStringOrCvtSlice fuel v
  | .err e => .err e
  | .panic => .panic
  | .timeout => .timeout

/-- A stand-in for the numeric library, used only to evaluate examples: the integers, read
from and printed as plain decimal digits with an optional sign. It is not float64. It
agrees with `strconv.ParseFloat` and `%v` on the nonzero integers of absolute value below
10^6 written in that way, which is where the examples stay; elsewhere it does not
(`ParseFloat` reads `3.14` and `-2e10`, which it rejects, `%v` prints `1e+06` for 1000000,
and float64 does not hold every integer above 2^53). -/
def intLib : NumLib Int where
  parseFloat := fun s =>
    match s with
    | '-' :: ds => if ds ≠ [] ∧ ds.all isIntChar then some (-(digitsVal ds : Int)) else none
    | '+' :: ds => if ds ≠ [] ∧ ds.all isIntChar then some (digitsVal ds : Int) else none
    | ds => if ds ≠ [] ∧ ds.all isIntChar then some (digitsVal ds : Int) else none
  format := fun x => if x < 0 then '-' :: natDigits x.natAbs else natDigits x.natAbs

/-- What the three replacements of `escape` do to one character. -/
def escChar (c : Char) : List Char :=
  if c = '\\' then ['\\', '\\'] else if c = ' ' then ['\\', ' ']
  else if c = '\n' then ['\\', 'n'] else [c]

/-! ## Predicates used in the statements -/

/-- The literal body of a bracket token, `rest` being the input after it: a maximal
non-empty run of numeric characters, a maximal non-empty run of keyword letters, or nothing
(the next character starts neither). -/
def IsLiteralBody (body rest : List Char) : Prop :=
  (body ≠ [] ∧ (∀ c ∈ body, isNumChar c = true) ∧ ∀ c ∈ rest.head?, isNumChar c = false)
  ∨ (body ≠ [] ∧ (∀ c ∈ body, isKwdChar c = true) ∧ ∀ c ∈ rest.head?, isKwdChar c = false)
  ∨ (body = [] ∧ ∀ c ∈ rest.head?, isNumChar c = false ∧ isKwdChar c = false)

/-- A string key. -/
def Tok.isStr {ν : Type} : Tok ν → Bool
  | .str _ => true
  | _ => false

/-- An index key. -/
def Tok.isInt {ν : Type} : Tok ν → Bool
  | .int _ => true
  | _ => false

mutual
/-- The nesting depth of a tree: the fuel its traversal needs. -/
def Val.depth {ν : Type} : Val ν → Nat
  | .tok _ => 0
  | .imap m => depthI m + 1
  | .smap m => depthS m + 1
  | .slice xs => depthL xs + 1
/-- The largest depth among the values of a `map[interface{}]interface{}`. -/
def depthI {ν : Type} : List (Tok ν × Val ν) → Nat
  | [] => 0
  | (_, v) :: rest => max v.depth (depthI rest)
/-- The largest depth among the values of a `map[string]interface{}`. -/
def depthS {ν : Type} : List (List Char × Val ν) → Nat
  | [] => 0
  | (_, v) :: rest => max v.depth (depthS rest)
/-- The largest depth among the items of a slice. -/
def depthL {ν : Type} : List (Val ν) → Nat
  | [] => 0
  | v :: rest => max v.depth (depthL rest)
end

mutual
/-- The association lists of the tree are maps: no key occurs twice in a node, as in every
Go map. -/
def Val.wf {ν : Type} [DecidableEq ν] : Val ν → Bool
  | .tok _ => true
  | .imap m => decide ((m.map Prod.fst).Nodup) && wfI m
  | .smap m => decide ((m.map Prod.fst).Nodup) && wfS m
  | .slice xs => wfL xs
/-- Every value of a `map[interface{}]interface{}` is well formed. -/
def wfI {ν : Type} [DecidableEq ν] : List (Tok ν × Val ν) → Bool
  | [] => true
  | (_, v) :: rest => v.wf && wfI rest
/-- Every value of a `map[string]interface{}` is well formed. -/
def wfS {ν : Type} [DecidableEq ν] : List (List Char × Val ν) → Bool
  | [] => true
  | (_, v) :: rest => v.wf && wfS rest
/-- Every item of a slice is well formed. -/
def wfL {ν : Type} [DecidableEq ν] : List (Val ν) → Bool
  | [] => true
  | v :: rest => v.wf && wfL rest
end

mutual
/-- Some node of a raw tree (the `map[interface{}]interface{}` nodes reached from the root
through such nodes) has a key set that is neither all string keys nor all index keys. -/
def Val.hasBadNode {ν : Type} : Val ν → Bool
  | .imap m =>
    (!(m.all (fun e => e.1.isStr)) && !(m.all (fun e => e.1.isInt))) || hasBadI m
  | _ => false
/-- Some value of the node has such a node. -/
def hasBadI {ν : Type} : List (Tok ν × Val ν) → Bool
  | [] => false
  | (_, v) :: rest => v.hasBadNode || hasBadI rest
end

/-! ## Example trees -/

/-- The raw node of the lines `#2 c`, `#0 a`. -/
def sparseNode : List (Tok Int × Val Int) :=
  [(.int 2, .tok (.str ['c'])), (.int 0, .tok (.str ['a']))]

/-- The raw node of the lines `a x`, `#0 y`: a string key and an index key. -/
def mixedNode : List (Tok Int × Val Int) :=
  [(.str ['a'], .tok (.str ['x'])), (.int 0, .tok (.str ['y']))]

/-- The raw node without keys, which is what the empty document is built into. -/
def emptyNode : List (Tok Int × Val Int) := []

/-! ## Canonical values and what the decoder builds from their rows -/

mutual
/-- The test `p` holds at every node of the tree. -/
def Val.all {ν : Type} (p : Val ν → Bool) : Val ν → Bool
  | .tok t => p (.tok t)
  | .imap m => p (.imap m) && allI p m
  | .smap d => p (.smap d) && allS p d
  | .slice xs => p (.slice xs) && allL p xs
/-- The test holds at every node of every value of the map. -/
def allI {ν : Type} (p : Val ν → Bool) : List (Tok ν × Val ν) → Bool
  | [] => true
  | (_, v) :: rest => v.all p && allI p rest
/-- The test holds at every node of every value of the map. -/
def allS {ν : Type} (p : Val ν → Bool) : List (List Char × Val ν) → Bool
  | [] => true
  | (_, v) :: rest => v.all p && allS p rest
/-- The test holds at every node of every item of the slice. -/
def allL {ν : Type} (p : Val ν → Bool) : List (Val ν) → Bool
  | [] => true
  | v :: rest => v.all p && allL p rest
end

/-- A node of a canonical value: Null, Bool, Number, String, Array or Object, an Object
being a `map[string]interface{}` in its model form (keys strictly ascending). -/
def isValueNode {ν : Type} : Val ν → Bool
  | .tok .null => true
  | .tok (.bool _) => true
  | .tok (.num _) => true
  | .tok (.str _) => true
  | .tok (.int _) => false
  | .imap _ => false
  | .smap d => decide ((d.map Prod.fst).Sorted (· < ·))
  | .slice _ => true

/-- A node that is not an empty Array or an empty Object. -/
def nonEmptyNode {ν : Type} : Val ν → Bool
  | .smap [] => false
  | .slice [] => false
  | _ => true

/-- A node that is not a Number, or a Number whose `%v` text is made of the characters of
a numeric literal and is parsed back to it by `strconv.ParseFloat` (every finite float64;
not NaN or an infinity). -/
def numReadsBack {ν : Type} [DecidableEq ν] (L : NumLib ν) : Val ν → Bool
  | .tok (.num x) =>
    decide (L.parseFloat (L.format x) = some x) && (L.format x).all isNumChar
      && !(L.format x).isEmpty
  | _ => true

/-- A node that is not an Array, or an Array whose indices fit an `int64`. -/
def indexableNode {ν : Type} : Val ν → Bool
  | .slice xs => decide (xs.length ≤ 2 ^ 63)
  | _ => true

mutual
/-- The results of `decodeLine` on the rows of a value, in order. -/
def pathsOf {ν : Type} : Val ν → List (Path ν)
  | .tok t => [.leaf t]
  | .imap _ => []
  | .smap d => pathsS d
  | .slice xs => pathsL 0 xs
/-- The results of `decodeLine` on the rows of the entries of an Object. -/
def pathsS {ν : Type} : List (List Char × Val ν) → List (Path ν)
  | [] => []
  | (k, v) :: rest => (pathsOf v).map (Path.kv (.str k)) ++ pathsS rest
/-- The results of `decodeLine` on the rows of the items of an Array from index `i` on. -/
def pathsL {ν : Type} : Nat → List (Val ν) → List (Path ν)
  | _, [] => []
  | i, x :: rest => (pathsOf x).map (Path.kv (.int i)) ++ pathsL (i + 1) rest
end

/-- The chains of the entries of an Object: each path of a value under the key. -/
def chainsS {ν : Type} : List (List Char × Val ν) → List (Tok ν × Path ν)
  | [] => []
  | (k, v) :: rest => (pathsOf v).map (fun p => (Tok.str k, p)) ++ chainsS rest

/-- The chains of the items of an Array from index `i` on. -/
def chainsL {ν : Type} : Nat → List (Val ν) → List (Tok ν × Path ν)
  | _, [] => []
  | i, x :: rest => (pathsOf x).map (fun p => (Tok.int i, p)) ++ chainsL (i + 1) rest

/-- The chains of a value. -/
def chainsOf {ν : Type} : Val ν → List (Tok ν × Path ν)
  | .smap d => chainsS d
  | .slice xs => chainsL 0 xs
  | _ => []

/-- What the first loop of `kvsToMap` stores under the key of a value. -/
def slotOf {ν : Type} : Val ν → Slot ν
  | .tok t => .scalar t
  | v => .kvs (chainsOf v)

mutual
/-- The raw tree that `kvsToMap` builds from the chains of a value. -/
def toRaw {ν : Type} : Val ν → Val ν
  | .tok t => .tok t
  | .imap m => .imap m
  | .smap d => .imap (rawS d)
  | .slice xs => .imap (rawL 0 xs)
/-- The raw node of an Object. -/
def rawS {ν : Type} : List (List Char × Val ν) → List (Tok ν × Val ν)
  | [] => []
  | (k, v) :: rest => (.str k, toRaw v) :: rawS rest
/-- The raw node of the items of an Array from index `i` on. -/
def rawL {ν : Type} : Nat → List (Val ν) → List (Tok ν × Val ν)
  | _, [] => []
  | i, x :: rest => (.int i, toRaw x) :: rawL (i + 1) rest
end

/-- The cell `c` is read as the token `t`: it starts with a character of a bare token, and
the token switch of `decodeLine` returns `t` and stops right after `c` when a blank or a
newline follows. -/
def Reads {ν : Type} (L : NumLib ν) (c : List Char) (t : Tok ν) : Prop :=
  (∃ a tl, c = a :: tl ∧ isStrChar a = true)
  ∧ ∀ ch rest, isStrChar ch = false → scanToken L (c ++ ch :: rest) = .ok (t, ch :: rest)

/-- The row of cells is read as the path: a last cell read as a scalar, or a cell read as a
key before a row read as a path. -/
inductive RowReads {ν : Type} (L : NumLib ν) : List (List Char) → Path ν → Prop where
  | last (c : List Char) (t : Tok ν) : Reads L c t → RowReads L [c] (.leaf t)
  | step (c : List Char) (t : Tok ν) (row : List (List Char)) (p : Path ν) :
      Reads L c t → RowReads L row p → RowReads L (c :: row) (.kv t p)

/-- What the first loop of `kvsToMap` builds from the chains of an Object. -/
def slotsS {ν : Type} : List (List Char × Val ν) → List (Tok ν × Slot ν)
  | [] => []
  | (k, v) :: rest => (.str k, slotOf v) :: slotsS rest

/-- What the first loop of `kvsToMap` builds from the chains of the items of an Array from
index `i` on. -/
def slotsL {ν : Type} : Nat → List (Val ν) → List (Tok ν × Slot ν)
  | _, [] => []
  | i, x :: rest => (.int i, slotOf x) :: slotsL (i + 1) rest

/-- The empty Array. -/
def emptyArray : Val Int := .slice []

/-- The Object with the single key `a`, mapped to the empty Array. -/
def objectWithEmptyArray : Val Int := .smap [(['a'], .slice [])]

/-- The Object with `a` mapped to the Array of the Number 5 and the String `x y`, and `b`
mapped to Null. -/
def sampleValue : Val Int :=
  .smap [(['a'], .slice [.tok (.num 5), .tok (.str ['x', ' ', 'y'])]), (['b'], .tok .null)]

/-! ## Further example values -/

/-- The Object with `k` mapped to the Array of the Number 7 and the String `<x`, and `z`
mapped to the Object with the empty key mapped to the Bool true. -/
def nestedValue : Val Int :=
  .smap [(['k'], .slice [.tok (.num 7), .tok (.str ['<', 'x'])]),
    (['z'], .smap [([], .tok (.bool true))])]

/-! ## Leaves and their paths -/

/-- The number of path segments before the scalar of a path. -/
def Path.depth {ν : Type} : Path ν → Nat
  | .leaf _ => 0
  | .kv _ p => p.depth + 1

/-- The rendering of a scalar (`<null>`, `<true>`, `<false>`, `<` number `>`, the escaped
string) and of a path segment (the escaped key of an Object entry, `#i` for the index `i` of
an Array element). -/
def renderTok {ν : Type} (L : NumLib ν) : Tok ν → List Char
  | .null => ['<', 'n', 'u', 'l', 'l', '>']
  | .bool true => ['<', 't', 'r', 'u', 'e', '>']
  | .bool false => ['<', 'f', 'a', 'l', 's', 'e', '>']
  | .num x => '<' :: (L.format x ++ ['>'])
  | .str s => escape s
  | .int i => '#' :: natDigits i.toNat

/-- The cells of the row of a leaf: the rendered segments of its path, then the rendered
scalar. -/
def Path.cells {ν : Type} (L : NumLib ν) : Path ν → List (List Char)
  | .leaf t => [renderTok L t]
  | .kv k p => renderTok L k :: p.cells L

mutual
/-- The number of scalar leaves (Null, Bool, Number, String) of a value. -/
def Val.leaves {ν : Type} : Val ν → Nat
  | .tok .null => 1
  | .tok (.bool _) => 1
  | .tok (.num _) => 1
  | .tok (.str _) => 1
  | .tok (.int _) => 0
  | .imap _ => 0
  | .smap d => leavesS d
  | .slice xs => leavesL xs
/-- The number of scalar leaves under the entries of an Object. -/
def leavesS {ν : Type} : List (List Char × Val ν) → Nat
  | [] => 0
  | (_, v) :: rest => v.leaves + leavesS rest
/-- The number of scalar leaves under the items of an Array. -/
def leavesL {ν : Type} : List (Val ν) → Nat
  | [] => 0
  | v :: rest => v.leaves + leavesL rest
end

/-- The Array of the Object with `n` mapped to the Number -12 and of the String `a\b`. -/
def arrayValue : Val Int :=
  .slice [.smap [(['n'], .tok (.num (-12)))], .tok (.str ['a', '\\', 'b'])]

/-! ## The table view: `tototot` and `toTableRows` -/

/-- A key of a `maplike`: a `string` (of a map) or an `int` (of a slice). -/
inductive MlKey where
  | str (s : List Char)
  | int (i : Nat)
  deriving DecidableEq, Repr

/-- The keys of a `maplike` with the values `at` gives for them: `slMaplike.keys` lists the
indices, `mMaplike.keys` the sorted keys of the map. -/
def mlEntries {ν : Type} : Val ν → Option (List (MlKey × Val ν))
  | .slice sl => some (sl.enum.map (fun e => (MlKey.int e.1, e.2)))
  | .smap m => some ((keys m).map (fun k => (MlKey.str k, (mapGet m k).getD (.tok .null))))
  | .tok _ => none
  | .imap _ => none

/-- `nameSet[k] = struct{}{}` on a set kept as the list of its members. -/
def setAdd (s : List (List Char)) (k : List Char) : List (List Char) :=
  if k ∈ s then s else s ++ [k]

/-- The inner type switch of `tototot`: the cell of a value found in an entry; a value of
another type panics. -/
def innerCell {ν : Type} (L : NumLib ν) : Val ν → Res (List Char)
  | .tok .null => .ok ['<', '<', 'n', 'i', 'l', '>', '>']
  | .tok (.bool true) => .ok ['<', 't', 'r', 'u', 'e', '>']
  | .tok (.bool false) => .ok ['<', 'f', 'a', 'l', 's', 'e', '>']
  | .tok (.num x) => .ok ('<' :: (L.format x ++ ['>']))
  | .tok (.str s) => .ok (escape s)
  | .tok (.int _) => .panic
  | .smap _ => .ok ['<', 'O', 'b', 'j', 'e', 'c', 't', '>']
  | .slice xs =>
    .ok (['<', 'A', 'r', 'r', 'a', 'y', '('] ++ natDigits xs.length ++ [')', '>'])
  | .imap _ => .panic

/-- The state of the loops of `tototot`: `nameSet` and the `values` of the current entry. -/
abbrev NamesValues := List (List Char) × List (List Char × List Char)

/-- The loop `for k, vv := range v` of `tototot` over the entries of a map: the key is
added to `nameSet` and the cell is stored in `values` under the key itself. -/
def innerLoopMap {ν : Type} (L : NumLib ν) :
    List (List Char × Val ν) → NamesValues → Res NamesValues
  | [], st => .ok st
  | (k, vv) :: rest, st =>
    match innerCell L vv with
    | .ok cell => innerLoopMap L rest (setAdd st.1 k, mapSet st.2 k cell)
    | .err e => .err e
    | .panic => .panic
    | .timeout => .timeout

/-- The loop `for i, vv := range v` of `tototot` over the items of a slice, `i` being the
index of the first item: the key is `#i`. -/
def innerLoopSlice {ν : Type} (L : NumLib ν) :
    Nat → List (Val ν) → NamesValues → Res NamesValues
  | _, [], st => .ok st
  | i, vv :: rest, st =>
    match innerCell L vv with
    | .ok cell =>
      innerLoopSlice L (i + 1) rest
        (setAdd st.1 ('#' :: natDigits i), mapSet st.2 ('#' :: natDigits i) cell)
    | .err e => .err e
    | .panic => .panic
    | .timeout => .timeout

/-- The text stored under `<Index>` for a key. -/
def indexCell : MlKey → List Char
  | .str s => s
  | .int i => '#' :: natDigits i

/-- The key `<Index>` of `values`. -/
def indexName : List Char := ['<', 'I', 'n', 'd', 'e', 'x', '>']

/-- The key `<Value>` of `values`. -/
def valueName : List Char := ['<', 'V', 'a', 'l', 'u', 'e', '>']

/-- What the loops of `tototot` have built: `nameSet`, `hasValue` and `data`. -/
structure TableState where
  nameSet : List (List Char)
  hasValue : Bool
  data : List (List (List Char × List Char))

/-- One iteration of the loop of `tototot` over the keys of the `maplike`. -/
def tableStep {ν : Type} (L : NumLib ν) (st : TableState) (e : MlKey × Val ν) :
    Res TableState :=
  let values : List (List Char × List Char) := [(indexName, indexCell e.1)]
  match e.2 with
  | .tok .null =>
    .ok ⟨st.nameSet, true,
      st.data ++ [mapSet values valueName ['<', '<', 'n', 'i', 'l', '>', '>']]⟩
  | .tok (.bool true) =>
    .ok ⟨st.nameSet, true, st.data ++ [mapSet values valueName ['<', 't', 'r', 'u', 'e', '>']]⟩
  | .tok (.bool false) =>
    .ok ⟨st.nameSet, true,
      st.data ++ [mapSet values valueName ['<', 'f', 'a', 'l', 's', 'e', '>']]⟩
  | .tok (.num x) =>
    .ok ⟨st.nameSet, true, st.data ++ [mapSet values valueName ('<' :: (L.format x ++ ['>']))]⟩
  | .tok (.str s) => .ok ⟨st.nameSet, true, st.data ++ [mapSet values valueName s]⟩
  | .tok (.int _) => .panic
  | .smap v =>
    match innerLoopMap L v (st.nameSet, values) with
    | .ok r => .ok ⟨r.1, st.hasValue, st.data ++ [r.2]⟩
    | .err err => .err err
    | .panic => .panic
    | .timeout => .timeout
  | .slice v =>
    match innerLoopSlice L 0 v (st.nameSet, values) with
    | .ok r => .ok ⟨r.1, st.hasValue, st.data ++ [r.2]⟩
    | .err err => .err err
    | .panic => .panic
    | .timeout => .timeout
  | .imap _ => .panic

/-- The loop of `tototot` over the keys of the `maplike`. -/
def tableLoop {ν : Type} (L : NumLib ν) : TableState → List (MlKey × Val ν) → Res TableState
  | st, [] => .ok st
  | st, e :: rest =>
    match tableStep L st e with
    | .ok st2 => tableLoop L st2 rest
    | .err err => .err err
    | .panic => .panic
    | .timeout => .timeout

/-- The `table` that `tototot` returns. -/
structure Table where
  columnNames : List (List Char)
  data : List (List (List Char × List Char))

/-- `tototot`: the column names are `<Index>`, the sorted escaped names of `nameSet`, and
`<Value>` when some entry is a scalar. -/
def tototot {ν : Type} (L : NumLib ν) (m : List (MlKey × Val ν)) : Res Table :=
  match tableLoop L ⟨[], false, []⟩ m with
  | .ok st =>
    .ok ⟨indexName :: (sortStrings (st.nameSet.map escape)
        ++ (if st.hasValue then [valueName] else [])), st.data⟩
  | .err e => .err e
  | .panic => .panic
  | .timeout => .timeout

/-- `toTableRows`: the header row, then for every entry the cells `m[name]` of the column
names, the empty string where `values` has no such key; a `dat` that is neither a slice nor
a `map[string]interface{}` panics. -/
def toTableRows {ν : Type} (L : NumLib ν) (dat : Val ν) : Res Rows :=
  match mlEntries dat with
  | none => .panic
  | some ml =>
    match tototot L ml with
    | .ok table =>
      .ok (table.columnNames ::
        table.data.map (fun m => table.columnNames.map (fun name => (mapGet m name).getD [])))
    | .err e => .err e
    | .panic => .panic
    | .timeout => .timeout

/-- The Object with the entry `r`, an Object with the key `a b` mapped to the String `x`. -/
def tableWithBlankKey : Val Int :=
  .smap [(['r'], .smap [(['a', ' ', 'b'], .tok (.str ['x']))])]

/-- The Object with the entry `r`, an Object with the key `a` mapped to the String `x`. -/
def tableWithPlainKey : Val Int :=
  .smap [(['r'], .smap [(['a'], .tok (.str ['x']))])]

/-! ## Chains whose order does not matter -/

/-- The keys of a path, in order. -/
def Path.keys {ν : Type} : Path ν → List (Tok ν)
  | .leaf _ => []
  | .kv k p => k :: p.keys

/-- The full key path of a chain: its head key, then the keys of its remainder. -/
def fullKeys {ν : Type} (c : Tok ν × Path ν) : List (Tok ν) := c.1 :: c.2.keys

/-- The full key paths of the chains are pairwise distinct and none is a prefix of
another. -/
def Independent {ν : Type} (l : List (Tok ν × Path ν)) : Prop :=
  l.Pairwise (fun a b => ¬ fullKeys a <+: fullKeys b ∧ ¬ fullKeys b <+: fullKeys a)

/-- `kvsToMap` followed by `makeKeyStringOrCvtSlice`, as in `Decode` after the lines are
read. -/
def buildAndCanon {ν : Type} [DecidableEq ν] (fuel : Nat) (kvs : List (Tok ν × Path ν)) :
    Res (Val ν) :=
  match kvsToMap fuel kvs with
  | .ok m => makeKeyStringOrCvtSlice fuel (.imap m)
  | .err e => .err e
  | .panic => .panic
  | .timeout => .timeout

/-- The remainder of a chain with head key `k` and a nested assignment, as a chain. -/
def subChain {ν : Type} [DecidableEq ν] (k : Tok ν) (c : Tok ν × Path ν) :
    Option (Tok ν × Path ν) :=
  match c.2 with
  | .kv k2 p2 => if c.1 = k then some (k2, p2) else none
  | .leaf _ => none

/-- The remainders of the chains with head key `k`. -/
def subChains {ν : Type} [DecidableEq ν] (k : Tok ν) (l : List (Tok ν × Path ν)) :
    List (Tok ν × Path ν) :=
  l.filterMap (subChain k)

/-- What the chains with head key `k` assign, in order. -/
def pathsAt {ν : Type} [DecidableEq ν] (k : Tok ν) (l : List (Tok ν × Path ν)) :
    List (Path ν) :=
  (l.filter (fun c => decide (c.1 = k))).map Prod.snd

/-- What one iteration of the first loop of `kvsToMap` stores under the key of the chain,
given what the key holds. -/
def stepSlot {ν : Type} : Option (Slot ν) → Path ν → Res (Slot ν)
  | _, .leaf t => .ok (.scalar t)
  | none, .kv k2 v2 => .ok (.kvs [(k2, v2)])
  | some (.kvs l), .kv k2 v2 => .ok (.kvs (l ++ [(k2, v2)]))
  | some (.scalar _), .kv _ _ => .panic

/-- The iterations of the first loop of `kvsToMap` as seen from one key. -/
def foldSlot {ν : Type} : Option (Slot ν) → List (Path ν) → Res (Option (Slot ν))
  | s, [] => .ok s
  | s, p :: ps =>
    match stepSlot s p with
    | .ok sl => foldSlot (some sl) ps
    | .err e => .err e
    | .panic => .panic
    | .timeout => .timeout

/-- Two slots hold the same scalar, or permutations of independent chains. -/
def SlotRel {ν : Type} : Option (Slot ν) → Option (Slot ν) → Prop
  | none, none => True
  | some (.scalar t), some (.scalar t2) => t = t2
  | some (.kvs a), some (.kvs b) => a.Perm b ∧ Independent a
  | _, _ => False

/-- Two children are canonicalized alike with fuel `n`. -/
def ChildRel {ν : Type} [DecidableEq ν] (n : Nat) : Option (Val ν) → Option (Val ν) → Prop
  | none, none => True
  | some v, some v2 => makeKeyStringOrCvtSlice n v = makeKeyStringOrCvtSlice n v2
  | _, _ => False

/-- Two raw nodes have the same keys, under which their children are canonicalized
alike. -/
def NodeRel {ν : Type} [DecidableEq ν] (n : Nat) (r r2 : List (Tok ν × Val ν)) : Prop :=
  (r.map Prod.fst).Nodup ∧ (r2.map Prod.fst).Nodup
    ∧ ∀ k, ChildRel n (mapGet r k) (mapGet r2 k)

/-- On two lists of chains `kvsToMap` runs out of fuel alike, or returns raw nodes that are
canonicalized alike. -/
def BuildRel {ν : Type} [DecidableEq ν] (n : Nat) (a b : List (Tok ν × Path ν)) : Prop :=
  (kvsToMap n a = .timeout ∧ kvsToMap n b = .timeout)
  ∨ ∃ r r2, kvsToMap n a = .ok r ∧ kvsToMap n b = .ok r2
      ∧ makeKeyStringOrCvtSlice n (.imap r) = makeKeyStringOrCvtSlice n (.imap r2)

/-- The value `extract` puts where the first loop of `kvsToMap` left a slot. -/
def slotVal {ν : Type} (f : List (Tok ν × Path ν) → Res (List (Tok ν × Val ν))) :
    Slot ν → Option (Val ν)
  | .scalar t => some (.tok t)
  | .kvs sub =>
    match f sub with
    | .ok mm => some (.imap mm)
    | _ => none

/-- The chains of the lines `a b x`, `c y`, `a d z`. -/
def orderedChains : List (Tok Int × Path Int) :=
  [(.str ['a'], .kv (.str ['b']) (.leaf (.str ['x']))),
   (.str ['c'], .leaf (.str ['y'])),
   (.str ['a'], .kv (.str ['d']) (.leaf (.str ['z'])))]

/-- The chains of the lines `a d z`, `a b x`, `c y`. -/
def permutedChains : List (Tok Int × Path Int) :=
  [(.str ['a'], .kv (.str ['d']) (.leaf (.str ['z']))),
   (.str ['a'], .kv (.str ['b']) (.leaf (.str ['x']))),
   (.str ['c'], .leaf (.str ['y']))]

/-! ## Values whose text begins with the byte-order mark -/

/-- The String made of U+FEFF and `a`. -/
def bomString : Val Int := .tok (.str [bom, 'a'])

/-- The Object with the key made of U+FEFF and `a`, mapped to the String `b`. -/
def bomObject : Val Int := .smap [([bom, 'a'], .tok (.str ['b']))]

/-! # Theorems -/

/-! ## Fuel -/

/-- More fuel does not change an outcome of `decodeLine` other than `timeout`. -/
theorem decodeLine_succ {ν : Type} (L : NumLib ν) : ∀ (n : Nat) (inp : List Char)
    (r : Res (Path ν × List Char)), decodeLine L n inp = r → r ≠ .timeout →
    decodeLine L (n + 1) inp = r := by
  intro n
  induction n with
  | zero => intro inp r h hne; rw [decodeLine] at h; exact absurd h.symm hne
  | succ n ih =>
    intro inp r h hne
    rw [decodeLine] at h ⊢
    cases hs : scanToken L inp with
    | ok p =>
      obtain ⟨v, rest⟩ := p
      rw [hs] at h
      simp only at h ⊢
      split
      · rename_i rest2 heq
        rw [heq] at h
        exact h
      · rename_i rest2 hnot
        split at h
        · rename_i r3 heq; exact absurd heq (hnot _)
        · cases hd : decodeLine L n (skipBrank rest) with
          | ok q => rw [ih _ _ hd (by simp)]; rw [hd] at h; exact h
          | err e => rw [ih _ _ hd (by simp)]; rw [hd] at h; exact h
          | panic => rw [ih _ _ hd (by simp)]; rw [hd] at h; exact h
          | timeout => rw [hd] at h; exact absurd h.symm hne
    | err e => rw [hs] at h; exact h
    | panic => rw [hs] at h; exact h
    | timeout => rw [hs] at h; exact h

theorem decodeLine_mono {ν : Type} (L : NumLib ν) (n k : Nat) (inp : List Char)
    (r : Res (Path ν × List Char)) (h : decodeLine L n inp = r) (hne : r ≠ .timeout) :
    decodeLine L (n + k) inp = r := by
  induction k with
  | zero => exact h
  | succ k ih => exact decodeLine_succ L _ _ _ ih hne

theorem decodeLines_succ {ν : Type} (L : NumLib ν) : ∀ (n : Nat) (inp : List Char)
    (r : Res (List (Path ν))), decodeLines L n inp = r → r ≠ .timeout →
    decodeLines L (n + 1) inp = r := by
  intro n
  induction n with
  | zero => intro inp r h hne; rw [decodeLines] at h; exact absurd h.symm hne
  | succ n ih =>
    intro inp r h hne
    cases inp with
    | nil => rw [decodeLines] at h ⊢; exact h
    | cons c cs =>
      rw [decodeLines] at h ⊢
      cases hd : decodeLine L (n + 1) (skipBrank (c :: cs)) with
      | ok p =>
        obtain ⟨path, rest⟩ := p
        rw [hd] at h
        rw [decodeLine_succ L _ _ _ hd (by simp)]
        simp only at h ⊢
        cases hl : decodeLines L n rest with
        | ok q => rw [ih _ _ hl (by simp)]; rw [hl] at h; exact h
        | err e => rw [ih _ _ hl (by simp)]; rw [hl] at h; exact h
        | panic => rw [ih _ _ hl (by simp)]; rw [hl] at h; exact h
        | timeout => rw [hl] at h; exact absurd h.symm hne
      | err e => rw [hd] at h; rw [decodeLine_succ L _ _ _ hd (by simp)]; exact h
      | panic => rw [hd] at h; rw [decodeLine_succ L _ _ _ hd (by simp)]; exact h
      | timeout => rw [hd] at h; exact absurd h.symm hne

theorem extract_mono {ν : Type} (f g : List (Tok ν × Path ν) → Res (List (Tok ν × Val ν)))
    (hfg : ∀ l r, f l = r → r ≠ .timeout → g l = r) :
    ∀ (m : List (Tok ν × Slot ν)) (r : Res (List (Tok ν × Val ν))),
      extract f m = r → r ≠ .timeout → extract g m = r := by
  intro m
  induction m with
  | nil => intro r h _; exact h
  | cons a m ih =>
    intro r h hne
    obtain ⟨k, s⟩ := a
    cases s with
    | scalar t =>
      rw [extract] at h ⊢
      cases he : extract f m with
      | ok q => rw [ih _ he (by simp)]; rw [he] at h; exact h
      | err e => rw [ih _ he (by simp)]; rw [he] at h; exact h
      | panic => rw [ih _ he (by simp)]; rw [he] at h; exact h
      | timeout => rw [he] at h; exact absurd h.symm hne
    | kvs l =>
      rw [extract] at h ⊢
      cases hf : f l with
      | ok mm =>
        rw [hfg _ _ hf (by simp)]
        rw [hf] at h
        simp only at h ⊢
        cases he : extract f m with
        | ok q => rw [ih _ he (by simp)]; rw [he] at h; exact h
        | err e => rw [ih _ he (by simp)]; rw [he] at h; exact h
        | panic => rw [ih _ he (by simp)]; rw [he] at h; exact h
        | timeout => rw [he] at h; exact absurd h.symm hne
      | err e => rw [hfg _ _ hf (by simp)]; rw [hf] at h; exact h
      | panic => rw [hfg _ _ hf (by simp)]; rw [hf] at h; exact h
      | timeout => rw [hf] at h; exact absurd h.symm hne

theorem kvsToMap_succ {ν : Type} [DecidableEq ν] : ∀ (n : Nat) (kvs : List (Tok ν × Path ν))
    (r : Res (List (Tok ν × Val ν))), kvsToMap n kvs = r → r ≠ .timeout →
    kvsToMap (n + 1) kvs = r := by
  intro n
  induction n with
  | zero => intro kvs r h hne; rw [kvsToMap] at h; exact absurd h.symm hne
  | succ n ih =>
    intro kvs r h hne
    rw [kvsToMap] at h ⊢
    cases hg : group [] kvs with
    | ok m =>
      rw [hg] at h
      exact extract_mono _ _ ih m r h hne
    | err e => rw [hg] at h; exact h
    | panic => rw [hg] at h; exact h
    | timeout => rw [hg] at h; exact h

theorem mapValues_mono {κ α : Type} (f g : α → Res α)
    (hfg : ∀ a r, f a = r → r ≠ .timeout → g a = r) :
    ∀ (m : List (κ × α)) (r : Res (List (κ × α))),
      mapValues f m = r → r ≠ .timeout → mapValues g m = r := by
  intro m
  induction m with
  | nil => intro r h _; exact h
  | cons a m ih =>
    intro r h hne
    obtain ⟨k, v⟩ := a
    rw [mapValues] at h ⊢
    cases hf : f v with
    | ok nv =>
      rw [hfg _ _ hf (by simp)]
      rw [hf] at h
      simp only at h ⊢
      cases he : mapValues f m with
      | ok q => rw [ih _ he (by simp)]; rw [he] at h; exact h
      | err e => rw [ih _ he (by simp)]; rw [he] at h; exact h
      | panic => rw [ih _ he (by simp)]; rw [he] at h; exact h
      | timeout => rw [he] at h; exact absurd h.symm hne
    | err e => rw [hfg _ _ hf (by simp)]; rw [hf] at h; exact h
    | panic => rw [hfg _ _ hf (by simp)]; rw [hf] at h; exact h
    | timeout => rw [hf] at h; exact absurd h.symm hne

theorem mapSlice_mono {α : Type} (f g : α → Res α)
    (hfg : ∀ a r, f a = r → r ≠ .timeout → g a = r) :
    ∀ (m : List α) (r : Res (List α)),
      mapSlice f m = r → r ≠ .timeout → mapSlice g m = r := by
  intro m
  induction m with
  | nil => intro r h _; exact h
  | cons v m ih =>
    intro r h hne
    rw [mapSlice] at h ⊢
    cases hf : f v with
    | ok nv =>
      rw [hfg _ _ hf (by simp)]
      rw [hf] at h
      simp only at h ⊢
      cases he : mapSlice f m with
      | ok q => rw [ih _ he (by simp)]; rw [he] at h; exact h
      | err e => rw [ih _ he (by simp)]; rw [he] at h; exact h
      | panic => rw [ih _ he (by simp)]; rw [he] at h; exact h
      | timeout => rw [he] at h; exact absurd h.symm hne
    | err e => rw [hfg _ _ hf (by simp)]; rw [hf] at h; exact h
    | panic => rw [hfg _ _ hf (by simp)]; rw [hf] at h; exact h
    | timeout => rw [hf] at h; exact absurd h.symm hne

theorem makeKeyStringOrCvtSlice_succ {ν : Type} [DecidableEq ν] : ∀ (n : Nat) (v : Val ν)
    (r : Res (Val ν)), makeKeyStringOrCvtSlice n v = r → r ≠ .timeout →
    makeKeyStringOrCvtSlice (n + 1) v = r := by
  intro n
  induction n with
  | zero =>
    intro v r h hne
    cases v with
    | tok t => rw [makeKeyStringOrCvtSlice] at h ⊢; exact h
    | smap m => rw [makeKeyStringOrCvtSlice] at h ⊢; exact h
    | slice xs => rw [makeKeyStringOrCvtSlice] at h ⊢; exact h
    | imap m => rw [makeKeyStringOrCvtSlice] at h; exact absurd h.symm hne
  | succ n ih =>
    intro v r h hne
    cases v with
    | tok t => rw [makeKeyStringOrCvtSlice] at h ⊢; exact h
    | smap m => rw [makeKeyStringOrCvtSlice] at h ⊢; exact h
    | slice xs => rw [makeKeyStringOrCvtSlice] at h ⊢; exact h
    | imap m =>
      rw [makeKeyStringOrCvtSlice] at h ⊢
      cases hk : tryMakeKeyString m with
      | some sm =>
        rw [hk] at h
        simp only at h ⊢
        cases hm : mapValues (makeKeyStringOrCvtSlice n) sm with
        | ok q => rw [mapValues_mono _ _ ih _ _ hm (by simp)]; rw [hm] at h; exact h
        | err e => rw [mapValues_mono _ _ ih _ _ hm (by simp)]; rw [hm] at h; exact h
        | panic => rw [mapValues_mono _ _ ih _ _ hm (by simp)]; rw [hm] at h; exact h
        | timeout => rw [hm] at h; exact absurd h.symm hne
      | none =>
        rw [hk] at h
        simp only at h ⊢
        cases hc : tryCvtSlice m with
        | none => rw [hc] at h; exact h
        | some sl =>
          rw [hc] at h
          simp only at h ⊢
          cases hm : mapSlice (makeKeyStringOrCvtSlice n) sl with
          | ok q => rw [mapSlice_mono _ _ ih _ _ hm (by simp)]; rw [hm] at h; exact h
          | err e => rw [mapSlice_mono _ _ ih _ _ hm (by simp)]; rw [hm] at h; exact h
          | panic => rw [mapSlice_mono _ _ ih _ _ hm (by simp)]; rw [hm] at h; exact h
          | timeout => rw [hm] at h; exact absurd h.symm hne

theorem Decode_succ {ν : Type} [DecidableEq ν] (L : NumLib ν) (n : Nat) (inp : List Char)
    (r : Res (Val ν)) (h : Decode L n inp = r) (hne : r ≠ .timeout) :
    Decode L (n + 1) inp = r := by
  unfold Decode decodeToMapOrV at h ⊢
  cases hl : decodeLines L n inp with
  | ok paths =>
    rw [hl] at h
    rw [decodeLines_succ L _ _ _ hl (by simp)]
    simp only at h ⊢
    cases hc : collectKvs paths with
    | inl t =>
      rw [hc] at h
      simp only at h ⊢
      exact makeKeyStringOrCvtSlice_succ _ _ _ h hne
    | inr kvs =>
      rw [hc] at h
      simp only at h ⊢
      cases hk : kvsToMap n kvs with
      | ok m =>
        rw [hk] at h
        rw [kvsToMap_succ _ _ _ hk (by simp)]
        simp only at h ⊢
        exact makeKeyStringOrCvtSlice_succ _ _ _ h hne
      | err e => rw [hk] at h; rw [kvsToMap_succ _ _ _ hk (by simp)]; exact h
      | panic => rw [hk] at h; rw [kvsToMap_succ _ _ _ hk (by simp)]; exact h
      | timeout => rw [hk] at h; exact absurd h.symm hne
  | err e => rw [hl] at h; rw [decodeLines_succ L _ _ _ hl (by simp)]; exact h
  | panic => rw [hl] at h; rw [decodeLines_succ L _ _ _ hl (by simp)]; exact h
  | timeout => rw [hl] at h; exact absurd h.symm hne

/-- More fuel does not change an outcome other than `timeout`. -/
theorem Decode_mono {ν : Type} [DecidableEq ν] (L : NumLib ν) (n k : Nat) (inp : List Char)
    (r : Res (Val ν)) (h : Decode L n inp = r) (hne : r ≠ .timeout) :
    Decode L (n + k) inp = r := by
  induction k with
  | zero => exact h
  | succ k ih => exact Decode_succ L _ _ _ ih hne

theorem kvsToMap_mono {ν : Type} [DecidableEq ν] (n k : Nat) (kvs : List (Tok ν × Path ν))
    (r : Res (List (Tok ν × Val ν))) (h : kvsToMap n kvs = r) (hne : r ≠ .timeout) :
    kvsToMap (n + k) kvs = r := by
  induction k with
  | zero => exact h
  | succ k ih => exact kvsToMap_succ _ _ _ ih hne

theorem makeKeyStringOrCvtSlice_mono {ν : Type} [DecidableEq ν] (n k : Nat) (v : Val ν)
    (r : Res (Val ν)) (h : makeKeyStringOrCvtSlice n v = r) (hne : r ≠ .timeout) :
    makeKeyStringOrCvtSlice (n + k) v = r := by
  induction k with
  | zero => exact h
  | succ k ih => exact makeKeyStringOrCvtSlice_succ _ _ _ ih hne

/-! ## End of input, and the panic of the tree builder -/

/-- At end-of-input `decodeLine` reads an empty bare token, finds no newline and calls
itself in the same state: it never returns. -/
theorem decodeLine_eof {ν : Type} (L : NumLib ν) : ∀ fuel, decodeLine L fuel [] = .timeout := by
  intro fuel
  induction fuel with
  | zero => rfl
  | succ n ih =>
    rw [decodeLine]
    simp [scanToken, scanStr, scanStrAux, skipBrank, ih]

/-- C5: on the text `a b` without a final newline `Decode` never returns, whatever the
fuel, while on `a b` followed by a newline it returns the object with `a` mapped to `b`. -/
theorem C5_eof_does_not_end_line {ν : Type} [DecidableEq ν] (L : NumLib ν) (fuel : Nat) :
    Decode L fuel ['a', ' ', 'b'] = .timeout
    ∧ Decode L (2 + fuel) ['a', ' ', 'b', '\n'] = .ok (.smap [(['a'], .tok (.str ['b']))]) := by
  refine ⟨?_, Decode_mono L 2 fuel _ _ rfl (by simp)⟩
  have hline : ∀ n, decodeLine L n ['a', ' ', 'b'] = .timeout := by
    intro n
    rcases n with _ | _ | k
    · rfl
    · rfl
    · rw [decodeLine]
      simp only [scanToken, scanStr, scanStrAux, skipBrank, isStrChar, isBrank]
      simp only [decodeLine]
      simp [scanToken, scanStr, scanStrAux, skipBrank, isStrChar, isBrank, decodeLine_eof]
  cases fuel with
  | zero => rfl
  | succ n =>
    unfold Decode decodeToMapOrV
    rw [decodeLines]
    have hs : skipBrank ['a', ' ', 'b'] = ['a', ' ', 'b'] := rfl
    rw [hs, hline]

/-- C6: on the chains of the lines `a x` and `a b c` the first loop of `kvsToMap` finds a
scalar under `a` where it expects a `[]kv` and panics; so does `Decode` on that document. -/
theorem C6_kvsToMap_panics {ν : Type} [DecidableEq ν] (L : NumLib ν) (fuel : Nat) :
    kvsToMap (1 + fuel)
        [((.str ['a'] : Tok ν), .leaf (.str ['x'])),
         (.str ['a'], .kv (.str ['b']) (.leaf (.str ['c'])))] = .panic
    ∧ Decode L (4 + fuel) ['a', ' ', 'x', '\n', 'a', ' ', 'b', ' ', 'c', '\n'] = .panic :=
  ⟨kvsToMap_mono 1 fuel _ _ rfl (by simp), Decode_mono L 4 fuel _ _ rfl (by simp)⟩

/-- C7: on the chains of the lines `a x`, `a b c`, `a y`, whose last chain assigns the
scalar `y` to `a`, `kvsToMap` panics at the second chain and maps `a` to nothing; on the
lines `a x`, `a y` alone `Decode` returns the object with `a` mapped to `y`. -/
theorem C7_last_scalar_lost_to_panic {ν : Type} [DecidableEq ν] (L : NumLib ν) (fuel : Nat) :
    kvsToMap (1 + fuel)
        [((.str ['a'] : Tok ν), .leaf (.str ['x'])),
         (.str ['a'], .kv (.str ['b']) (.leaf (.str ['c']))),
         (.str ['a'], .leaf (.str ['y']))] = .panic
    ∧ Decode L (5 + fuel)
        ['a', ' ', 'x', '\n', 'a', ' ', 'b', ' ', 'c', '\n', 'a', ' ', 'y', '\n'] = .panic
    ∧ Decode L (4 + fuel) ['a', ' ', 'x', '\n', 'a', ' ', 'y', '\n']
        = .ok (.smap [(['a'], .tok (.str ['y']))]) :=
  ⟨kvsToMap_mono 1 fuel _ _ rfl (by simp), Decode_mono L 5 fuel _ _ rfl (by simp),
    Decode_mono L 4 fuel _ _ rfl (by simp)⟩

/-! ## Token-level round trip -/

theorem replaceAll_nil (old : Char) (new : List Char) : replaceAll old new [] = [] := rfl

theorem replaceAll_cons (old : Char) (new : List Char) (c : Char) (s : List Char) :
    replaceAll old new (c :: s) = (if c = old then new else [c]) ++ replaceAll old new s := by
  simp [replaceAll]

theorem replaceAll_append (old : Char) (new : List Char) (s t : List Char) :
    replaceAll old new (s ++ t) = replaceAll old new s ++ replaceAll old new t := by
  simp [replaceAll]

theorem replaceAll_three (s : List Char) :
    replaceAll '\n' ['\\', 'n'] (replaceAll ' ' ['\\', ' '] (replaceAll '\\' ['\\', '\\'] s))
      = s.flatMap escChar := by
  induction s with
  | nil => rfl
  | cons c s ih =>
    rw [replaceAll_cons, replaceAll_append, replaceAll_append, ih, List.flatMap_cons]
    congr 1
    unfold escChar
    by_cases h1 : c = '\\'
    · subst h1; decide
    · by_cases h2 : c = ' '
      · subst h2; decide
      · by_cases h3 : c = '\n'
        · subst h3; decide
        · simp [h1, h2, h3, replaceAll]

theorem escape_nil : escape [] = ['<', '>'] := rfl

theorem escape_cons (c : Char) (s : List Char) :
    escape (c :: s) =
      if c = '<' ∨ c = '#' then '\\' :: (c :: s).flatMap escChar
      else (c :: s).flatMap escChar := by
  unfold escape
  simp only [replaceAll_three, List.flatMap_cons]
  by_cases h1 : c = '\\'
  · subst h1; simp [escChar]
  · by_cases h2 : c = ' '
    · subst h2; simp [escChar]
    · by_cases h3 : c = '\n'
      · subst h3; simp [escChar]
      · simp [escChar, h1, h2, h3]

theorem scanStrAux_escChar (c : Char) (acc rest : List Char) :
    scanStrAux acc (escChar c ++ rest) = scanStrAux (acc ++ [c]) rest := by
  unfold escChar
  by_cases h1 : c = '\\'
  · subst h1
    simp only [if_true, List.cons_append, List.nil_append]
    rw [scanStrAux.eq_def]
    simp [isStrChar, isBrank]
  · by_cases h2 : c = ' '
    · subst h2
      simp only [if_true, List.cons_append, List.nil_append]
      rw [scanStrAux.eq_def]
      simp [isStrChar, isBrank]
    · by_cases h3 : c = '\n'
      · subst h3
        simp only [if_true, List.cons_append, List.nil_append]
        rw [scanStrAux.eq_def]
        simp [isStrChar, isBrank]
      · simp only [h1, h2, h3, if_false, List.cons_append, List.nil_append]
        rw [scanStrAux.eq_def]
        simp [isStrChar, isBrank, h1, h2, h3]

/-- Scanning the escaped characters of `s` appends `s` to the accumulator. -/
theorem scanStrAux_flatMap (s : List Char) : ∀ (acc rest : List Char),
    scanStrAux acc (s.flatMap escChar ++ rest) = scanStrAux (acc ++ s) rest := by
  induction s with
  | nil => intro acc rest; simp
  | cons c s ih =>
    intro acc rest
    rw [List.flatMap_cons, List.append_assoc, scanStrAux_escChar, ih]
    simp

theorem scanStrAux_stop (acc rest : List Char) (c : Char) (h : isStrChar c = false) :
    scanStrAux acc (c :: rest) = (acc, c :: rest) := by
  rw [scanStrAux.eq_def]; simp [h]

/-- The escaped text of a non-empty string, followed by a character that ends a bare
token, scans back to the string. -/
theorem scanStr_escape (s : List Char) (hs : s ≠ []) (c : Char) (rest : List Char)
    (hc : isStrChar c = false) :
    scanStr (escape s ++ c :: rest) = (s, c :: rest) := by
  cases s with
  | nil => exact absurd rfl hs
  | cons a s =>
    rw [escape_cons]
    unfold scanStr
    by_cases h : a = '<' ∨ a = '#'
    · rw [if_pos h, List.flatMap_cons]
      have hesc : escChar a = [a] := by
        rcases h with h | h <;> subst h <;> decide
      rw [hesc]
      simp only [List.cons_append, List.nil_append]
      rw [scanStrAux.eq_def]
      have hn : a ≠ 'n' := by rcases h with h | h <;> subst h <;> decide
      simp only [isStrChar, isBrank, hn, if_false]
      rw [scanStrAux_flatMap, scanStrAux_stop _ _ _ hc]
      simp
    · rw [if_neg h, scanStrAux_flatMap, scanStrAux_stop _ _ _ hc]
      simp

/-- The escaped text of a non-empty string starts with neither `<` nor `#`. -/
theorem escape_head (s : List Char) (hs : s ≠ []) :
    ∃ c t, escape s = c :: t ∧ c ≠ '<' ∧ c ≠ '#' := by
  cases s with
  | nil => exact absurd rfl hs
  | cons a s =>
    rw [escape_cons]
    by_cases h : a = '<' ∨ a = '#'
    · rw [if_pos h]; exact ⟨'\\', _, rfl, by decide, by decide⟩
    · rw [if_neg h, List.flatMap_cons]
      simp only [not_or] at h
      unfold escChar
      by_cases h1 : a = '\\'
      · subst h1; exact ⟨'\\', _, rfl, by decide, by decide⟩
      · by_cases h2 : a = ' '
        · subst h2; exact ⟨'\\', _, rfl, by decide, by decide⟩
        · by_cases h3 : a = '\n'
          · subst h3; exact ⟨'\\', _, rfl, by decide, by decide⟩
          · simp only [h1, h2, h3, if_false]
            exact ⟨a, _, rfl, h.1, h.2⟩

/-- The token switch reads an escaped string back, whatever character that ends a bare
token follows it. -/
theorem scanToken_escape {ν : Type} (L : NumLib ν) (s : List Char) (c : Char)
    (rest : List Char) (hc : isStrChar c = false) :
    scanToken L (escape s ++ c :: rest) = .ok (.str s, c :: rest) := by
  by_cases hs : s = []
  · subst hs
    have hc2 : c ≠ '>' := by
      intro h; subst h; simp [isStrChar, isBrank] at hc
    simp [escape_nil, scanToken, scanBracket, scanBracketBody, expectClose, isNumChar,
      isKwdChar, isIntChar]
  · obtain ⟨a, t, hat, h1, h2⟩ := escape_head s hs
    have := scanStr_escape s hs c rest hc
    rw [hat] at this ⊢
    simp only [List.cons_append] at this ⊢
    unfold scanToken
    split
    · rename_i heq; simp at heq; exact absurd heq.1 h1
    · rename_i heq; simp at heq; exact absurd heq.1 h2
    · rw [this]

/-! ## The scanner and the byte-order mark -/
/-- `Peek` returns the first character still to be delivered, or `EOF`. -/
theorem Scanner.Peek_ch (s : Scanner) :
    s.Peek.ch = match s.delivered with
      | [] => ScanCh.eof
      | c :: _ => ScanCh.rune c := by
  obtain ⟨ch, src⟩ := s
  cases ch with
  | eof => rfl
  | rune c => rfl
  | fresh =>
    cases src with
    | nil => rfl
    | cons c rest =>
      by_cases h : c = bom
      · subst h
        cases rest <;> rfl
      · simp [Scanner.Peek, Scanner.next, Scanner.delivered, h]

/-- `Peek` consumes nothing of what is still to be delivered. -/
theorem Scanner.Peek_delivered (s : Scanner) : s.Peek.delivered = s.delivered := by
  obtain ⟨ch, src⟩ := s
  cases ch with
  | eof => rfl
  | rune c => rfl
  | fresh =>
    cases src with
    | nil => rfl
    | cons c rest =>
      by_cases h : c = bom
      · subst h
        cases rest <;> rfl
      · simp [Scanner.Peek, Scanner.next, Scanner.delivered, h]

/-- `Next` consumes the first character still to be delivered. -/
theorem Scanner.Next_delivered (s : Scanner) : s.Next.delivered = s.delivered.tail := by
  have h1 := Scanner.Peek_ch s
  have h2 := Scanner.Peek_delivered s
  unfold Scanner.Next
  generalize s.Peek = p at h1 h2
  obtain ⟨ch, src⟩ := p
  rw [← h2]
  cases ch with
  | eof => rfl
  | rune c => cases src <;> rfl
  | fresh =>
    simp only at h1
    cases hd : s.delivered with
    | nil => rw [hd] at h1; cases h1
    | cons c tl => rw [hd] at h1; cases h1

/-- A source that does not begin with U+FEFF is delivered whole. -/
theorem NewDecoder_eq (src : List Char) (h : src.head? ≠ some bom) : NewDecoder src = src := by
  cases src with
  | nil => rfl
  | cons c rest =>
    have hc : c ≠ bom := by
      intro hc; subst hc; exact h rfl
    simp [NewDecoder, Scanner.Init, Scanner.delivered, hc]

/-- A U+FEFF at the start of the source is not delivered. -/
theorem NewDecoder_bom (rest : List Char) : NewDecoder (bom :: rest) = rest := by
  simp [NewDecoder, Scanner.Init, Scanner.delivered]

/-- The escaped text of a string begins with U+FEFF only when the string does. -/
theorem escape_head_ne_bom (s : List Char) (h : s.head? ≠ some bom) :
    (escape s).head? ≠ some bom := by
  cases s with
  | nil => decide
  | cons a s =>
    have ha : a ≠ bom := by
      intro hc; subst hc; exact h rfl
    have hb : ('\\' : Char) ≠ bom := by decide
    rw [escape_cons]
    by_cases h1 : a = '<' ∨ a = '#'
    · rw [if_pos h1]
      simp only [List.head?_cons, ne_eq, Option.some.injEq]
      exact hb
    · rw [if_neg h1, List.flatMap_cons]
      unfold escChar
      by_cases h2 : a = '\\'
      · subst h2
        simp only [if_true, List.cons_append, List.head?_cons, ne_eq, Option.some.injEq]
        exact hb
      · by_cases h3 : a = ' '
        · subst h3
          simp only [if_neg h2, if_true, List.cons_append, List.head?_cons, ne_eq,
            Option.some.injEq]
          exact hb
        · by_cases h4 : a = '\n'
          · subst h4
            simp only [if_neg h2, if_neg h3, if_true, List.cons_append, List.head?_cons,
              ne_eq, Option.some.injEq]
            exact hb
          · simp only [if_neg h2, if_neg h3, if_neg h4, List.cons_append, List.head?_cons,
              ne_eq, Option.some.injEq]
            exact ha

/-! ## Token-level round trip: the claim -/
/-- From a state whose scanner delivers `escape s` and a newline, `decodeLine` returns the
string `s` and leaves nothing to read. -/
theorem decodeLine_escape {ν : Type} (L : NumLib ν) (s : List Char) (fuel : Nat) :
    decodeLine L (fuel + 1) (escape s ++ ['\n']) = .ok (.leaf (.str s), []) := by
  rw [decodeLine, scanToken_escape L s '\n' [] (by decide)]
  simp [skipBrank, isBrank]

/-- C2, as stated, fails: `escape` leaves the string made of U+FEFF and `a` as it is, and
`decodeLine` on a fresh decoder over that text followed by a newline returns the string
`a`, the scanner having discarded the U+FEFF at the start of its source. -/
theorem C2_counterexample :
    escape [bom, 'a'] = [bom, 'a']
    ∧ (∀ fuel, decodeLine intLib (fuel + 1) (NewDecoder (escape [bom, 'a'] ++ ['\n']))
        = .ok (.leaf (.str ['a']), []))
    ∧ ([bom, 'a'] : List Char) ≠ ['a'] := by
  refine ⟨by decide, fun fuel => ?_, by decide⟩
  have h : escape [bom, 'a'] ++ ['\n'] = bom :: (escape ['a'] ++ ['\n']) := by decide
  rw [h, NewDecoder_bom]
  exact decodeLine_escape intLib ['a'] fuel

/-- C2, amended: for every string `s` that does not begin with U+FEFF, `decodeLine` on a
fresh decoder over `escape s` followed by a newline consumes the whole text and returns the
string `s`; `escape ""` is `<>`, and `<>` decodes to `""`. -/
theorem C2_escape_round_trip {ν : Type} (L : NumLib ν) (s : List Char) (fuel : Nat)
    (hs : s.head? ≠ some bom) :
    decodeLine L (fuel + 1) (NewDecoder (escape s ++ ['\n'])) = .ok (.leaf (.str s), [])
    ∧ escape [] = ['<', '>']
    ∧ decodeLine L (fuel + 1) (NewDecoder ['<', '>', '\n']) = .ok (.leaf (.str []), []) := by
  have h : ∀ t : List Char, t.head? ≠ some bom →
      decodeLine L (fuel + 1) (NewDecoder (escape t ++ ['\n'])) = .ok (.leaf (.str t), []) := by
    intro t ht
    have hh : (escape t ++ ['\n']).head? ≠ some bom := by
      have he := escape_head_ne_bom t ht
      cases hesc : escape t with
      | nil => decide
      | cons a tl => rw [hesc] at he; exact he
    rw [NewDecoder_eq _ hh]
    exact decodeLine_escape L t fuel
  exact ⟨h s hs, rfl, h [] (by decide)⟩

/-- C2 at the string made of `#`, a blank, a backslash and a newline. -/
theorem C2_escape_round_trip_witness :
    (['#', ' ', '\\', '\n'] : List Char).head? ≠ some bom
    ∧ escape ['#', ' ', '\\', '\n'] = ['\\', '#', '\\', ' ', '\\', '\\', '\\', 'n']
    ∧ decodeLine intLib 1 (NewDecoder (escape ['#', ' ', '\\', '\n'] ++ ['\n']))
        = .ok (.leaf (.str ['#', ' ', '\\', '\n']), []) :=
  ⟨by decide, by decide,
    (C2_escape_round_trip intLib ['#', ' ', '\\', '\n'] 0 (by decide)).1⟩

/-! ## Bracket literals -/

theorem scanWhile_append (p : Char → Bool) (w rest : List Char) (hw : ∀ c ∈ w, p c = true)
    (hr : ∀ c ∈ rest.head?, p c = false) : scanWhile p (w ++ rest) = (w, rest) := by
  induction w with
  | nil =>
    cases rest with
    | nil => rfl
    | cons c cs =>
      have : p c = false := hr c (by simp)
      simp [scanWhile, this]
  | cons a w ih =>
    have ha : p a = true := hw a (by simp)
    have ih2 := ih (fun c hc => hw c (by simp [hc]))
    simp [scanWhile, ha, ih2]

theorem scanWhile_cons_fst (p : Char → Bool) (c : Char) (cs : List Char) (h : p c = true) :
    (scanWhile p (c :: cs)).1 = c :: (scanWhile p cs).1 := by
  simp [scanWhile, h]

theorem isKwdChar_cases (c : Char) (h : isKwdChar c = true) :
    c = 'e' ∨ (isNumChar c = false ∧ c ≠ '>') := by
  simp only [isKwdChar, Bool.or_eq_true, beq_iff_eq] at h
  rcases h with (((((((h | h) | h) | h) | h) | h) | h) | h) | h <;> subst h <;> decide

theorem expectClose_err {ν : Type} (t : Tok ν) (rest : List Char)
    (hc : ∀ c ∈ rest.head?, c ≠ '>') : ∃ e, expectClose t rest = .err e := by
  cases rest with
  | nil => exact ⟨_, rfl⟩
  | cons c cs =>
    have : c ≠ '>' := hc c (by simp)
    unfold expectClose
    split
    · rename_i heq; simp at heq; exact absurd heq.1 this
    · exact ⟨_, rfl⟩

theorem scanBracket_e {ν : Type} (L : NumLib ν) (hE : ∀ s, L.parseFloat ('e' :: s) = none)
    (xs : List Char) : scanBracket L ('<' :: 'e' :: xs) = .err .badFloat := by
  have h1 : isNumChar 'e' = true := by decide
  simp [scanBracket, scanBracketBody, h1, scanNum, scanWhile_cons_fst, hE]

/-- A bracket whose first interior character is a keyword letter other than `e` is read by
`scanKwd`. -/
theorem scanBracket_kwd {ν : Type} (L : NumLib ν) (a : Char) (w rest : List Char)
    (ha : isNumChar a = false) (hk : ∀ c ∈ a :: w, isKwdChar c = true)
    (hr : ∀ c ∈ rest.head?, isKwdChar c = false) :
    scanBracket L ('<' :: ((a :: w) ++ rest)) =
      if a :: w = ['t', 'r', 'u', 'e'] then
        expectClose (.bool true) rest
      else if a :: w = ['f', 'a', 'l', 's', 'e'] then
        expectClose (.bool false) rest
      else if a :: w = ['n', 'u', 'l', 'l'] then
        expectClose (.null) rest
      else .err .badKeyword := by
  have hka : isKwdChar a = true := hk a (by simp)
  have hs := scanWhile_append isKwdChar (a :: w) rest hk hr
  simp only [List.cons_append] at hs
  simp only [scanBracket, List.tail_cons, List.cons_append, scanBracketBody, ha, hka, if_true,
    Bool.false_eq_true, if_false, scanKwd, hs]
  split_ifs <;> rfl

/-- C9: for every non-empty word `w` of keyword letters, the bracket literal `<w>` scans to
`true`, `false` or nil when `w` is `true`, `false` or `null`, and to an error for every other
`w`. `strconv.ParseFloat` is assumed to reject a text that starts with `e`. -/
theorem C9_keyword_literals {ν : Type} (L : NumLib ν)
    (hE : ∀ s, L.parseFloat ('e' :: s) = none)
    (w rest : List Char) (hw : w ≠ []) (hk : ∀ c ∈ w, isKwdChar c = true) :
    (w = ['t', 'r', 'u', 'e'] →
        scanBracket L ('<' :: (w ++ '>' :: rest)) = .ok (.bool true, rest))
    ∧ (w = ['f', 'a', 'l', 's', 'e'] →
        scanBracket L ('<' :: (w ++ '>' :: rest)) = .ok (.bool false, rest))
    ∧ (w = ['n', 'u', 'l', 'l'] →
        scanBracket L ('<' :: (w ++ '>' :: rest)) = .ok (.null, rest))
    ∧ (w ≠ ['t', 'r', 'u', 'e'] → w ≠ ['f', 'a', 'l', 's', 'e'] → w ≠ ['n', 'u', 'l', 'l'] →
        ∃ e, scanBracket L ('<' :: (w ++ '>' :: rest)) = .err e) := by
  cases w with
  | nil => exact absurd rfl hw
  | cons a w =>
    rcases isKwdChar_cases a (hk a (by simp)) with he | ⟨hn, _⟩
    · subst he
      rw [List.cons_append, scanBracket_e L hE]
      refine ⟨?_, ?_, ?_, ?_⟩
      · intro h; simp at h
      · intro h; simp at h
      · intro h; simp at h
      · intro _ _ _; exact ⟨_, rfl⟩
    · have hr : ∀ c ∈ ('>' :: rest).head?, isKwdChar c = false := by
        intro c hc; simp at hc; subst hc; decide
      rw [scanBracket_kwd L a w ('>' :: rest) hn hk hr]
      refine ⟨?_, ?_, ?_, ?_⟩
      · intro h; rw [if_pos h]; rfl
      · intro h; rw [h]; rfl
      · intro h; rw [h]; rfl
      · intro h1 h2 h3; rw [if_neg h1, if_neg h2, if_neg h3]; exact ⟨_, rfl⟩

theorem intLib_parseFloat_e (s : List Char) : intLib.parseFloat ('e' :: s) = none := by
  simp [intLib, isIntChar]

/-- C9 at the word `null`, with the integer literals as numeric library. -/
theorem C9_keyword_literals_witness :
    (∀ s, intLib.parseFloat ('e' :: s) = none)
    ∧ scanBracket intLib ['<', 'n', 'u', 'l', 'l', '>', '\n'] = .ok (.null, ['\n']) :=
  ⟨intLib_parseFloat_e,
    (C9_keyword_literals intLib intLib_parseFloat_e ['n', 'u', 'l', 'l'] ['\n']
      (by decide) (by decide)).2.2.1 rfl⟩

/-- C10: when the character right after the literal body of a bracket token is not `>`
(end-of-input included), `scanBracket` returns an error. `strconv.ParseFloat` is assumed to
reject a text that starts with `e`. -/
theorem C10_closing_bracket_required {ν : Type} (L : NumLib ν)
    (hE : ∀ s, L.parseFloat ('e' :: s) = none)
    (body rest : List Char) (hb : IsLiteralBody body rest)
    (hc : ∀ c ∈ rest.head?, c ≠ '>') :
    ∃ e, scanBracket L ('<' :: (body ++ rest)) = .err e := by
  rcases hb with ⟨hne, hnum, hr⟩ | ⟨hne, hkwd, hr⟩ | ⟨hnil, hr⟩
  · cases body with
    | nil => exact absurd rfl hne
    | cons a w =>
      have ha : isNumChar a = true := hnum a (by simp)
      have hs := scanWhile_append isNumChar (a :: w) rest hnum hr
      simp only [List.cons_append] at hs
      simp only [scanBracket, List.tail_cons, List.cons_append, scanBracketBody, ha, if_true,
        scanNum, hs]
      cases hp : L.parseFloat (a :: w) with
      | none => exact ⟨_, rfl⟩
      | some x => exact expectClose_err _ rest hc
  · cases body with
    | nil => exact absurd rfl hne
    | cons a w =>
      rcases isKwdChar_cases a (hkwd a (by simp)) with he | ⟨hn, _⟩
      · subst he
        rw [List.cons_append, scanBracket_e L hE]; exact ⟨_, rfl⟩
      · rw [scanBracket_kwd L a w rest hn hkwd hr]
        have hrest : ∀ (t : Tok ν), ∃ e, expectClose t rest = .err e :=
          fun t => expectClose_err t rest hc
        split_ifs
        · exact hrest _
        · exact hrest _
        · exact hrest _
        · exact ⟨_, rfl⟩
  · subst hnil
    cases rest with
    | nil => exact ⟨_, rfl⟩
    | cons c cs =>
      have h1 := hr c (by simp)
      have h2 : c ≠ '>' := hc c (by simp)
      simp [scanBracket, scanBracketBody, h1.1, h1.2, h2]

/-- C10 at the text `<12` followed by a newline. -/
theorem C10_closing_bracket_required_witness :
    (∀ s, intLib.parseFloat ('e' :: s) = none)
    ∧ IsLiteralBody ['1', '2'] ['\n']
    ∧ (∀ c ∈ (['\n'] : List Char).head?, c ≠ '>')
    ∧ ∃ e, scanBracket intLib ['<', '1', '2', '\n'] = .err e :=
  have hb : IsLiteralBody ['1', '2'] ['\n'] := Or.inl (by decide)
  have hc : ∀ c ∈ (['\n'] : List Char).head?, c ≠ '>' := by decide
  ⟨intLib_parseFloat_e, hb, hc,
    C10_closing_bracket_required intLib intLib_parseFloat_e ['1', '2'] ['\n'] hb hc⟩

/-! ## Maps and trees -/
theorem depthI_mem {ν : Type} : ∀ (m : List (Tok ν × Val ν)) (e : Tok ν × Val ν),
    e ∈ m → e.2.depth ≤ depthI m := by
  intro m
  induction m with
  | nil => intro e h; simp at h
  | cons a m ih =>
    intro e h
    obtain ⟨k, v⟩ := a
    rw [depthI]
    rcases List.mem_cons.mp h with h | h
    · subst h; exact le_max_left _ _
    · exact le_trans (ih e h) (le_max_right _ _)

theorem wfI_mem {ν : Type} [DecidableEq ν] : ∀ (m : List (Tok ν × Val ν)) (e : Tok ν × Val ν),
    wfI m = true → e ∈ m → e.2.wf = true := by
  intro m
  induction m with
  | nil => intro e _ h; simp at h
  | cons a m ih =>
    intro e hw h
    obtain ⟨k, v⟩ := a
    rw [wfI, Bool.and_eq_true] at hw
    rcases List.mem_cons.mp h with h | h
    · subst h; exact hw.1
    · exact ih e hw.2 h

theorem hasBadI_iff {ν : Type} : ∀ (m : List (Tok ν × Val ν)),
    hasBadI m = true ↔ ∃ e ∈ m, e.2.hasBadNode = true := by
  intro m
  induction m with
  | nil => simp [hasBadI]
  | cons a m ih =>
    obtain ⟨k, v⟩ := a
    rw [hasBadI, Bool.or_eq_true, ih]
    simp



theorem smapSet_keys_sorted {α : Type} : ∀ (r : List (List Char × α)) (k : List Char) (v : α),
    (r.map Prod.fst).Sorted (· < ·) → ((smapSet r k v).map Prod.fst).Sorted (· < ·) ∧
      ∀ x ∈ (smapSet r k v).map Prod.fst, x = k ∨ x ∈ r.map Prod.fst := by
  intro r
  induction r with
  | nil => intro k v _; simp [smapSet]
  | cons a r ih =>
    intro k v hs
    obtain ⟨k2, v2⟩ := a
    simp only [List.map_cons, List.sorted_cons] at hs
    rw [smapSet]
    by_cases h1 : k < k2
    · rw [if_pos h1]
      refine ⟨?_, ?_⟩
      · simp only [List.map_cons, List.sorted_cons]
        refine ⟨?_, hs⟩
        intro b hb
        rcases List.mem_cons.mp hb with hb | hb
        · subst hb; exact h1
        · exact lt_trans h1 (hs.1 b hb)
      · intro x hx
        simp only [List.map_cons, List.mem_cons] at hx ⊢
        exact hx
    · rw [if_neg h1]
      by_cases h2 : k = k2
      · rw [if_pos h2]
        refine ⟨?_, ?_⟩
        · simp only [List.map_cons, List.sorted_cons]
          exact hs
        · intro x hx
          simp only [List.map_cons, List.mem_cons] at hx ⊢
          rcases hx with hx | hx
          · right; left; exact hx
          · right; right; exact hx
      · rw [if_neg h2]
        obtain ⟨ih1, ih2⟩ := ih k v hs.2
        refine ⟨?_, ?_⟩
        · simp only [List.map_cons, List.sorted_cons]
          refine ⟨?_, ih1⟩
          intro b hb
          rcases ih2 b hb with hb | hb
          · subst hb
            exact lt_of_le_of_ne (not_lt.mp h1) (fun h => h2 h.symm)
          · exact hs.1 b hb
        · intro x hx
          simp only [List.map_cons, List.mem_cons] at hx ⊢
          rcases hx with hx | hx
          · right; left; exact hx
          · rcases ih2 x hx with hx | hx
            · left; exact hx
            · right; right; exact hx

theorem mem_smapSet {α : Type} : ∀ (r : List (List Char × α)) (k : List Char) (v : α),
    (r.map Prod.fst).Sorted (· < ·) →
    ∀ e, e ∈ smapSet r k v ↔ e = (k, v) ∨ (e ∈ r ∧ e.1 ≠ k) := by
  intro r
  induction r with
  | nil => intro k v _ e; simp [smapSet]
  | cons a r ih =>
    intro k v hs e
    obtain ⟨k2, v2⟩ := a
    simp only [List.map_cons, List.sorted_cons] at hs
    rw [smapSet]
    by_cases h1 : k < k2
    · rw [if_pos h1]
      simp only [List.mem_cons]
      constructor
      · rintro (h | h | h)
        · left; exact h
        · right; subst h; exact ⟨Or.inl rfl, fun h => (ne_of_lt h1) h.symm⟩
        · right
          refine ⟨Or.inr h, ?_⟩
          have := hs.1 e.1 (List.mem_map_of_mem Prod.fst h)
          exact fun h' => absurd (h' ▸ this) (not_lt.mpr (le_of_lt h1))
      · rintro (h | ⟨h | h, _⟩)
        · left; exact h
        · right; left; exact h
        · right; right; exact h
    · rw [if_neg h1]
      by_cases h2 : k = k2
      · rw [if_pos h2]
        subst h2
        simp only [List.mem_cons]
        constructor
        · rintro (h | h)
          · left; exact h
          · right
            refine ⟨Or.inr h, ?_⟩
            have := hs.1 e.1 (List.mem_map_of_mem Prod.fst h)
            exact fun h' => absurd (h' ▸ this) (lt_irrefl _)
        · rintro (h | ⟨h | h, hne⟩)
          · left; exact h
          · subst h; exact absurd rfl hne
          · right; exact h
      · rw [if_neg h2]
        simp only [List.mem_cons, ih k v hs.2 e]
        constructor
        · rintro (h | h | ⟨h, hne⟩)
          · right; subst h; exact ⟨Or.inl rfl, fun h => h2 h.symm⟩
          · left; exact h
          · right; exact ⟨Or.inr h, hne⟩
        · rintro (h | ⟨h | h, hne⟩)
          · right; left; exact h
          · left; exact h
          · right; right; exact ⟨h, hne⟩

/-- `tryMakeKeyString` fails exactly when some key is not a string. -/
theorem tryMakeKeyStringAux_none {ν : Type} : ∀ (m : List (Tok ν × Val ν))
    (r : List (List Char × Val ν)),
    tryMakeKeyStringAux r m = none ↔ m.all (fun e => e.1.isStr) = false := by
  intro m
  induction m with
  | nil => intro r; simp [tryMakeKeyStringAux]
  | cons a m ih =>
    intro r
    obtain ⟨k, v⟩ := a
    cases k with
    | str sk => rw [tryMakeKeyStringAux, ih]; simp [Tok.isStr]
    | null => simp [tryMakeKeyStringAux, Tok.isStr]
    | bool b => simp [tryMakeKeyStringAux, Tok.isStr]
    | num x => simp [tryMakeKeyStringAux, Tok.isStr]
    | int n => simp [tryMakeKeyStringAux, Tok.isStr]

/-- The entries of the map built by `tryMakeKeyString` from a node without repeated keys:
those already there and those of the node. -/
theorem tryMakeKeyStringAux_some {ν : Type} : ∀ (m : List (Tok ν × Val ν))
    (r sm : List (List Char × Val ν)),
    (r.map Prod.fst).Sorted (· < ·) → (m.map Prod.fst).Nodup →
    (∀ e ∈ r, Tok.str e.1 ∉ m.map Prod.fst) →
    tryMakeKeyStringAux r m = some sm →
    (sm.map Prod.fst).Sorted (· < ·) ∧
      ∀ e, e ∈ sm ↔ e ∈ r ∨ (Tok.str e.1, e.2) ∈ m := by
  intro m
  induction m with
  | nil =>
    intro r sm hs _ _ h
    simp only [tryMakeKeyStringAux, Option.some.injEq] at h
    subst h
    exact ⟨hs, by simp⟩
  | cons a m ih =>
    intro r sm hs hnd hdis h
    obtain ⟨k, v⟩ := a
    simp only [List.map_cons, List.nodup_cons] at hnd
    cases k with
    | str sk =>
      rw [tryMakeKeyStringAux] at h
      have hs2 := smapSet_keys_sorted r sk v hs
      have hmem := mem_smapSet r sk v hs
      have hdis2 : ∀ e ∈ smapSet r sk v, Tok.str e.1 ∉ m.map Prod.fst := by
        intro e he
        rcases (hmem e).mp he with he | ⟨he, _⟩
        · subst he; exact hnd.1
        · intro hc
          exact hdis e he (by simp only [List.map_cons, List.mem_cons]; right; exact hc)
      obtain ⟨h1, h2⟩ := ih (smapSet r sk v) sm hs2.1 hnd.2 hdis2 h
      refine ⟨h1, ?_⟩
      intro e
      rw [h2 e, hmem e]
      simp only [List.mem_cons]
      constructor
      · rintro ((h | ⟨h, _⟩) | h)
        · right; left; subst h; rfl
        · left; exact h
        · right; right; exact h
      · rintro (h | h | h)
        · by_cases hk : e.1 = sk
          · exfalso
            apply hdis e h
            simp only [List.map_cons, List.mem_cons]
            left; rw [hk]
          · left; right; exact ⟨h, hk⟩
        · left; left
          simp only [Prod.mk.injEq, Tok.str.injEq] at h
          exact Prod.ext h.1 h.2
        · right; exact h
    | null => simp [tryMakeKeyStringAux] at h
    | bool b => simp [tryMakeKeyStringAux] at h
    | num x => simp [tryMakeKeyStringAux] at h
    | int n => simp [tryMakeKeyStringAux] at h

/-- `intKeys` succeeds exactly when every key is an index, and then lists the keys. -/
theorem intKeys_some {ν : Type} : ∀ (m : List (Tok ν × Val ν)),
    m.all (fun e => e.1.isInt) = true →
    ∃ ks, intKeys m = some ks ∧ m.map Prod.fst = ks.map Tok.int := by
  intro m
  induction m with
  | nil => intro _; exact ⟨[], rfl, rfl⟩
  | cons a m ih =>
    intro h
    obtain ⟨k, v⟩ := a
    simp only [List.all_cons, Bool.and_eq_true] at h
    obtain ⟨ks, h1, h2⟩ := ih h.2
    cases k with
    | int n => exact ⟨n :: ks, by simp [intKeys, h1], by simp [h2]⟩
    | null => simp [Tok.isInt] at h
    | bool b => simp [Tok.isInt] at h
    | num x => simp [Tok.isInt] at h
    | str s => simp [Tok.isInt] at h

theorem intKeys_none {ν : Type} : ∀ (m : List (Tok ν × Val ν)),
    m.all (fun e => e.1.isInt) = false → intKeys m = none := by
  intro m
  induction m with
  | nil => intro h; simp at h
  | cons a m ih =>
    intro h
    obtain ⟨k, v⟩ := a
    cases k with
    | int n =>
      have : m.all (fun e => e.1.isInt) = false := by
        simpa [Tok.isInt] using h
      simp [intKeys, ih this]
    | null => simp [intKeys]
    | bool b => simp [intKeys]
    | num x => simp [intKeys]
    | str s => simp [intKeys]

/-- Lookup in a map without repeated keys finds exactly its entries. -/
theorem mapGet_eq_some {κ α : Type} [DecidableEq κ] : ∀ (m : List (κ × α)) (k : κ) (v : α),
    (m.map Prod.fst).Nodup → (mapGet m k = some v ↔ (k, v) ∈ m) := by
  intro m
  induction m with
  | nil => intro k v _; simp [mapGet]
  | cons a m ih =>
    intro k v hnd
    obtain ⟨k2, v2⟩ := a
    simp only [List.map_cons, List.nodup_cons] at hnd
    rw [mapGet]
    by_cases hk : k = k2
    · subst hk
      rw [if_pos rfl]
      simp only [Option.some.injEq, List.mem_cons, Prod.mk.injEq, true_and]
      constructor
      · intro h; left; exact h.symm
      · rintro (h | h)
        · exact h.symm
        · exact absurd (List.mem_map_of_mem Prod.fst h) hnd.1
    · rw [if_neg hk, ih k v hnd.2]
      simp only [List.mem_cons, Prod.mk.injEq]
      constructor
      · intro h; right; exact h
      · rintro (h | h)
        · exact absurd h.1 hk
        · exact h

theorem mapGet_self_map {κ α : Type} [DecidableEq κ] (m : List (κ × α)) (d : α)
    (hnd : (m.map Prod.fst).Nodup) :
    m.map (fun e => (e.1, (mapGet m e.1).getD d)) = m := by
  have : ∀ e ∈ m, (fun e : κ × α => (e.1, (mapGet m e.1).getD d)) e = id e := by
    intro e he
    have := (mapGet_eq_some m e.1 e.2 hnd).mpr he
    simp [this]
  rw [List.map_congr_left this, List.map_id]

/-- `tryCvtSlice` on a node without repeated keys, all of them indices: the values of the
entries taken in strictly ascending order of their keys. -/
theorem tryCvtSlice_spec {ν : Type} [DecidableEq ν] (m : List (Tok ν × Val ν))
    (hnd : (m.map Prod.fst).Nodup) (hint : m.all (fun e => e.1.isInt) = true) :
    ∃ ents : List (Int × Val ν),
      (ents.map Prod.fst).Sorted (· < ·)
      ∧ (ents.map (fun e => (Tok.int e.1, e.2))).Perm m
      ∧ tryCvtSlice m = some (ents.map Prod.snd) := by
  obtain ⟨ks, hk1, hk2⟩ := intKeys_some m hint
  let g : Int → Val ν := fun k => (mapGet m (.int k)).getD (.tok .null)
  refine ⟨(ks.insertionSort (· ≤ ·)).map (fun k => (k, g k)), ?_, ?_, ?_⟩
  · rw [List.map_map]
    have hid : (Prod.fst ∘ fun k => (k, g k)) = id := rfl
    rw [hid, List.map_id]
    have hs : (ks.insertionSort (· ≤ ·)).Sorted (· ≤ ·) := List.sorted_insertionSort _ ks
    have hksnd : ks.Nodup := by
      rw [hk2] at hnd
      exact List.Nodup.of_map _ hnd
    have hn : (ks.insertionSort (· ≤ ·)).Nodup :=
      (List.perm_insertionSort (· ≤ ·) ks).nodup_iff.mpr hksnd
    exact hs.lt_of_le hn
  · rw [List.map_map]
    have hp := (List.perm_insertionSort (· ≤ ·) ks).map
      (fun k => ((Tok.int k : Tok ν), g k))
    refine hp.trans ?_
    have h1 : ks.map (fun k => ((Tok.int k : Tok ν), g k))
        = (ks.map Tok.int).map (fun t => (t, (mapGet m t).getD (.tok .null))) := by
      rw [List.map_map]; rfl
    rw [h1, ← hk2, List.map_map]
    have h2 := mapGet_self_map m (Val.tok Tok.null) hnd
    rw [show ((fun t => (t, (mapGet m t).getD (Val.tok Tok.null))) ∘ Prod.fst)
        = (fun e : Tok ν × Val ν => (e.1, (mapGet m e.1).getD (Val.tok Tok.null))) from rfl, h2]
  · unfold tryCvtSlice
    rw [hk1]
    simp only [List.map_map]
    rfl

theorem mapSlice_ok_iff {α : Type} (f : α → Res α) : ∀ (l cs : List α),
    mapSlice f l = .ok cs ↔ List.Forall₂ (fun a c => f a = .ok c) l cs := by
  intro l
  induction l with
  | nil =>
    intro cs
    rw [mapSlice]
    constructor
    · intro h; simp only [Res.ok.injEq] at h; subst h; exact List.Forall₂.nil
    · intro h; cases h; rfl
  | cons a l ih =>
    intro cs
    rw [mapSlice]
    constructor
    · intro h
      cases hf : f a with
      | ok nv =>
        rw [hf] at h
        simp only at h
        cases hm : mapSlice f l with
        | ok r =>
          rw [hm] at h
          simp only [Res.ok.injEq] at h
          subst h
          exact List.Forall₂.cons hf ((ih r).mp hm)
        | err e => rw [hm] at h; simp at h
        | panic => rw [hm] at h; simp at h
        | timeout => rw [hm] at h; simp at h
      | err e => rw [hf] at h; simp at h
      | panic => rw [hf] at h; simp at h
      | timeout => rw [hf] at h; simp at h
    · intro h
      cases h with
      | cons h1 h2 =>
        rw [h1]
        simp only
        rw [(ih _).mpr h2]

theorem mapSlice_spec {α : Type} (f : α → Res α) (bad : α → Bool) : ∀ (l : List α),
    (∀ a ∈ l, bad a = true → f a = .err .invalidMap) →
    (∀ a ∈ l, bad a = false → ∃ c, f a = .ok c) →
    ((∃ a ∈ l, bad a = true) → mapSlice f l = .err .invalidMap)
    ∧ ((∀ a ∈ l, bad a = false) → ∃ r, mapSlice f l = .ok r) := by
  intro l
  induction l with
  | nil => intro _ _; exact ⟨fun ⟨a, h, _⟩ => by simp at h, fun _ => ⟨[], rfl⟩⟩
  | cons a l ih =>
    intro hb hg
    obtain ⟨ih1, ih2⟩ := ih (fun x hx => hb x (List.mem_cons_of_mem _ hx))
      (fun x hx => hg x (List.mem_cons_of_mem _ hx))
    cases hba : bad a with
    | true =>
      have hfa := hb a (List.mem_cons_self _ _) hba
      refine ⟨fun _ => by rw [mapSlice, hfa], fun h => ?_⟩
      have := h a (List.mem_cons_self _ _)
      rw [hba] at this; simp at this
    | false =>
      obtain ⟨c, hc⟩ := hg a (List.mem_cons_self _ _) hba
      refine ⟨?_, ?_⟩
      · rintro ⟨x, hx, hbx⟩
        rcases List.mem_cons.mp hx with hx | hx
        · subst hx; rw [hba] at hbx; simp at hbx
        · rw [mapSlice, hc]
          simp only
          rw [ih1 ⟨x, hx, hbx⟩]
      · intro h
        obtain ⟨r, hr⟩ := ih2 (fun x hx => h x (List.mem_cons_of_mem _ hx))
        exact ⟨c :: r, by rw [mapSlice, hc]; simp only; rw [hr]⟩

theorem mapValues_spec {κ α : Type} (f : α → Res α) (bad : α → Bool) :
    ∀ (l : List (κ × α)),
    (∀ e ∈ l, bad e.2 = true → f e.2 = .err .invalidMap) →
    (∀ e ∈ l, bad e.2 = false → ∃ c, f e.2 = .ok c) →
    ((∃ e ∈ l, bad e.2 = true) → mapValues f l = .err .invalidMap)
    ∧ ((∀ e ∈ l, bad e.2 = false) → ∃ r, mapValues f l = .ok r) := by
  intro l
  induction l with
  | nil => intro _ _; exact ⟨fun ⟨a, h, _⟩ => by simp at h, fun _ => ⟨[], rfl⟩⟩
  | cons a l ih =>
    intro hb hg
    obtain ⟨k, v⟩ := a
    obtain ⟨ih1, ih2⟩ := ih (fun x hx => hb x (List.mem_cons_of_mem _ hx))
      (fun x hx => hg x (List.mem_cons_of_mem _ hx))
    cases hba : bad v with
    | true =>
      have hfa := hb (k, v) (List.mem_cons_self _ _) hba
      refine ⟨fun _ => by rw [mapValues, hfa], fun h => ?_⟩
      have := h (k, v) (List.mem_cons_self _ _)
      simp only at this
      rw [hba] at this; simp at this
    | false =>
      obtain ⟨c, hc⟩ := hg (k, v) (List.mem_cons_self _ _) hba
      simp only at hc
      refine ⟨?_, ?_⟩
      · rintro ⟨x, hx, hbx⟩
        rcases List.mem_cons.mp hx with hx | hx
        · subst hx; simp only at hbx; rw [hba] at hbx; simp at hbx
        · rw [mapValues, hc]
          simp only
          rw [ih1 ⟨x, hx, hbx⟩]
      · intro h
        obtain ⟨r, hr⟩ := ih2 (fun x hx => h x (List.mem_cons_of_mem _ hx))
        exact ⟨(k, c) :: r, by rw [mapValues, hc]; simp only; rw [hr]⟩

/-! ## Canonicalizer -/
theorem hasBadNode_imap {ν : Type} (m : List (Tok ν × Val ν)) :
    (Val.imap m).hasBadNode =
      ((!(m.all (fun e => e.1.isStr)) && !(m.all (fun e => e.1.isInt))) || hasBadI m) := by
  rw [Val.hasBadNode]

theorem all_isStr_mem {ν : Type} (m : List (Tok ν × Val ν))
    (h : m.all (fun e => e.1.isStr) = true) (e : Tok ν × Val ν) (he : e ∈ m) :
    ∃ s, e.1 = Tok.str s := by
  have := List.all_eq_true.mp h e he
  cases hk : e.1 with
  | str s => exact ⟨s, rfl⟩
  | null => rw [hk] at this; simp [Tok.isStr] at this
  | bool b => rw [hk] at this; simp [Tok.isStr] at this
  | num x => rw [hk] at this; simp [Tok.isStr] at this
  | int n => rw [hk] at this; simp [Tok.isStr] at this

/-- The canonicalizer on a well-formed tree, given fuel for its depth: `invalid map` when
some node has mixed keys, a value otherwise. -/
theorem makeKeyStringOrCvtSlice_spec {ν : Type} [DecidableEq ν] : ∀ (n : Nat) (v : Val ν),
    v.wf = true → v.depth ≤ n →
    (v.hasBadNode = true → makeKeyStringOrCvtSlice n v = .err .invalidMap)
    ∧ (v.hasBadNode = false → ∃ c, makeKeyStringOrCvtSlice n v = .ok c) := by
  intro n
  induction n with
  | zero =>
    intro v _ hd
    cases v with
    | tok t => exact ⟨fun h => by simp [Val.hasBadNode] at h, fun _ => ⟨_, rfl⟩⟩
    | smap m => exact ⟨fun h => by simp [Val.hasBadNode] at h, fun _ => ⟨_, rfl⟩⟩
    | slice xs => exact ⟨fun h => by simp [Val.hasBadNode] at h, fun _ => ⟨_, rfl⟩⟩
    | imap m => rw [Val.depth] at hd; omega
  | succ n ih =>
    intro v hwf hd
    cases v with
    | tok t => exact ⟨fun h => by simp [Val.hasBadNode] at h, fun _ => ⟨_, rfl⟩⟩
    | smap m => exact ⟨fun h => by simp [Val.hasBadNode] at h, fun _ => ⟨_, rfl⟩⟩
    | slice xs => exact ⟨fun h => by simp [Val.hasBadNode] at h, fun _ => ⟨_, rfl⟩⟩
    | imap m =>
      rw [Val.depth] at hd
      rw [Val.wf, Bool.and_eq_true, decide_eq_true_eq] at hwf
      obtain ⟨hnd, hwfI⟩ := hwf
      have hchild : ∀ e ∈ m,
          (e.2.hasBadNode = true → makeKeyStringOrCvtSlice n e.2 = .err .invalidMap)
          ∧ (e.2.hasBadNode = false → ∃ c, makeKeyStringOrCvtSlice n e.2 = .ok c) := by
        intro e he
        exact ih e.2 (wfI_mem m e hwfI he) (by have := depthI_mem m e he; omega)
      rw [hasBadNode_imap, makeKeyStringOrCvtSlice]
      cases hstr : m.all (fun e => e.1.isStr) with
      | true =>
        cases hsm : tryMakeKeyString m with
        | none =>
          rw [tryMakeKeyString, tryMakeKeyStringAux_none] at hsm
          rw [hstr] at hsm; simp at hsm
        | some sm =>
          obtain ⟨_, hmem⟩ := tryMakeKeyStringAux_some m [] sm (by simp) hnd (by simp) hsm
          have hval : ∀ e ∈ sm, (Tok.str e.1, e.2) ∈ m := by
            intro e he; simpa using (hmem e).mp he
          obtain ⟨s1, s2⟩ := mapValues_spec (makeKeyStringOrCvtSlice n) Val.hasBadNode sm
            (fun e he => (hchild _ (hval e he)).1) (fun e he => (hchild _ (hval e he)).2)
          simp only [Bool.not_true, Bool.false_and, Bool.false_or]
          refine ⟨fun hb => ?_, fun hb => ?_⟩
          · obtain ⟨e, he, hbe⟩ := (hasBadI_iff m).mp hb
            obtain ⟨s, hs⟩ := all_isStr_mem m hstr e he
            have : (s, e.2) ∈ sm := by
              rw [hmem]; right; simp only; rw [← hs]; exact he
            rw [s1 ⟨(s, e.2), this, hbe⟩]
          · have hall : ∀ e ∈ sm, e.2.hasBadNode = false := by
              intro e he
              cases hc : e.2.hasBadNode with
              | false => rfl
              | true =>
                have := (hasBadI_iff m).mpr ⟨_, hval e he, hc⟩
                rw [hb] at this; simp at this
            obtain ⟨r, hr⟩ := s2 hall
            rw [hr]; exact ⟨_, rfl⟩
      | false =>
        have hsm : tryMakeKeyString m = none := by
          rw [tryMakeKeyString, tryMakeKeyStringAux_none]; exact hstr
        rw [hsm]
        simp only [Bool.not_false, Bool.true_and]
        cases hint : m.all (fun e => e.1.isInt) with
        | false =>
          have hc : tryCvtSlice m = none := by
            unfold tryCvtSlice; rw [intKeys_none m hint]
          rw [hc]
          simp only [Bool.not_false, Bool.true_or]
          exact ⟨fun _ => trivial, fun h => by simp at h⟩
        | true =>
          obtain ⟨ents, _, hperm, hc⟩ := tryCvtSlice_spec m hnd hint
          rw [hc]
          simp only [Bool.not_true, Bool.false_or]
          have hval : ∀ v ∈ ents.map Prod.snd, ∃ e ∈ m, e.2 = v := by
            intro v hv
            obtain ⟨e, he, hev⟩ := List.mem_map.mp hv
            exact ⟨(Tok.int e.1, e.2),
              hperm.subset (List.mem_map.mpr ⟨e, he, rfl⟩), hev⟩
          obtain ⟨s1, s2⟩ := mapSlice_spec (makeKeyStringOrCvtSlice n) Val.hasBadNode
            (ents.map Prod.snd)
            (fun v hv => by
              obtain ⟨e, he, hev⟩ := hval v hv
              rw [← hev]; exact (hchild e he).1)
            (fun v hv => by
              obtain ⟨e, he, hev⟩ := hval v hv
              rw [← hev]; exact (hchild e he).2)
          refine ⟨fun hb => ?_, fun hb => ?_⟩
          · obtain ⟨e, he, hbe⟩ := (hasBadI_iff m).mp hb
            obtain ⟨e2, he2, hee⟩ := List.mem_map.mp (hperm.symm.subset he)
            have : e.2 ∈ ents.map Prod.snd :=
              List.mem_map.mpr ⟨e2, he2, by rw [← hee]⟩
            rw [s1 ⟨e.2, this, hbe⟩]
          · have hall : ∀ v ∈ ents.map Prod.snd, v.hasBadNode = false := by
              intro v hv
              obtain ⟨e, he, hev⟩ := hval v hv
              cases hc : v.hasBadNode with
              | false => rfl
              | true =>
                have := (hasBadI_iff m).mpr ⟨e, he, by rw [hev]; exact hc⟩
                rw [hb] at this; simp at this
            obtain ⟨r, hr⟩ := s2 hall
            rw [hr]; exact ⟨_, rfl⟩

/-- C4, as stated, fails: the node without keys has only index keys, vacuously, and is
canonicalized to the empty string-keyed map (it is what the empty document decodes to), not
to an array; and a node with index keys one of whose children has mixed keys is
canonicalized to an error. -/
theorem C4_counterexample :
    emptyNode.all (fun e => e.1.isInt) = true
    ∧ makeKeyStringOrCvtSlice 1 (Val.imap emptyNode) = .ok (.smap [])
    ∧ (¬ ∃ xs, makeKeyStringOrCvtSlice 1 (Val.imap emptyNode)
          = .ok (.slice xs))
    ∧ Decode intLib 1 [] = .ok (.smap [])
    ∧ makeKeyStringOrCvtSlice 2 (Val.imap [(.int 0, .imap mixedNode)]) = .err .invalidMap := by
  refine ⟨rfl, rfl, ?_, rfl, rfl⟩
  rintro ⟨xs, h⟩
  have h2 : makeKeyStringOrCvtSlice 1 (Val.imap emptyNode)
      = .ok (.smap []) := rfl
  rw [h2] at h
  simp at h

/-- C4, amended: a node with at least one key, all its keys index keys, is canonicalized
to the array of its canonicalized children in strictly ascending order of index, as long
as as many elements as the node has keys; `#2 c`, `#0 a`, `#1 b` decode to `[a, b, c]` and
`#0 a`, `#2 c` to `[a, c]`. -/
theorem C4_array_ordering {ν : Type} [DecidableEq ν] (L : NumLib ν)
    (m : List (Tok ν × Val ν)) (fuel : Nat) (hne : m ≠ [])
    (hnd : (m.map Prod.fst).Nodup) (hint : m.all (fun e => e.1.isInt) = true) :
    (∃ ents : List (Int × Val ν),
      (ents.map Prod.fst).Sorted (· < ·)
      ∧ (ents.map (fun e => (Tok.int e.1, e.2))).Perm m
      ∧ ∀ cs, List.Forall₂ (fun e c => makeKeyStringOrCvtSlice fuel e.2 = .ok c) ents cs →
          makeKeyStringOrCvtSlice (fuel + 1) (.imap m) = .ok (.slice cs)
          ∧ cs.length = m.length)
    ∧ (∀ n, Decode L (4 + n)
        ['#', '2', ' ', 'c', '\n', '#', '0', ' ', 'a', '\n', '#', '1', ' ', 'b', '\n']
        = .ok (.slice [.tok (.str ['a']), .tok (.str ['b']), .tok (.str ['c'])]))
    ∧ (∀ n, Decode L (3 + n) ['#', '0', ' ', 'a', '\n', '#', '2', ' ', 'c', '\n']
        = .ok (.slice [.tok (.str ['a']), .tok (.str ['c'])])) := by
  refine ⟨?_, fun n => Decode_mono L 4 n _ _ rfl (by simp),
    fun n => Decode_mono L 3 n _ _ rfl (by simp)⟩
  obtain ⟨ents, hs, hperm, hc⟩ := tryCvtSlice_spec m hnd hint
  refine ⟨ents, hs, hperm, ?_⟩
  intro cs hcs
  have hstr : m.all (fun e => e.1.isStr) = false := by
    cases m with
    | nil => exact absurd rfl hne
    | cons a m =>
      obtain ⟨k, v⟩ := a
      simp only [List.all_cons, Bool.and_eq_true] at hint
      cases k with
      | int i => simp [Tok.isStr]
      | null => simp [Tok.isInt] at hint
      | bool b => simp [Tok.isInt] at hint
      | num x => simp [Tok.isInt] at hint
      | str s => simp [Tok.isInt] at hint
  have hsm : tryMakeKeyString m = none := by
    rw [tryMakeKeyString, tryMakeKeyStringAux_none]; exact hstr
  have hmap : mapSlice (makeKeyStringOrCvtSlice fuel) (ents.map Prod.snd) = .ok cs := by
    rw [mapSlice_ok_iff, List.forall₂_map_left_iff]
    exact hcs
  refine ⟨?_, ?_⟩
  · rw [makeKeyStringOrCvtSlice, hsm]
    simp only
    rw [hc]
    simp only
    rw [hmap]
  · rw [← hcs.length_eq, ← hperm.length_eq, List.length_map]

/-- C4 at the raw node of the lines `#2 c`, `#0 a`. -/
theorem C4_array_ordering_witness :
    sparseNode ≠ []
    ∧ (sparseNode.map Prod.fst).Nodup
    ∧ sparseNode.all (fun e => e.1.isInt) = true
    ∧ (∃ ents : List (Int × Val Int),
        (ents.map Prod.fst).Sorted (· < ·)
        ∧ (ents.map (fun e => (Tok.int e.1, e.2))).Perm sparseNode
        ∧ ∀ cs, List.Forall₂ (fun e c => makeKeyStringOrCvtSlice 0 e.2 = .ok c) ents cs →
            makeKeyStringOrCvtSlice 1 (.imap sparseNode) = .ok (.slice cs)
            ∧ cs.length = sparseNode.length) :=
  ⟨by simp [sparseNode], by decide, by decide,
    (C4_array_ordering intLib sparseNode 0 (by simp [sparseNode]) (by decide) (by decide)).1⟩

/-! ## Encoder key order -/
theorem mapGet_toRowsEntries {ν : Type} (L : NumLib ν) : ∀ (d : List (List Char × Val ν))
    (key : List Char),
    mapGet (toRowsEntries L d) key = (mapGet d key).map (toRows L) := by
  intro d
  induction d with
  | nil => intro key; rfl
  | cons a d ih =>
    intro key
    obtain ⟨k, v⟩ := a
    rw [toRowsEntries, mapGet, mapGet]
    by_cases h : key = k
    · rw [if_pos h, if_pos h]; rfl
    · rw [if_neg h, if_neg h, ih]

/-- `toRows` on a `map[string]interface{}` in the form of the source: for every key of
`keys(d)`, in that order, the rows of `d[key]` prefixed with the escaped key. -/
theorem toRows_smap {ν : Type} (L : NumLib ν) (d : List (List Char × Val ν)) :
    toRows L (.smap d) =
      (keys d).flatMap
        (fun key => prefixSl (escape key) (toRows L ((mapGet d key).getD (.tok .null)))) := by
  rw [toRows]
  congr 1
  funext key
  rw [mapGet_toRowsEntries]
  cases mapGet d key with
  | none => rfl
  | some v => rfl

theorem keys_sorted {α : Type} (d : List (List Char × α)) : (keys d).Sorted (· ≤ ·) :=
  List.sorted_insertionSort _ _

theorem keys_perm {α : Type} (d : List (List Char × α)) : (keys d).Perm (d.map Prod.fst) :=
  List.perm_insertionSort _ _

theorem sorted_flatMap_replicate {α : Type} [LinearOrder α] (n : α → Nat) : ∀ (l : List α),
    l.Sorted (· ≤ ·) → (l.flatMap (fun k => List.replicate (n k) k)).Sorted (· ≤ ·) := by
  intro l
  induction l with
  | nil => intro _; simp
  | cons a l ih =>
    intro hs
    rw [List.sorted_cons] at hs
    rw [List.flatMap_cons]
    unfold List.Sorted
    rw [List.pairwise_append]
    refine ⟨?_, ih hs.2, ?_⟩
    · rw [List.pairwise_replicate]
      right; exact le_refl a
    · intro x hx y hy
      rw [List.eq_of_mem_replicate hx]
      obtain ⟨k, hk, hyk⟩ := List.mem_flatMap.mp hy
      rw [List.eq_of_mem_replicate hyk]
      exact hs.1 k hk

theorem prefixSl_heads (p : List Char) (ss : Rows) :
    (prefixSl p ss).map List.head? = List.replicate ss.length (some p) := by
  induction ss with
  | nil => rfl
  | cons s ss ih =>
    simp only [prefixSl, List.map_cons, List.head?_cons, List.length_cons,
      List.replicate_succ] at ih ⊢
    rw [ih]

/-- C8, as stated, fails: the object with the keys `#` and `A` is emitted with first cells
`\#` and then `A`, and `\#` is greater than `A`. -/
theorem C8_counterexample :
    (toRows intLib (.smap [(['#'], .tok (.str ['x'])), (['A'], .tok (.str ['y']))])).map
        List.head? = [some ['\\', '#'], some ['A']]
    ∧ ¬ ((['\\', '#'] : List Char) ≤ ['A']) := by
  constructor
  · decide
  · decide

/-- C8, amended: for every object `toRows` emits the rows of its entries grouped by key in
ascending order of the keys themselves (not of their escaped text): the first cells of the
rows are the escaped texts of a non-decreasing list of keys of the object. -/
theorem C8_encoder_key_order {ν : Type} (L : NumLib ν) (d : List (List Char × Val ν)) :
    ∃ ks : List (List Char),
      ks.Sorted (· ≤ ·)
      ∧ (∀ k ∈ ks, k ∈ d.map Prod.fst)
      ∧ (toRows L (.smap d)).map List.head? = ks.map (fun k => some (escape k)) := by
  let n : List Char → Nat := fun key => (toRows L ((mapGet d key).getD (.tok .null))).length
  refine ⟨(keys d).flatMap (fun k => List.replicate (n k) k),
    sorted_flatMap_replicate n _ (keys_sorted d), ?_, ?_⟩
  · intro k hk
    obtain ⟨k2, hk2, hkk⟩ := List.mem_flatMap.mp hk
    rw [List.eq_of_mem_replicate hkk]
    exact (keys_perm d).subset hk2
  · rw [toRows_smap]
    generalize keys d = l
    induction l with
    | nil => rfl
    | cons a l ih =>
      rw [List.flatMap_cons, List.flatMap_cons, List.map_append, List.map_append, ih,
        prefixSl_heads, List.map_replicate]

/-! ## Round trip: cells -/
theorem isStrChar_false (ch : Char) (h : isStrChar ch = false) : ch = ' ' ∨ ch = '\n' := by
  simp only [isStrChar, isBrank, Bool.and_eq_false_iff, Bool.not_eq_false', beq_iff_eq,
    bne_eq_false_iff_eq] at h
  exact h

theorem escape_head_strChar (s : List Char) :
    ∃ a tl, escape s = a :: tl ∧ isStrChar a = true := by
  cases s with
  | nil => exact ⟨'<', ['>'], rfl, by decide⟩
  | cons a s =>
    rw [escape_cons]
    by_cases h : a = '<' ∨ a = '#'
    · rw [if_pos h]; exact ⟨'\\', _, rfl, by decide⟩
    · rw [if_neg h, List.flatMap_cons]
      unfold escChar
      by_cases h1 : a = '\\'
      · subst h1; exact ⟨'\\', _, rfl, by decide⟩
      · by_cases h2 : a = ' '
        · subst h2; exact ⟨'\\', _, rfl, by decide⟩
        · by_cases h3 : a = '\n'
          · subst h3; exact ⟨'\\', _, rfl, by decide⟩
          · simp only [h1, h2, h3, if_false]
            refine ⟨a, _, rfl, ?_⟩
            simp [isStrChar, isBrank, h2, h3]

theorem reads_str {ν : Type} (L : NumLib ν) (s : List Char) :
    Reads L (escape s) (.str s) :=
  ⟨escape_head_strChar s, fun ch rest h => scanToken_escape L s ch rest h⟩

theorem reads_null {ν : Type} (L : NumLib ν) :
    Reads L ['<', 'n', 'u', 'l', 'l', '>'] (.null : Tok ν) := by
  refine ⟨⟨'<', _, rfl, by decide⟩, ?_⟩
  intro ch rest _
  have := scanBracket_kwd L 'n' ['u', 'l', 'l'] ('>' :: ch :: rest) (by decide) (by decide)
    (by intro c hc; simp at hc; subst hc; decide)
  simp only [scanToken, List.cons_append, List.nil_append] at this ⊢
  rw [this]
  rfl

theorem reads_true {ν : Type} (L : NumLib ν) :
    Reads L ['<', 't', 'r', 'u', 'e', '>'] (.bool true : Tok ν) := by
  refine ⟨⟨'<', _, rfl, by decide⟩, ?_⟩
  intro ch rest _
  have := scanBracket_kwd L 't' ['r', 'u', 'e'] ('>' :: ch :: rest) (by decide) (by decide)
    (by intro c hc; simp at hc; subst hc; decide)
  simp only [scanToken, List.cons_append, List.nil_append] at this ⊢
  rw [this]
  rfl

theorem reads_false {ν : Type} (L : NumLib ν) :
    Reads L ['<', 'f', 'a', 'l', 's', 'e', '>'] (.bool false : Tok ν) := by
  refine ⟨⟨'<', _, rfl, by decide⟩, ?_⟩
  intro ch rest _
  have := scanBracket_kwd L 'f' ['a', 'l', 's', 'e'] ('>' :: ch :: rest) (by decide)
    (by decide) (by intro c hc; simp at hc; subst hc; decide)
  simp only [scanToken, List.cons_append, List.nil_append] at this ⊢
  rw [this]
  rfl

theorem reads_num {ν : Type} [DecidableEq ν] (L : NumLib ν) (x : ν)
    (h : numReadsBack L (.tok (.num x)) = true) :
    Reads L ('<' :: (L.format x ++ ['>'])) (.num x) := by
  simp only [numReadsBack, Bool.and_eq_true, decide_eq_true_eq, List.all_eq_true,
    Bool.not_eq_true', List.isEmpty_eq_false] at h
  obtain ⟨⟨hp, hall⟩, hne⟩ := h
  refine ⟨⟨'<', _, rfl, by decide⟩, ?_⟩
  intro ch rest _
  cases hf : L.format x with
  | nil => exact absurd hf (by simpa using hne)
  | cons a tl =>
    have ha : isNumChar a = true := hall a (by rw [hf]; simp)
    have hs := scanWhile_append isNumChar (L.format x) ('>' :: ch :: rest) hall
      (by intro c hc; simp at hc; subst hc; decide)
    rw [hf] at hs hp
    simp only [List.cons_append] at hs
    simp only [scanToken, List.cons_append, List.append_assoc, List.nil_append, scanBracket,
      List.tail_cons, scanBracketBody, ha, if_true, scanNum, hs, hp]
    rfl

theorem natDigitsRev_spec : ∀ (fuel n : Nat), n < fuel →
    natDigitsRev fuel n ≠ []
    ∧ (∀ c ∈ natDigitsRev fuel n, isIntChar c = true)
    ∧ (natDigitsRev fuel n).foldr (fun c acc => 10 * acc + (c.toNat - '0'.toNat)) 0 = n := by
  intro fuel
  induction fuel with
  | zero => intro n h; omega
  | succ fuel ih =>
    intro n hn
    have hdig : ∀ d, d < 10 → isIntChar (Char.ofNat (d + 48)) = true
        ∧ (Char.ofNat (d + 48)).toNat - '0'.toNat = d := by
      intro d hd
      interval_cases d <;> exact ⟨by decide, by decide⟩
    rw [natDigitsRev]
    by_cases h : n < 10
    · rw [if_pos h]
      refine ⟨by simp, ?_, ?_⟩
      · intro c hc
        simp only [List.mem_singleton] at hc
        subst hc; exact (hdig n h).1
      · simp only [List.foldr_cons, List.foldr_nil]
        rw [(hdig n h).2]
        omega
    · rw [if_neg h]
      have hlt : n / 10 < fuel := by omega
      obtain ⟨_, i2, i3⟩ := ih (n / 10) hlt
      have hm : n % 10 < 10 := Nat.mod_lt _ (by norm_num)
      refine ⟨by simp, ?_, ?_⟩
      · intro c hc
        rcases List.mem_cons.mp hc with hc | hc
        · subst hc; exact (hdig _ hm).1
        · exact i2 c hc
      · simp only [List.foldr_cons]
        rw [i3, (hdig _ hm).2]
        omega

theorem natDigits_spec (n : Nat) :
    natDigits n ≠ [] ∧ (∀ c ∈ natDigits n, isIntChar c = true)
    ∧ digitsVal (natDigits n) = n := by
  obtain ⟨h1, h2, h3⟩ := natDigitsRev_spec (n + 1) n (Nat.lt_succ_self n)
  refine ⟨?_, ?_, ?_⟩
  · unfold natDigits; simpa using h1
  · intro c hc
    unfold natDigits at hc
    exact h2 c (List.mem_reverse.mp hc)
  · unfold natDigits digitsVal
    rw [List.foldl_reverse]
    exact h3

theorem reads_index {ν : Type} (L : NumLib ν) (i : Nat) (hi : i < 2 ^ 63) :
    Reads L ('#' :: natDigits i) (.int (i : Int) : Tok ν) := by
  obtain ⟨h1, h2, h3⟩ := natDigits_spec i
  refine ⟨⟨'#', _, rfl, by decide⟩, ?_⟩
  intro ch rest hch
  have hnd : isIntChar ch = false := by
    rcases isStrChar_false ch hch with h | h <;> subst h <;> decide
  have hs := scanWhile_append isIntChar (natDigits i) (ch :: rest) h2
    (by intro c hc; simp at hc; subst hc; exact hnd)
  have hp : parseInt (natDigits i) = some (i : Int) := by
    unfold parseInt
    rw [if_neg h1, h3, if_pos (by omega)]
  simp only [scanToken, List.cons_append, scanArrIndex, List.tail_cons, scanInt, hs, hp]

/-! ## Round trip: rows -/
theorem rowReads_ne_nil {ν : Type} (L : NumLib ν) (row : List (List Char)) (p : Path ν)
    (h : RowReads L row p) : ∃ a tl rest, row = (a :: tl) :: rest ∧ isStrChar a = true := by
  cases h with
  | last c t hr =>
    obtain ⟨⟨a, tl, hc, ha⟩, _⟩ := hr
    exact ⟨a, tl, [], by rw [hc], ha⟩
  | step c t row p hr _ =>
    obtain ⟨⟨a, tl, hc, ha⟩, _⟩ := hr
    exact ⟨a, tl, row, by rw [hc], ha⟩

theorem skipBrank_strChar (a : Char) (tl : List Char) (h : isStrChar a = true) :
    skipBrank (a :: tl) = a :: tl := by
  have : isBrank a = false := by
    simp only [isStrChar, Bool.and_eq_true, Bool.not_eq_true'] at h
    exact h.1
  simp [skipBrank, this]

/-- A row that is read as the path `p`, written with single spaces and a newline, is
decoded by `decodeLine` to `p`, given fuel for its cells. -/
theorem decodeLine_row {ν : Type} (L : NumLib ν) (row : List (List Char)) (p : Path ν)
    (h : RowReads L row p) : ∀ (k : Nat) (rest : List Char),
    decodeLine L (row.length + k) (List.intercalate [' '] row ++ '\n' :: rest)
      = .ok (p, rest) := by
  induction h with
  | last c t hr =>
    intro k rest
    have hlen : [c].length + k = k + 1 := by simp; omega
    rw [hlen, decodeLine]
    have hi : List.intercalate [' '] [c] = c := by simp [List.intercalate]
    rw [hi, hr.2 '\n' rest (by decide)]
    simp [skipBrank, isBrank]
  | step c t row p hr hrow ih =>
    intro k rest
    obtain ⟨a, tl, rest2, hrow2, ha⟩ := rowReads_ne_nil L row p hrow
    have hlen : (c :: row).length + k = (row.length + k) + 1 := by simp; omega
    rw [hlen, decodeLine]
    have hi : List.intercalate [' '] (c :: row) = c ++ ' ' :: List.intercalate [' '] row := by
      rw [hrow2]; simp [List.intercalate]
    rw [hi, List.append_assoc, List.cons_append, hr.2 ' ' _ (by decide)]
    have hsk : skipBrank (' ' :: (List.intercalate [' '] row ++ '\n' :: rest))
        = List.intercalate [' '] row ++ '\n' :: rest := by
      rw [skipBrank]
      simp only [isBrank, beq_self_eq_true, if_true]
      rw [hrow2]
      cases rest2 with
      | nil =>
        simp only [List.intercalate, List.intersperse, List.flatten, List.append_nil,
          List.cons_append]
        exact skipBrank_strChar a _ ha
      | cons r2 rs =>
        simp only [List.intercalate, List.intersperse, List.flatten, List.cons_append]
        exact skipBrank_strChar a _ ha
    simp only [hsk]
    have hne : ∀ r, List.intercalate [' '] row ++ '\n' :: rest ≠ '\n' :: r := by
      intro r hcontra
      rw [hrow2] at hcontra
      have hahead : a = '\n' := by
        cases rest2 with
        | nil =>
          simp only [List.intercalate, List.intersperse, List.flatten, List.append_nil,
            List.cons_append, List.cons.injEq] at hcontra
          exact hcontra.1
        | cons r2 rs =>
          simp only [List.intercalate, List.intersperse, List.flatten, List.cons_append,
            List.cons.injEq] at hcontra
          exact hcontra.1
      subst hahead
      simp [isStrChar] at ha
    split
    · rename_i r heq
      exact absurd heq (hne r)
    · rw [ih k rest]

/-- The rows of a document, each read as a path, are decoded by the first loop of
`decodeToMapOrV` to these paths. -/
theorem decodeLines_rows {ν : Type} (L : NumLib ν) (M : Nat) :
    ∀ (rows : Rows) (paths : List (Path ν)), List.Forall₂ (RowReads L) rows paths →
    (∀ row ∈ rows, row.length ≤ M) →
    ∀ k, decodeLines L (rows.length + M + 1 + k) (render rows) = .ok paths := by
  intro rows paths h
  induction h with
  | nil =>
    intro _ k
    have : ([] : Rows).length + M + 1 + k = (M + k) + 1 := by simp; omega
    rw [this, render, decodeLines]
  | @cons row p rows paths hrow _ ih =>
    intro hM k
    obtain ⟨a, tl, rest2, hrow2, ha⟩ := rowReads_ne_nil L row p hrow
    have hlen : (row :: rows).length + M + 1 + k = (rows.length + M + 1 + k) + 1 := by
      simp; omega
    rw [hlen, render]
    have hshape : ∃ tl2, List.intercalate [' '] row ++ '\n' :: render rows = a :: tl2 := by
      rw [hrow2]
      cases rest2 with
      | nil => exact ⟨_, by simp [List.intercalate]; rfl⟩
      | cons r2 rs => exact ⟨_, by simp [List.intercalate]; rfl⟩
    obtain ⟨tl2, htl2⟩ := hshape
    have hdl : decodeLine L (rows.length + M + 1 + k + 1)
        (List.intercalate [' '] row ++ '\n' :: render rows) = .ok (p, render rows) := by
      have hrl : row.length ≤ M := hM row (List.mem_cons_self _ _)
      have := decodeLine_row L row p hrow (rows.length + M + 1 + k + 1 - row.length)
        (render rows)
      rw [show row.length + (rows.length + M + 1 + k + 1 - row.length)
        = rows.length + M + 1 + k + 1 by omega] at this
      exact this
    rw [htl2] at hdl ⊢
    rw [decodeLines, skipBrank_strChar a tl2 ha, hdl]
    simp only
    rw [ih (fun r hr => hM r (List.mem_cons_of_mem _ hr)) k]

theorem allS_iff {ν : Type} (p : Val ν → Bool) : ∀ (d : List (List Char × Val ν)),
    allS p d = true ↔ ∀ e ∈ d, e.2.all p = true := by
  intro d
  induction d with
  | nil => simp [allS]
  | cons a d ih =>
    obtain ⟨k, v⟩ := a
    rw [allS, Bool.and_eq_true, ih, List.forall_mem_cons]

theorem allL_iff {ν : Type} (p : Val ν → Bool) : ∀ (xs : List (Val ν)),
    allL p xs = true ↔ ∀ x ∈ xs, x.all p = true := by
  intro xs
  induction xs with
  | nil => simp [allL]
  | cons a xs ih =>
    rw [allL, Bool.and_eq_true, ih, List.forall_mem_cons]

theorem all_smap {ν : Type} (p : Val ν → Bool) (d : List (List Char × Val ν)) :
    (Val.smap d).all p = true ↔ p (.smap d) = true ∧ ∀ e ∈ d, e.2.all p = true := by
  rw [Val.all, Bool.and_eq_true, allS_iff]

theorem all_slice {ν : Type} (p : Val ν → Bool) (xs : List (Val ν)) :
    (Val.slice xs).all p = true ↔ p (.slice xs) = true ∧ ∀ x ∈ xs, x.all p = true := by
  rw [Val.all, Bool.and_eq_true, allL_iff]

theorem depthS_mem {ν : Type} : ∀ (m : List (List Char × Val ν)) (e : List Char × Val ν),
    e ∈ m → e.2.depth ≤ depthS m := by
  intro m
  induction m with
  | nil => intro e h; simp at h
  | cons a m ih =>
    intro e h
    obtain ⟨k, v⟩ := a
    rw [depthS]
    rcases List.mem_cons.mp h with h | h
    · subst h; exact le_max_left _ _
    · exact le_trans (ih e h) (le_max_right _ _)

theorem depthL_mem {ν : Type} : ∀ (m : List (Val ν)) (e : Val ν),
    e ∈ m → e.depth ≤ depthL m := by
  intro m
  induction m with
  | nil => intro e h; simp at h
  | cons a m ih =>
    intro e h
    rw [depthL]
    rcases List.mem_cons.mp h with h | h
    · subst h; exact le_max_left _ _
    · exact le_trans (ih e h) (le_max_right _ _)

theorem keys_of_sorted {α : Type} (d : List (List Char × α))
    (hs : (d.map Prod.fst).Sorted (· < ·)) : keys d = d.map Prod.fst := by
  unfold keys sortStrings
  exact List.Sorted.insertionSort_eq (hs.imp le_of_lt)

/-- The rows of an Object whose keys are strictly ascending: entry after entry. -/
theorem toRows_smap_sorted {ν : Type} (L : NumLib ν) (d : List (List Char × Val ν))
    (hs : (d.map Prod.fst).Sorted (· < ·)) :
    toRows L (.smap d) = d.flatMap (fun e => prefixSl (escape e.1) (toRows L e.2)) := by
  rw [toRows_smap, keys_of_sorted d hs, List.flatMap_def, List.flatMap_def, List.map_map]
  congr 1
  apply List.map_congr_left
  intro e he
  have := (mapGet_eq_some d e.1 e.2 hs.nodup).mpr he
  simp [this]

theorem rowReads_prefixSl {ν : Type} (L : NumLib ν) (c : List Char) (t : Tok ν)
    (hc : Reads L c t) : ∀ (rows : Rows) (paths : List (Path ν)),
    List.Forall₂ (RowReads L) rows paths →
    List.Forall₂ (RowReads L) (prefixSl c rows) (paths.map (Path.kv t)) := by
  intro rows paths h
  induction h with
  | nil => exact List.Forall₂.nil
  | cons h1 _ ih => exact List.Forall₂.cons (RowReads.step _ _ _ _ hc h1) ih

theorem rowReads_entries {ν : Type} (L : NumLib ν) : ∀ (d : List (List Char × Val ν)),
    (∀ e ∈ d, List.Forall₂ (RowReads L) (toRows L e.2) (pathsOf e.2)) →
    List.Forall₂ (RowReads L) (d.flatMap (fun e => prefixSl (escape e.1) (toRows L e.2)))
      (pathsS d) := by
  intro d
  induction d with
  | nil => intro _; exact List.Forall₂.nil
  | cons a d ih =>
    intro h
    obtain ⟨k, v⟩ := a
    rw [List.flatMap_cons, pathsS]
    exact List.rel_append
      (rowReads_prefixSl L _ _ (reads_str L k) _ _ (h (k, v) (List.mem_cons_self _ _)))
      (ih (fun e he => h e (List.mem_cons_of_mem _ he)))

theorem rowReads_items {ν : Type} (L : NumLib ν) : ∀ (xs : List (Val ν)) (i : Nat),
    (∀ x ∈ xs, List.Forall₂ (RowReads L) (toRows L x) (pathsOf x)) →
    i + xs.length ≤ 2 ^ 63 →
    List.Forall₂ (RowReads L) (toRowsSlice L i xs) (pathsL i xs) := by
  intro xs
  induction xs with
  | nil => intro i _ _; rw [toRowsSlice, pathsL]; exact List.Forall₂.nil
  | cons x xs ih =>
    intro i h hi
    rw [toRowsSlice, pathsL]
    simp only [List.length_cons] at hi
    exact List.rel_append
      (rowReads_prefixSl L _ _ (reads_index L i (by omega)) _ _
        (h x (List.mem_cons_self _ _)))
      (ih (i + 1) (fun e he => h e (List.mem_cons_of_mem _ he)) (by omega))

/-- Every row of a canonical value whose numbers read back is read by `decodeLine` as the
corresponding path. -/
theorem rowReads_toRows {ν : Type} [DecidableEq ν] (L : NumLib ν) : ∀ (n : Nat) (v : Val ν),
    v.depth ≤ n → v.all isValueNode = true → v.all (numReadsBack L) = true →
    v.all indexableNode = true →
    List.Forall₂ (RowReads L) (toRows L v) (pathsOf v) := by
  intro n
  induction n with
  | zero =>
    intro v hd hv hn _
    cases v with
    | tok t =>
      cases t with
      | null => exact List.Forall₂.cons (RowReads.last _ _ (reads_null L)) List.Forall₂.nil
      | bool b =>
        cases b with
        | true => exact List.Forall₂.cons (RowReads.last _ _ (reads_true L)) List.Forall₂.nil
        | false =>
          exact List.Forall₂.cons (RowReads.last _ _ (reads_false L)) List.Forall₂.nil
      | num x =>
        exact List.Forall₂.cons (RowReads.last _ _ (reads_num L x hn)) List.Forall₂.nil
      | str s => exact List.Forall₂.cons (RowReads.last _ _ (reads_str L s)) List.Forall₂.nil
      | int i => simp [Val.all, isValueNode] at hv
    | imap m => rw [Val.depth] at hd; omega
    | smap d => rw [Val.depth] at hd; omega
    | slice xs => rw [Val.depth] at hd; omega
  | succ n ih =>
    intro v hd hv hn hi
    cases v with
    | tok t =>
      cases t with
      | null => exact List.Forall₂.cons (RowReads.last _ _ (reads_null L)) List.Forall₂.nil
      | bool b =>
        cases b with
        | true => exact List.Forall₂.cons (RowReads.last _ _ (reads_true L)) List.Forall₂.nil
        | false =>
          exact List.Forall₂.cons (RowReads.last _ _ (reads_false L)) List.Forall₂.nil
      | num x =>
        exact List.Forall₂.cons (RowReads.last _ _ (reads_num L x hn)) List.Forall₂.nil
      | str s => exact List.Forall₂.cons (RowReads.last _ _ (reads_str L s)) List.Forall₂.nil
      | int i => simp [Val.all, isValueNode] at hv
    | imap m => simp [Val.all, isValueNode] at hv
    | smap d =>
      rw [Val.depth] at hd
      rw [all_smap] at hv hn hi
      have hs : (d.map Prod.fst).Sorted (· < ·) := by
        simpa [isValueNode] using hv.1
      rw [toRows_smap_sorted L d hs, pathsOf]
      apply rowReads_entries
      intro e he
      exact ih e.2 (by have := depthS_mem d e he; omega) (hv.2 e he) (hn.2 e he) (hi.2 e he)
    | slice xs =>
      rw [Val.depth] at hd
      rw [all_slice] at hv hn hi
      rw [toRows, pathsOf]
      apply rowReads_items
      · intro e he
        exact ih e (by have := depthL_mem xs e he; omega) (hv.2 e he) (hn.2 e he) (hi.2 e he)
      · have : xs.length ≤ 2 ^ 63 := by simpa [indexableNode] using hi.1
        omega

/-! ## Round trip: tree builder -/
theorem collectKvs_map {ν : Type} : ∀ (l : List (Tok ν × Path ν)),
    collectKvs (l.map (fun c => Path.kv c.1 c.2)) = .inr l := by
  intro l
  induction l with
  | nil => rfl
  | cons a l ih =>
    obtain ⟨k, p⟩ := a
    rw [List.map_cons, collectKvs, ih]

theorem pathsS_eq {ν : Type} : ∀ (d : List (List Char × Val ν)),
    pathsS d = (chainsS d).map (fun c => Path.kv c.1 c.2) := by
  intro d
  induction d with
  | nil => rfl
  | cons a d ih =>
    obtain ⟨k, v⟩ := a
    rw [pathsS, chainsS, List.map_append, List.map_map, ih]
    rfl

theorem pathsL_eq {ν : Type} : ∀ (xs : List (Val ν)) (i : Nat),
    pathsL i xs = (chainsL i xs).map (fun c => Path.kv c.1 c.2) := by
  intro xs
  induction xs with
  | nil => intro i; rfl
  | cons x xs ih =>
    intro i
    rw [pathsL, chainsL, List.map_append, List.map_map, ih]
    rfl

theorem mapGet_none {κ α : Type} [DecidableEq κ] : ∀ (m : List (κ × α)) (k : κ),
    k ∉ m.map Prod.fst → mapGet m k = none := by
  intro m
  induction m with
  | nil => intro k _; rfl
  | cons a m ih =>
    intro k h
    obtain ⟨k2, v2⟩ := a
    simp only [List.map_cons, List.mem_cons, not_or] at h
    rw [mapGet, if_neg h.1, ih k h.2]

theorem mapSet_new {κ α : Type} [DecidableEq κ] : ∀ (m : List (κ × α)) (k : κ) (v : α),
    k ∉ m.map Prod.fst → mapSet m k v = m ++ [(k, v)] := by
  intro m
  induction m with
  | nil => intro k v _; rfl
  | cons a m ih =>
    intro k v h
    obtain ⟨k2, v2⟩ := a
    simp only [List.map_cons, List.mem_cons, not_or] at h
    rw [mapSet, if_neg h.1, ih k v h.2]
    rfl

theorem mapGet_append_last {κ α : Type} [DecidableEq κ] : ∀ (m : List (κ × α)) (k : κ)
    (x : α), k ∉ m.map Prod.fst → mapGet (m ++ [(k, x)]) k = some x := by
  intro m
  induction m with
  | nil => intro k x _; simp [mapGet]
  | cons a m ih =>
    intro k x h
    obtain ⟨k2, v2⟩ := a
    simp only [List.map_cons, List.mem_cons, not_or] at h
    rw [List.cons_append, mapGet, if_neg h.1, ih k x h.2]

theorem mapSet_append_last {κ α : Type} [DecidableEq κ] : ∀ (m : List (κ × α)) (k : κ)
    (x y : α), k ∉ m.map Prod.fst → mapSet (m ++ [(k, x)]) k y = m ++ [(k, y)] := by
  intro m
  induction m with
  | nil => intro k x y _; simp [mapSet]
  | cons a m ih =>
    intro k x y h
    obtain ⟨k2, v2⟩ := a
    simp only [List.map_cons, List.mem_cons, not_or] at h
    rw [List.cons_append, mapSet, if_neg h.1, ih k x y h.2]
    rfl

/-- Further nested chains under a key that already holds a `[]kv` are appended to it. -/
theorem group_kv_more {ν : Type} [DecidableEq ν] (m : List (Tok ν × Slot ν)) (k : Tok ν)
    (hk : k ∉ m.map Prod.fst) (rest : List (Tok ν × Path ν)) :
    ∀ (cs l : List (Tok ν × Path ν)),
    group (m ++ [(k, .kvs l)]) (cs.map (fun c => (k, Path.kv c.1 c.2)) ++ rest)
      = group (m ++ [(k, .kvs (l ++ cs))]) rest := by
  intro cs
  induction cs with
  | nil => intro l; simp
  | cons c cs ih =>
    intro l
    rw [List.map_cons, List.cons_append, group]
    simp only [groupStep]
    rw [mapGet_append_last m k _ hk]
    simp only
    rw [mapSet_append_last m k _ _ hk, ih (l ++ [c])]
    simp

/-- The nested chains of one key, the key not being in the map yet, are gathered in one
`[]kv` under it. -/
theorem group_kv {ν : Type} [DecidableEq ν] (m : List (Tok ν × Slot ν)) (k : Tok ν)
    (hk : k ∉ m.map Prod.fst) (rest : List (Tok ν × Path ν))
    (cs : List (Tok ν × Path ν)) (hcs : cs ≠ []) :
    group m (cs.map (fun c => (k, Path.kv c.1 c.2)) ++ rest)
      = group (m ++ [(k, .kvs cs)]) rest := by
  cases cs with
  | nil => exact absurd rfl hcs
  | cons c cs =>
    rw [List.map_cons, List.cons_append, group]
    simp only [groupStep]
    rw [mapGet_none m k hk]
    simp only
    rw [mapSet_new m k _ hk, group_kv_more m k hk rest cs [c]]
    simp

theorem group_scalar {ν : Type} [DecidableEq ν] (m : List (Tok ν × Slot ν)) (k : Tok ν)
    (hk : k ∉ m.map Prod.fst) (rest : List (Tok ν × Path ν)) (t : Tok ν) :
    group m ((k, Path.leaf t) :: rest) = group (m ++ [(k, .scalar t)]) rest := by
  rw [group]
  simp only [groupStep]
  rw [mapSet_new m k _ hk]

/-- A canonical value without empty containers has at least one row. -/
theorem pathsOf_ne_nil {ν : Type} : ∀ (n : Nat) (v : Val ν), v.depth ≤ n →
    v.all isValueNode = true → v.all nonEmptyNode = true → pathsOf v ≠ [] := by
  intro n
  induction n with
  | zero =>
    intro v hd hv _
    cases v with
    | tok t => simp [pathsOf]
    | imap m => rw [Val.depth] at hd; omega
    | smap d => rw [Val.depth] at hd; omega
    | slice xs => rw [Val.depth] at hd; omega
  | succ n ih =>
    intro v hd hv hne
    cases v with
    | tok t => simp [pathsOf]
    | imap m => simp [Val.all, isValueNode] at hv
    | smap d =>
      rw [Val.depth] at hd
      rw [all_smap] at hv hne
      cases d with
      | nil => simp [nonEmptyNode] at hne
      | cons a d =>
        obtain ⟨k, v⟩ := a
        have h1 : v.depth ≤ depthS ((k, v) :: d) :=
          depthS_mem ((k, v) :: d) (k, v) (List.mem_cons_self _ _)
        have := ih v (by omega)
          (hv.2 (k, v) (List.mem_cons_self _ _)) (hne.2 (k, v) (List.mem_cons_self _ _))
        rw [pathsOf, pathsS]
        intro hc
        rw [List.append_eq_nil, List.map_eq_nil_iff] at hc
        exact this hc.1
    | slice xs =>
      rw [Val.depth] at hd
      rw [all_slice] at hv hne
      cases xs with
      | nil => simp [nonEmptyNode] at hne
      | cons x xs =>
        have h1 : x.depth ≤ depthL (x :: xs) :=
          depthL_mem (x :: xs) x (List.mem_cons_self _ _)
        have := ih x (by omega)
          (hv.2 x (List.mem_cons_self _ _)) (hne.2 x (List.mem_cons_self _ _))
        rw [pathsOf, pathsL]
        intro hc
        rw [List.append_eq_nil, List.map_eq_nil_iff] at hc
        exact this hc.1

theorem pathsOf_eq_chains {ν : Type} (v : Val ν) (hv : v.all isValueNode = true)
    (hc : ∀ t, v ≠ .tok t) : pathsOf v = (chainsOf v).map (fun c => Path.kv c.1 c.2) := by
  cases v with
  | tok t => exact absurd rfl (hc t)
  | imap m => simp [Val.all, isValueNode] at hv
  | smap d => rw [pathsOf, chainsOf, pathsS_eq]
  | slice xs => rw [pathsOf, chainsOf, pathsL_eq]

/-- The chains of one entry, its key not being in the map yet, leave one slot under the
key. -/
theorem group_entry {ν : Type} [DecidableEq ν] (m : List (Tok ν × Slot ν)) (k : Tok ν)
    (hk : k ∉ m.map Prod.fst) (rest : List (Tok ν × Path ν)) (v : Val ν)
    (hv : v.all isValueNode = true) (hne : v.all nonEmptyNode = true) :
    group m ((pathsOf v).map (fun p => (k, p)) ++ rest)
      = group (m ++ [(k, slotOf v)]) rest := by
  by_cases ht : ∃ t, v = .tok t
  · obtain ⟨t, rfl⟩ := ht
    rw [pathsOf, slotOf]
    exact group_scalar m k hk rest t
  · have hc : ∀ t, v ≠ .tok t := fun t h => ht ⟨t, h⟩
    have hp := pathsOf_eq_chains v hv hc
    have hnn := pathsOf_ne_nil v.depth v (le_refl _) hv hne
    have hcs : chainsOf v ≠ [] := by
      intro h; rw [hp, h] at hnn; exact hnn rfl
    have hslot : slotOf v = .kvs (chainsOf v) := by
      cases v with
      | tok t => exact absurd rfl (hc t)
      | imap m => rfl
      | smap d => rfl
      | slice xs => rfl
    rw [hp, List.map_map, hslot]
    exact group_kv m k hk rest (chainsOf v) hcs

theorem group_chainsS {ν : Type} [DecidableEq ν] : ∀ (d : List (List Char × Val ν))
    (m : List (Tok ν × Slot ν)),
    (∀ e ∈ d, Tok.str e.1 ∉ m.map Prod.fst) → (d.map Prod.fst).Nodup →
    (∀ e ∈ d, e.2.all isValueNode = true ∧ e.2.all nonEmptyNode = true) →
    group m (chainsS d) = .ok (m ++ slotsS d) := by
  intro d
  induction d with
  | nil => intro m _ _ _; simp [chainsS, slotsS, group]
  | cons a d ih =>
    intro m hm hnd hg
    obtain ⟨k, v⟩ := a
    simp only [List.map_cons, List.nodup_cons] at hnd
    have hgv := hg (k, v) (List.mem_cons_self _ _)
    rw [chainsS, group_entry m (Tok.str k) (hm (k, v) (List.mem_cons_self _ _)) _ v hgv.1 hgv.2,
      ih (m ++ [(Tok.str k, slotOf v)]) ?_ hnd.2
        (fun e he => hg e (List.mem_cons_of_mem _ he)),
      slotsS]
    · simp
    · intro e he
      simp only [List.map_append, List.map_cons, List.map_nil, List.mem_append,
        List.mem_singleton, Tok.str.injEq, not_or]
      refine ⟨hm e (List.mem_cons_of_mem _ he), ?_⟩
      intro hek
      exact hnd.1 (hek ▸ List.mem_map_of_mem Prod.fst he)

theorem group_chainsL {ν : Type} [DecidableEq ν] : ∀ (xs : List (Val ν)) (i : Nat)
    (m : List (Tok ν × Slot ν)),
    (∀ j : Nat, i ≤ j → Tok.int (j : Int) ∉ m.map Prod.fst) →
    (∀ x ∈ xs, x.all isValueNode = true ∧ x.all nonEmptyNode = true) →
    group m (chainsL i xs) = .ok (m ++ slotsL i xs) := by
  intro xs
  induction xs with
  | nil => intro i m _ _; simp [chainsL, slotsL, group]
  | cons x xs ih =>
    intro i m hm hg
    have hgv := hg x (List.mem_cons_self _ _)
    rw [chainsL, group_entry m (Tok.int i) (hm i (le_refl _)) _ x hgv.1 hgv.2,
      ih (i + 1) (m ++ [(Tok.int i, slotOf x)]) ?_
        (fun e he => hg e (List.mem_cons_of_mem _ he)),
      slotsL]
    · simp
    · intro j hj
      simp only [List.map_append, List.map_cons, List.map_nil, List.mem_append,
        List.mem_singleton, Tok.int.injEq, not_or]
      refine ⟨hm j (by omega), ?_⟩
      intro hji
      have : j = i := by exact_mod_cast hji
      omega

theorem extract_slotsS {ν : Type}
    (f : List (Tok ν × Path ν) → Res (List (Tok ν × Val ν))) :
    ∀ (d : List (List Char × Val ν)),
    (∀ e ∈ d, (∃ t, e.2 = .tok t)
      ∨ ∃ mm, f (chainsOf e.2) = .ok mm ∧ toRaw e.2 = .imap mm ∧ slotOf e.2
          = .kvs (chainsOf e.2)) →
    extract f (slotsS d) = .ok (rawS d) := by
  intro d
  induction d with
  | nil => intro _; rfl
  | cons a d ih =>
    intro h
    obtain ⟨k, v⟩ := a
    have ih2 := ih (fun e he => h e (List.mem_cons_of_mem _ he))
    rcases h (k, v) (List.mem_cons_self _ _) with ⟨t, ht⟩ | ⟨mm, h1, h2, h3⟩
    · simp only at ht
      subst ht
      rw [slotsS, slotOf, extract, ih2, rawS, toRaw]
    · simp only at h1 h2 h3
      rw [slotsS, h3, extract, h1]
      simp only
      rw [ih2, rawS, h2]

theorem extract_slotsL {ν : Type}
    (f : List (Tok ν × Path ν) → Res (List (Tok ν × Val ν))) :
    ∀ (xs : List (Val ν)) (i : Nat),
    (∀ x ∈ xs, (∃ t, x = .tok t)
      ∨ ∃ mm, f (chainsOf x) = .ok mm ∧ toRaw x = .imap mm ∧ slotOf x
          = .kvs (chainsOf x)) →
    extract f (slotsL i xs) = .ok (rawL i xs) := by
  intro xs
  induction xs with
  | nil => intro i _; rfl
  | cons x xs ih =>
    intro i h
    have ih2 := ih (i + 1) (fun e he => h e (List.mem_cons_of_mem _ he))
    rcases h x (List.mem_cons_self _ _) with ⟨t, ht⟩ | ⟨mm, h1, h2, h3⟩
    · subst ht
      rw [slotsL, slotOf, extract, ih2, rawL, toRaw]
    · rw [slotsL, h3, extract, h1]
      simp only
      rw [ih2, rawL, h2]

/-- The tree builder on the chains of a canonical container without empty containers:
the raw tree of the value. -/
theorem kvsToMap_chainsOf {ν : Type} [DecidableEq ν] : ∀ (n : Nat) (v : Val ν),
    v.depth ≤ n → v.all isValueNode = true → v.all nonEmptyNode = true →
    (∃ t, v = .tok t)
      ∨ ∃ mm, kvsToMap n (chainsOf v) = .ok mm ∧ toRaw v = .imap mm
          ∧ slotOf v = .kvs (chainsOf v) := by
  intro n
  induction n with
  | zero =>
    intro v hd hv _
    cases v with
    | tok t => exact Or.inl ⟨t, rfl⟩
    | imap m => rw [Val.depth] at hd; omega
    | smap d => rw [Val.depth] at hd; omega
    | slice xs => rw [Val.depth] at hd; omega
  | succ n ih =>
    intro v hd hv hne
    cases v with
    | tok t => exact Or.inl ⟨t, rfl⟩
    | imap m => simp [Val.all, isValueNode] at hv
    | smap d =>
      right
      rw [Val.depth] at hd
      rw [all_smap] at hv hne
      have hs : (d.map Prod.fst).Sorted (· < ·) := by
        simpa [isValueNode] using hv.1
      refine ⟨rawS d, ?_, by rw [toRaw], rfl⟩
      rw [chainsOf, kvsToMap,
        group_chainsS d [] (by simp) hs.nodup (fun e he => ⟨hv.2 e he, hne.2 e he⟩)]
      simp only [List.nil_append]
      apply extract_slotsS
      intro e he
      exact ih e.2 (by have := depthS_mem d e he; omega) (hv.2 e he) (hne.2 e he)
    | slice xs =>
      right
      rw [Val.depth] at hd
      rw [all_slice] at hv hne
      refine ⟨rawL 0 xs, ?_, by rw [toRaw], rfl⟩
      rw [chainsOf, kvsToMap,
        group_chainsL xs 0 [] (by simp) (fun e he => ⟨hv.2 e he, hne.2 e he⟩)]
      simp only [List.nil_append]
      apply extract_slotsL
      intro e he
      exact ih e (by have := depthL_mem xs e he; omega) (hv.2 e he) (hne.2 e he)

/-! ## Round trip: canonicalizer and the whole decoder -/
theorem smapSet_append {α : Type} : ∀ (r : List (List Char × α)) (k : List Char) (v : α),
    (∀ e ∈ r, e.1 < k) → smapSet r k v = r ++ [(k, v)] := by
  intro r
  induction r with
  | nil => intro k v _; rfl
  | cons a r ih =>
    intro k v h
    obtain ⟨k2, v2⟩ := a
    have h2 : k2 < k := h (k2, v2) (List.mem_cons_self _ _)
    rw [smapSet, if_neg (not_lt.mpr (le_of_lt h2)), if_neg (ne_of_gt h2),
      ih k v (fun e he => h e (List.mem_cons_of_mem _ he))]
    rfl

theorem tryMakeKeyStringAux_rawS {ν : Type} : ∀ (d r : List (List Char × Val ν)),
    (r.map Prod.fst ++ d.map Prod.fst).Sorted (· < ·) →
    tryMakeKeyStringAux r (rawS d) = some (r ++ d.map (fun e => (e.1, toRaw e.2))) := by
  intro d
  induction d with
  | nil => intro r _; simp [rawS, tryMakeKeyStringAux]
  | cons a d ih =>
    intro r hs
    obtain ⟨k, v⟩ := a
    have hlt : ∀ e ∈ r, e.1 < k := by
      intro e he
      have hp := List.pairwise_append.mp hs
      exact hp.2.2 e.1 (List.mem_map_of_mem Prod.fst he) k
        (by rw [List.map_cons]; exact List.mem_cons_self _ _)
    rw [rawS, tryMakeKeyStringAux, smapSet_append r k _ hlt, ih (r ++ [(k, toRaw v)])]
    · simp
    · simpa using hs

theorem mapValues_toRaw {ν : Type} (f : Val ν → Res (Val ν)) :
    ∀ (d : List (List Char × Val ν)), (∀ e ∈ d, f (toRaw e.2) = .ok e.2) →
    mapValues f (d.map (fun e => (e.1, toRaw e.2))) = .ok d := by
  intro d
  induction d with
  | nil => intro _; rfl
  | cons a d ih =>
    intro h
    obtain ⟨k, v⟩ := a
    rw [List.map_cons, mapValues]
    simp only
    rw [h (k, v) (List.mem_cons_self _ _)]
    simp only
    rw [ih (fun e he => h e (List.mem_cons_of_mem _ he))]

theorem mapSlice_toRaw {ν : Type} (f : Val ν → Res (Val ν)) :
    ∀ (xs : List (Val ν)), (∀ x ∈ xs, f (toRaw x) = .ok x) →
    mapSlice f (xs.map toRaw) = .ok xs := by
  intro xs
  induction xs with
  | nil => intro _; rfl
  | cons x xs ih =>
    intro h
    rw [List.map_cons, mapSlice, h x (List.mem_cons_self _ _)]
    simp only
    rw [ih (fun e he => h e (List.mem_cons_of_mem _ he))]

theorem intKeys_rawL {ν : Type} : ∀ (xs : List (Val ν)) (i : Nat),
    ∃ ks, intKeys (rawL i xs) = some ks ∧ ks.Sorted (· < ·) ∧ (∀ k ∈ ks, (i : Int) ≤ k)
      ∧ (rawL i xs).map Prod.fst = ks.map Tok.int := by
  intro xs
  induction xs with
  | nil => intro i; exact ⟨[], rfl, List.sorted_nil, by simp, rfl⟩
  | cons x xs ih =>
    intro i
    obtain ⟨ks, h1, h2, h3, h4⟩ := ih (i + 1)
    refine ⟨(i : Int) :: ks, ?_, ?_, ?_, ?_⟩
    · rw [rawL, intKeys, h1]
    · rw [List.sorted_cons]
      refine ⟨fun k hk => ?_, h2⟩
      have := h3 k hk
      push_cast at this
      omega
    · intro k hk
      rcases List.mem_cons.mp hk with hk | hk
      · rw [hk]
      · have := h3 k hk
        push_cast at this
        omega
    · rw [rawL, List.map_cons, List.map_cons, h4]

theorem rawL_snd {ν : Type} : ∀ (xs : List (Val ν)) (i : Nat),
    (rawL i xs).map Prod.snd = xs.map toRaw := by
  intro xs
  induction xs with
  | nil => intro i; rfl
  | cons x xs ih => intro i; rw [rawL, List.map_cons, List.map_cons, ih]

theorem tryCvtSlice_rawL {ν : Type} [DecidableEq ν] (xs : List (Val ν)) (i : Nat) :
    tryCvtSlice (rawL i xs) = some (xs.map toRaw) := by
  obtain ⟨ks, h1, h2, _, h4⟩ := intKeys_rawL xs i
  have hnd : ((rawL i xs).map Prod.fst).Nodup := by
    rw [h4]
    exact h2.nodup.map (fun a b h => by simpa using h)
  unfold tryCvtSlice
  rw [h1]
  simp only
  rw [List.Sorted.insertionSort_eq (h2.imp le_of_lt)]
  have h5 := congrArg (List.map Prod.snd) (mapGet_self_map (rawL i xs) (Val.tok Tok.null) hnd)
  rw [List.map_map, rawL_snd] at h5
  rw [← h5]
  have h6 : ks.map (fun k => (mapGet (rawL i xs) (Tok.int k)).getD (Val.tok Tok.null))
      = (ks.map Tok.int).map (fun t => (mapGet (rawL i xs) t).getD (Val.tok Tok.null)) := by
    rw [List.map_map]; rfl
  rw [h6, ← h4, List.map_map]
  rfl

/-- The canonicalizer turns the raw tree of a canonical value without empty containers
back into the value. -/
theorem makeKeyStringOrCvtSlice_toRaw {ν : Type} [DecidableEq ν] : ∀ (n : Nat) (v : Val ν),
    v.depth ≤ n → v.all isValueNode = true → v.all nonEmptyNode = true →
    makeKeyStringOrCvtSlice n (toRaw v) = .ok v := by
  intro n
  induction n with
  | zero =>
    intro v hd hv _
    cases v with
    | tok t => rfl
    | imap m => rw [Val.depth] at hd; omega
    | smap d => rw [Val.depth] at hd; omega
    | slice xs => rw [Val.depth] at hd; omega
  | succ n ih =>
    intro v hd hv hne
    cases v with
    | tok t => rfl
    | imap m => simp [Val.all, isValueNode] at hv
    | smap d =>
      rw [Val.depth] at hd
      rw [all_smap] at hv hne
      have hs : (d.map Prod.fst).Sorted (· < ·) := by
        simpa [isValueNode] using hv.1
      rw [toRaw, makeKeyStringOrCvtSlice, tryMakeKeyString,
        tryMakeKeyStringAux_rawS d [] (by simpa using hs)]
      simp only [List.nil_append]
      rw [mapValues_toRaw]
      intro e he
      exact ih e.2 (by have := depthS_mem d e he; omega) (hv.2 e he) (hne.2 e he)
    | slice xs =>
      rw [Val.depth] at hd
      rw [all_slice] at hv hne
      cases xs with
      | nil => simp [nonEmptyNode] at hne
      | cons x xs =>
        have hnone : tryMakeKeyString (rawL 0 (x :: xs)) = none := by
          rw [rawL, tryMakeKeyString, tryMakeKeyStringAux]
          intro s _ h; cases h
        rw [toRaw, makeKeyStringOrCvtSlice, hnone]
        simp only
        rw [tryCvtSlice_rawL]
        simp only
        rw [mapSlice_toRaw]
        intro e he
        exact ih e (by have := depthL_mem (x :: xs) e he; omega) (hv.2 e he) (hne.2 e he)

theorem rows_bound (rows : Rows) : ∃ M, ∀ row ∈ rows, row.length ≤ M := by
  induction rows with
  | nil => exact ⟨0, by simp⟩
  | cons r rows ih =>
    obtain ⟨M, hM⟩ := ih
    refine ⟨max r.length M, ?_⟩
    intro row hrow
    rcases List.mem_cons.mp hrow with h | h
    · rw [h]; exact le_max_left _ _
    · exact le_trans (hM row h) (le_max_right _ _)

/-- The round trip: the text of the rows of a canonical value without empty containers,
whose numbers read back and whose arrays are indexable, decodes to the value, given enough
fuel. -/
theorem round_trip {ν : Type} [DecidableEq ν] (L : NumLib ν) (v : Val ν)
    (hv : v.all isValueNode = true) (hne : v.all nonEmptyNode = true)
    (hnum : v.all (numReadsBack L) = true) (hidx : v.all indexableNode = true) :
    ∃ N, ∀ fuel, N ≤ fuel → Decode L fuel (render (toRows L v)) = .ok v := by
  obtain ⟨M, hM⟩ := rows_bound (toRows L v)
  refine ⟨(toRows L v).length + M + 1 + v.depth, ?_⟩
  intro fuel hfuel
  have hrows := rowReads_toRows L v.depth v (le_refl _) hv hnum hidx
  have hdl := decodeLines_rows L M (toRows L v) (pathsOf v) hrows hM
    (fuel - ((toRows L v).length + M + 1))
  rw [show (toRows L v).length + M + 1 + (fuel - ((toRows L v).length + M + 1)) = fuel by
    omega] at hdl
  have hmk := makeKeyStringOrCvtSlice_mono v.depth (fuel - v.depth) (toRaw v) _
    (makeKeyStringOrCvtSlice_toRaw v.depth v (le_refl _) hv hne) (by simp)
  rw [show v.depth + (fuel - v.depth) = fuel by omega] at hmk
  unfold Decode decodeToMapOrV
  rw [hdl]
  simp only
  rcases kvsToMap_chainsOf v.depth v (le_refl _) hv hne with ⟨t, ht⟩ | ⟨mm, h1, h2, _⟩
  · subst ht
    rw [pathsOf, collectKvs]
    exact hmk
  · have hc : ∀ t, v ≠ .tok t := by
      intro t ht
      subst ht
      rw [toRaw] at h2
      cases h2
    rw [pathsOf_eq_chains v hv hc, collectKvs_map]
    simp only
    have hk := kvsToMap_mono v.depth (fuel - v.depth) (chainsOf v) _ h1 (by simp)
    rw [show v.depth + (fuel - v.depth) = fuel by omega] at hk
    rw [hk]
    simp only
    rw [← h2]
    exact hmk

/-- C1, as stated, fails: the empty Array is a canonical value, it has no rows, its text is
empty, and the empty text decodes to the empty Object; the Object with `a` mapped to the
empty Array has no rows either. And the text of the String made of U+FEFF and `a` decodes
to the String `a`, the scanner discarding a U+FEFF at the start of its source. -/
theorem C1_counterexample :
    emptyArray.all isValueNode = true
    ∧ render (toRows intLib emptyArray) = []
    ∧ (∀ fuel, Decode intLib (1 + fuel) (NewDecoder (render (toRows intLib emptyArray)))
        = .ok (.smap []))
    ∧ Val.smap [] ≠ emptyArray
    ∧ objectWithEmptyArray.all isValueNode = true
    ∧ (∀ fuel,
        Decode intLib (1 + fuel) (NewDecoder (render (toRows intLib objectWithEmptyArray)))
          = .ok (.smap []))
    ∧ Val.smap [] ≠ objectWithEmptyArray
    ∧ bomString.all isValueNode = true
    ∧ bomString.all nonEmptyNode = true
    ∧ (∀ fuel, Decode intLib (2 + fuel) (NewDecoder (render (toRows intLib bomString)))
        = .ok (.tok (.str ['a'])))
    ∧ Val.tok (.str ['a']) ≠ bomString := by
  refine ⟨by decide, rfl, fun fuel => Decode_mono intLib 1 fuel _ _ rfl (by simp), ?_,
    by decide, fun fuel => Decode_mono intLib 1 fuel _ _ rfl (by simp), ?_,
    by decide, by decide, fun fuel => Decode_mono intLib 2 fuel _ _ rfl (by simp), ?_⟩
  · intro h; cases h
  · intro h; cases h
  · intro h
    have h2 : (['a'] : List Char) = [bom, 'a'] := by
      unfold bomString at h
      injection h with h
      injection h with h
    exact absurd h2 (by decide)

/-- C1, amended: for every canonical value that is the empty Object or has no empty Array
and no empty Object in it, whose Numbers are read back from their `%v` text, whose Arrays
have indices that fit an `int64`, and whose text does not begin with U+FEFF, the text of
`toRows` (cells joined by single spaces, rows ended by a newline) given to a fresh decoder
decodes to the value. -/
theorem C1_round_trip {ν : Type} [DecidableEq ν] (L : NumLib ν) (v : Val ν)
    (hv : v.all isValueNode = true) (hne : v = .smap [] ∨ v.all nonEmptyNode = true)
    (hnum : v.all (numReadsBack L) = true) (hidx : v.all indexableNode = true)
    (hbom : (render (toRows L v)).head? ≠ some bom) :
    ∃ N, ∀ fuel, N ≤ fuel → Decode L fuel (NewDecoder (render (toRows L v))) = .ok v := by
  rw [NewDecoder_eq _ hbom]
  rcases hne with h | h
  · subst h
    refine ⟨1, fun fuel hf => ?_⟩
    have := Decode_mono L 1 (fuel - 1) (render (toRows L (.smap []))) (.ok (.smap [])) rfl
      (by simp)
    rw [show 1 + (fuel - 1) = fuel by omega] at this
    exact this
  · exact round_trip L v hv h hnum hidx

/-- C1 at an Object that holds an Array, a Number, a String with a blank and Null. -/
theorem C1_round_trip_witness :
    sampleValue.all isValueNode = true
    ∧ (sampleValue = .smap [] ∨ sampleValue.all nonEmptyNode = true)
    ∧ sampleValue.all (numReadsBack intLib) = true
    ∧ sampleValue.all indexableNode = true
    ∧ (render (toRows intLib sampleValue)).head? ≠ some bom
    ∧ ∃ N, ∀ fuel, N ≤ fuel →
        Decode intLib fuel (NewDecoder (render (toRows intLib sampleValue)))
          = .ok sampleValue :=
  ⟨by decide, Or.inr (by decide), by decide, by decide, by decide,
    C1_round_trip intLib sampleValue (by decide) (Or.inr (by decide)) (by decide)
      (by decide) (by decide)⟩

/-! ## Last scalar wins -/
theorem mapGet_mapSet_self {κ α : Type} [DecidableEq κ] : ∀ (m : List (κ × α)) (k : κ)
    (v : α), mapGet (mapSet m k v) k = some v := by
  intro m
  induction m with
  | nil => intro k v; simp [mapSet, mapGet]
  | cons a m ih =>
    intro k v
    obtain ⟨k2, v2⟩ := a
    rw [mapSet]
    by_cases h : k = k2
    · rw [if_pos h, mapGet, if_pos h]
    · rw [if_neg h, mapGet, if_neg h, ih]

theorem mapGet_mapSet_other {κ α : Type} [DecidableEq κ] : ∀ (m : List (κ × α)) (k k2 : κ)
    (v : α), k2 ≠ k → mapGet (mapSet m k v) k2 = mapGet m k2 := by
  intro m
  induction m with
  | nil => intro k k2 v h; simp [mapSet, mapGet, h]
  | cons a m ih =>
    intro k k2 v h
    obtain ⟨k3, v3⟩ := a
    rw [mapSet]
    by_cases h3 : k = k3
    · rw [if_pos h3, mapGet, mapGet]
      subst h3
      rw [if_neg h, if_neg h]
    · rw [if_neg h3, mapGet, mapGet, ih k k2 v h]

theorem groupStep_other {ν : Type} [DecidableEq ν] (m m2 : List (Tok ν × Slot ν))
    (s : Tok ν × Path ν) (k : Tok ν) (hs : s.1 ≠ k) (h : groupStep m s = .ok m2) :
    mapGet m2 k = mapGet m k := by
  obtain ⟨k1, p⟩ := s
  simp only at hs
  cases p with
  | leaf t =>
    simp only [groupStep, Res.ok.injEq] at h
    rw [← h, mapGet_mapSet_other m k1 k _ (fun hc => hs hc.symm)]
  | kv k2 v2 =>
    simp only [groupStep] at h
    cases hg : mapGet m k1 with
    | none =>
      rw [hg] at h
      simp only [Res.ok.injEq] at h
      rw [← h, mapGet_mapSet_other m k1 k _ (fun hc => hs hc.symm)]
    | some sl =>
      rw [hg] at h
      cases sl with
      | scalar t => simp at h
      | kvs l =>
        simp only [Res.ok.injEq] at h
        rw [← h, mapGet_mapSet_other m k1 k _ (fun hc => hs hc.symm)]

theorem group_other {ν : Type} [DecidableEq ν] (k : Tok ν) :
    ∀ (post : List (Tok ν × Path ν)) (m m2 : List (Tok ν × Slot ν)),
    (∀ s ∈ post, s.1 ≠ k) → group m post = .ok m2 → mapGet m2 k = mapGet m k := by
  intro post
  induction post with
  | nil =>
    intro m m2 _ h
    simp only [group, Res.ok.injEq] at h
    rw [h]
  | cons s post ih =>
    intro m m2 hp h
    rw [group] at h
    cases hg : groupStep m s with
    | ok m1 =>
      rw [hg] at h
      simp only at h
      rw [ih m1 m2 (fun x hx => hp x (List.mem_cons_of_mem _ hx)) h,
        groupStep_other m m1 s k (hp s (List.mem_cons_self _ _)) hg]
    | err e => rw [hg] at h; simp at h
    | panic => rw [hg] at h; simp at h
    | timeout => rw [hg] at h; simp at h

/-- When the first loop of `kvsToMap` ends without panic, a key whose last chain assigns a
scalar holds that scalar. -/
theorem group_last_scalar {ν : Type} [DecidableEq ν] (k t : Tok ν)
    (post : List (Tok ν × Path ν)) (hpost : ∀ s ∈ post, s.1 ≠ k) :
    ∀ (pre : List (Tok ν × Path ν)) (m m2 : List (Tok ν × Slot ν)),
    group m (pre ++ (k, .leaf t) :: post) = .ok m2 → mapGet m2 k = some (.scalar t) := by
  intro pre
  induction pre with
  | nil =>
    intro m m2 h
    rw [List.nil_append, group] at h
    simp only [groupStep] at h
    rw [group_other k post _ m2 hpost h, mapGet_mapSet_self]
  | cons s pre ih =>
    intro m m2 h
    rw [List.cons_append, group] at h
    cases hg : groupStep m s with
    | ok m1 => rw [hg] at h; exact ih m1 m2 h
    | err e => rw [hg] at h; simp at h
    | panic => rw [hg] at h; simp at h
    | timeout => rw [hg] at h; simp at h

theorem extract_scalar {ν : Type} [DecidableEq ν]
    (f : List (Tok ν × Path ν) → Res (List (Tok ν × Val ν))) (k t : Tok ν) :
    ∀ (m : List (Tok ν × Slot ν)) (r : List (Tok ν × Val ν)),
    extract f m = .ok r → mapGet m k = some (.scalar t) → mapGet r k = some (.tok t) := by
  intro m
  induction m with
  | nil => intro r _ h; simp [mapGet] at h
  | cons a m ih =>
    intro r he hg
    obtain ⟨k2, sl⟩ := a
    rw [mapGet] at hg
    cases sl with
    | scalar t2 =>
      rw [extract] at he
      cases hx : extract f m with
      | ok r2 =>
        rw [hx] at he
        simp only [Res.ok.injEq] at he
        rw [← he, mapGet]
        by_cases hk : k = k2
        · rw [if_pos hk] at hg ⊢
          simp only [Option.some.injEq, Slot.scalar.injEq] at hg
          rw [hg]
        · rw [if_neg hk] at hg ⊢
          exact ih r2 hx hg
      | err e => rw [hx] at he; simp at he
      | panic => rw [hx] at he; simp at he
      | timeout => rw [hx] at he; simp at he
    | kvs l =>
      rw [extract] at he
      cases hf : f l with
      | ok mm =>
        rw [hf] at he
        simp only at he
        cases hx : extract f m with
        | ok r2 =>
          rw [hx] at he
          simp only [Res.ok.injEq] at he
          rw [← he, mapGet]
          by_cases hk : k = k2
          · rw [if_pos hk] at hg
            simp at hg
          · rw [if_neg hk] at hg ⊢
            exact ih r2 hx hg
        | err e => rw [hx] at he; simp at he
        | panic => rw [hx] at he; simp at he
        | timeout => rw [hx] at he; simp at he
      | err e => rw [hf] at he; simp at he
      | panic => rw [hf] at he; simp at he
      | timeout => rw [hf] at he; simp at he

/-- Last scalar wins, whenever `kvsToMap` returns: if the last chain with head key `k`
assigns the scalar `t` to `k`, the returned map holds `t` under `k`. -/
theorem kvsToMap_last_scalar {ν : Type} [DecidableEq ν] (fuel : Nat) (k t : Tok ν)
    (pre post : List (Tok ν × Path ν)) (hpost : ∀ s ∈ post, s.1 ≠ k)
    (r : List (Tok ν × Val ν))
    (h : kvsToMap fuel (pre ++ (k, .leaf t) :: post) = .ok r) :
    mapGet r k = some (.tok t) := by
  cases fuel with
  | zero => simp [kvsToMap] at h
  | succ n =>
    rw [kvsToMap] at h
    cases hg : group [] (pre ++ (k, .leaf t) :: post) with
    | ok m =>
      rw [hg] at h
      exact extract_scalar _ k t m r h (group_last_scalar k t post hpost pre [] m hg)
    | err e => rw [hg] at h; simp at h
    | panic => rw [hg] at h; simp at h
    | timeout => rw [hg] at h; simp at h

/-! ## A text without newline -/

theorem scanStrAux_rest : ∀ (n : Nat) (inp acc : List Char), inp.length ≤ n →
    ∀ c ∈ (scanStrAux acc inp).2, c ∈ inp := by
  intro n
  induction n with
  | zero =>
    intro inp acc h c hc
    have : inp = [] := List.length_eq_zero.mp (by omega)
    subst this
    simp [scanStrAux] at hc
  | succ n ih =>
    intro inp acc h c hc
    cases inp with
    | nil => simp [scanStrAux] at hc
    | cons a inp =>
      simp only [List.length_cons] at h
      rw [scanStrAux.eq_def] at hc
      simp only at hc
      split at hc
      · split at hc
        · cases inp with
          | nil => simp at hc
          | cons a2 inp2 =>
            simp only [List.length_cons] at h
            simp only at hc
            split at hc
            · have := ih inp2 _ (by omega) c hc
              exact List.mem_cons_of_mem _ (List.mem_cons_of_mem _ this)
            · have := ih inp2 _ (by omega) c hc
              exact List.mem_cons_of_mem _ (List.mem_cons_of_mem _ this)
        · exact List.mem_cons_of_mem _ (ih inp _ (by omega) c hc)
      · exact hc

theorem scanWhile_rest (p : Char → Bool) : ∀ (inp : List Char),
    ∀ c ∈ (scanWhile p inp).2, c ∈ inp := by
  intro inp
  induction inp with
  | nil => intro c hc; simp [scanWhile] at hc
  | cons a inp ih =>
    intro c hc
    rw [scanWhile] at hc
    split at hc
    · exact List.mem_cons_of_mem _ (ih c hc)
    · exact hc

theorem expectClose_rest {ν : Type} (t v : Tok ν) (inp rest : List Char)
    (h : expectClose t inp = .ok (v, rest)) : ∀ c ∈ rest, c ∈ inp := by
  unfold expectClose at h
  split at h
  · simp only [Res.ok.injEq, Prod.mk.injEq] at h
    intro c hc
    rw [← h.2] at hc
    exact List.mem_cons_of_mem _ hc
  · simp at h

/-- What the token switch leaves to read is part of its input. -/
theorem scanToken_rest {ν : Type} (L : NumLib ν) (inp rest : List Char) (v : Tok ν)
    (h : scanToken L inp = .ok (v, rest)) : ∀ c ∈ rest, c ∈ inp := by
  have hstr : ∀ i r (t : Tok ν), (Res.ok (Tok.str (scanStr i).1, (scanStr i).2)
      : Res (Tok ν × List Char)) = .ok (t, r) → ∀ c ∈ r, c ∈ i := by
    intro i r t h c hc
    simp only [Res.ok.injEq, Prod.mk.injEq] at h
    rw [← h.2] at hc
    exact scanStrAux_rest i.length i [] (le_refl _) c hc
  cases inp with
  | nil => exact hstr [] rest v h
  | cons a inp =>
    by_cases h1 : a = '<'
    · subst h1
      simp only [scanToken, scanBracket, List.tail_cons] at h
      cases hb : scanBracketBody L inp with
      | ok q =>
        obtain ⟨t, r⟩ := q
        rw [hb] at h
        simp only at h
        have h2 := expectClose_rest t v r rest h
        have h3 : ∀ c ∈ r, c ∈ inp := by
          cases inp with
          | nil => simp [scanBracketBody] at hb
          | cons b inp2 =>
            simp only [scanBracketBody] at hb
            split at hb
            · simp only [scanNum] at hb
              split at hb
              · simp only [Res.ok.injEq, Prod.mk.injEq] at hb
                intro c hc
                rw [← hb.2] at hc
                exact scanWhile_rest _ _ c hc
              · simp at hb
            · split at hb
              · simp only [scanKwd] at hb
                intro c hc
                have hr : r = (scanWhile isKwdChar (b :: inp2)).2 := by
                  split at hb
                  · simp only [Res.ok.injEq, Prod.mk.injEq] at hb; exact hb.2.symm
                  · split at hb
                    · simp only [Res.ok.injEq, Prod.mk.injEq] at hb; exact hb.2.symm
                    · split at hb
                      · simp only [Res.ok.injEq, Prod.mk.injEq] at hb; exact hb.2.symm
                      · simp at hb
                rw [hr] at hc
                exact scanWhile_rest _ _ c hc
              · split at hb
                · simp only [Res.ok.injEq, Prod.mk.injEq] at hb
                  intro c hc
                  rw [← hb.2] at hc
                  exact hc
                · simp at hb
        intro c hc
        exact List.mem_cons_of_mem _ (h3 c (h2 c hc))
      | err e => rw [hb] at h; simp at h
      | panic => rw [hb] at h; simp at h
      | timeout => rw [hb] at h; simp at h
    · by_cases h2 : a = '#'
      · subst h2
        simp only [scanToken, scanArrIndex, List.tail_cons, scanInt] at h
        split at h
        · simp only [Res.ok.injEq, Prod.mk.injEq] at h
          intro c hc
          rw [← h.2] at hc
          exact List.mem_cons_of_mem _ (scanWhile_rest _ _ c hc)
        · simp at h
      · have : scanToken L (a :: inp)
            = .ok (.str (scanStr (a :: inp)).1, (scanStr (a :: inp)).2) := by
          unfold scanToken
          split
          · rename_i heq; simp at heq; exact absurd heq.1 h1
          · rename_i heq; simp at heq; exact absurd heq.1 h2
          · rfl
        rw [this] at h
        exact hstr _ rest v h

theorem skipBrank_rest : ∀ (inp : List Char), ∀ c ∈ skipBrank inp, c ∈ inp := by
  intro inp
  induction inp with
  | nil => intro c hc; simp [skipBrank] at hc
  | cons a inp ih =>
    intro c hc
    rw [skipBrank] at hc
    split at hc
    · exact List.mem_cons_of_mem _ (ih c hc)
    · exact hc

/-- Without a newline ahead `decodeLine` never returns a path: the only return of a value
is behind the test for a newline. -/
theorem decodeLine_no_newline {ν : Type} (L : NumLib ν) : ∀ (fuel : Nat) (inp : List Char),
    '\n' ∉ inp → ∀ r, decodeLine L fuel inp ≠ .ok r := by
  intro fuel
  induction fuel with
  | zero => intro inp _ r h; simp [decodeLine] at h
  | succ n ih =>
    intro inp hn r h
    rw [decodeLine] at h
    cases hs : scanToken L inp with
    | ok q =>
      obtain ⟨v, rest⟩ := q
      rw [hs] at h
      simp only at h
      have hrest : '\n' ∉ skipBrank rest := by
        intro hc
        exact hn (scanToken_rest L inp rest v hs _ (skipBrank_rest rest _ hc))
      split at h
      · rename_i r2 heq
        rw [heq] at hrest
        exact hrest (List.mem_cons_self _ _)
      · cases hd : decodeLine L n (skipBrank rest) with
        | ok q2 => exact ih _ hrest q2 hd
        | err e => rw [hd] at h; simp at h
        | panic => rw [hd] at h; simp at h
        | timeout => rw [hd] at h; simp at h
    | err e => rw [hs] at h; simp at h
    | panic => rw [hs] at h; simp at h
    | timeout => rw [hs] at h; simp at h

/-- When the scanner has characters to deliver and no newline among them, `Decode` never
returns a value, whatever the fuel. -/
theorem Decode_no_newline {ν : Type} [DecidableEq ν] (L : NumLib ν) (fuel : Nat)
    (inp : List Char) (hne : inp ≠ []) (hn : '\n' ∉ inp) (v : Val ν) :
    Decode L fuel inp ≠ .ok v := by
  intro h
  unfold Decode decodeToMapOrV at h
  cases fuel with
  | zero => simp [decodeLines] at h
  | succ n =>
    cases inp with
    | nil => exact hne rfl
    | cons a inp =>
      rw [decodeLines] at h
      have hsk : '\n' ∉ skipBrank (a :: inp) := fun hc => hn (skipBrank_rest _ _ hc)
      cases hd : decodeLine L (n + 1) (skipBrank (a :: inp)) with
      | ok q => exact decodeLine_no_newline L _ _ hsk q hd
      | err e => rw [hd] at h; simp at h
      | panic => rw [hd] at h; simp at h
      | timeout => rw [hd] at h; simp at h

/-! ## Key-kind rejection -/

theorem mapSet_keys {κ α : Type} [DecidableEq κ] : ∀ (m : List (κ × α)) (k : κ) (v : α),
    (∀ x, x ∈ (mapSet m k v).map Prod.fst ↔ x = k ∨ x ∈ m.map Prod.fst)
    ∧ ((m.map Prod.fst).Nodup → ((mapSet m k v).map Prod.fst).Nodup) := by
  intro m
  induction m with
  | nil => intro k v; simp [mapSet]
  | cons a m ih =>
    intro k v
    obtain ⟨k2, v2⟩ := a
    obtain ⟨ih1, ih2⟩ := ih k v
    rw [mapSet]
    by_cases h : k = k2
    · rw [if_pos h]
      subst h
      refine ⟨fun x => ?_, fun hn => ?_⟩
      · simp only [List.map_cons, List.mem_cons]
        constructor
        · intro hx; right; exact hx
        · rintro (hx | hx)
          · left; exact hx
          · exact hx
      · simpa using hn
    · rw [if_neg h]
      refine ⟨fun x => ?_, fun hn => ?_⟩
      · simp only [List.map_cons, List.mem_cons, ih1 x]
        constructor
        · rintro (hx | hx | hx)
          · right; left; exact hx
          · left; exact hx
          · right; right; exact hx
        · rintro (hx | hx | hx)
          · right; left; exact hx
          · left; exact hx
          · right; right; exact hx
      · simp only [List.map_cons, List.nodup_cons] at hn ⊢
        refine ⟨?_, ih2 hn.2⟩
        rw [ih1]
        rintro (hx | hx)
        · exact h hx.symm
        · exact hn.1 hx

theorem groupStep_nodup {ν : Type} [DecidableEq ν] (m m2 : List (Tok ν × Slot ν))
    (s : Tok ν × Path ν) (hn : (m.map Prod.fst).Nodup) (h : groupStep m s = .ok m2) :
    (m2.map Prod.fst).Nodup := by
  obtain ⟨k1, p⟩ := s
  cases p with
  | leaf t =>
    simp only [groupStep, Res.ok.injEq] at h
    rw [← h]; exact (mapSet_keys m k1 _).2 hn
  | kv k2 v2 =>
    simp only [groupStep] at h
    cases hg : mapGet m k1 with
    | none =>
      rw [hg] at h
      simp only [Res.ok.injEq] at h
      rw [← h]; exact (mapSet_keys m k1 _).2 hn
    | some sl =>
      rw [hg] at h
      cases sl with
      | scalar t => simp at h
      | kvs l =>
        simp only [Res.ok.injEq] at h
        rw [← h]; exact (mapSet_keys m k1 _).2 hn

theorem group_nodup {ν : Type} [DecidableEq ν] : ∀ (kvs : List (Tok ν × Path ν))
    (m m2 : List (Tok ν × Slot ν)), (m.map Prod.fst).Nodup → group m kvs = .ok m2 →
    (m2.map Prod.fst).Nodup := by
  intro kvs
  induction kvs with
  | nil =>
    intro m m2 hn h
    simp only [group, Res.ok.injEq] at h
    rw [← h]; exact hn
  | cons s kvs ih =>
    intro m m2 hn h
    rw [group] at h
    cases hg : groupStep m s with
    | ok m1 => rw [hg] at h; exact ih m1 m2 (groupStep_nodup m m1 s hn hg) h
    | err e => rw [hg] at h; simp at h
    | panic => rw [hg] at h; simp at h
    | timeout => rw [hg] at h; simp at h

theorem depthI_le {ν : Type} (n : Nat) : ∀ (m : List (Tok ν × Val ν)),
    (∀ e ∈ m, e.2.depth ≤ n) → depthI m ≤ n := by
  intro m
  induction m with
  | nil => intro _; simp [depthI]
  | cons a m ih =>
    intro h
    obtain ⟨k, v⟩ := a
    rw [depthI]
    exact max_le (h (k, v) (List.mem_cons_self _ _))
      (ih (fun e he => h e (List.mem_cons_of_mem _ he)))

theorem wfI_of_mem {ν : Type} [DecidableEq ν] : ∀ (m : List (Tok ν × Val ν)),
    (∀ e ∈ m, e.2.wf = true) → wfI m = true := by
  intro m
  induction m with
  | nil => intro _; rfl
  | cons a m ih =>
    intro h
    obtain ⟨k, v⟩ := a
    rw [wfI, Bool.and_eq_true]
    exact ⟨h (k, v) (List.mem_cons_self _ _),
      ih (fun e he => h e (List.mem_cons_of_mem _ he))⟩

theorem extract_spec {ν : Type} [DecidableEq ν]
    (f : List (Tok ν × Path ν) → Res (List (Tok ν × Val ν))) (n : Nat)
    (hf : ∀ l mm, f l = .ok mm → (Val.imap mm).wf = true ∧ (Val.imap mm).depth ≤ n) :
    ∀ (m : List (Tok ν × Slot ν)) (r : List (Tok ν × Val ν)), extract f m = .ok r →
    r.map Prod.fst = m.map Prod.fst ∧ ∀ e ∈ r, e.2.wf = true ∧ e.2.depth ≤ n := by
  intro m
  induction m with
  | nil =>
    intro r h
    simp only [extract, Res.ok.injEq] at h
    subst h
    exact ⟨rfl, fun e he => by simp at he⟩
  | cons a m ih =>
    intro r h
    obtain ⟨k, sl⟩ := a
    cases sl with
    | scalar t =>
      rw [extract] at h
      cases hx : extract f m with
      | ok r2 =>
        rw [hx] at h
        simp only [Res.ok.injEq] at h
        subst h
        obtain ⟨i1, i2⟩ := ih r2 hx
        refine ⟨by rw [List.map_cons, List.map_cons, i1], ?_⟩
        intro e he
        rcases List.mem_cons.mp he with he | he
        · subst he; exact ⟨rfl, by simp [Val.depth]⟩
        · exact i2 e he
      | err e => rw [hx] at h; simp at h
      | panic => rw [hx] at h; simp at h
      | timeout => rw [hx] at h; simp at h
    | kvs l =>
      rw [extract] at h
      cases hfl : f l with
      | ok mm =>
        rw [hfl] at h
        simp only at h
        cases hx : extract f m with
        | ok r2 =>
          rw [hx] at h
          simp only [Res.ok.injEq] at h
          subst h
          obtain ⟨i1, i2⟩ := ih r2 hx
          refine ⟨by rw [List.map_cons, List.map_cons, i1], ?_⟩
          intro e he
          rcases List.mem_cons.mp he with he | he
          · subst he; exact hf l mm hfl
          · exact i2 e he
        | err e => rw [hx] at h; simp at h
        | panic => rw [hx] at h; simp at h
        | timeout => rw [hx] at h; simp at h
      | err e => rw [hfl] at h; simp at h
      | panic => rw [hfl] at h; simp at h
      | timeout => rw [hfl] at h; simp at h

/-- The raw node that `kvsToMap` returns is a tree of maps (no key twice in a node), of
depth at most the fuel. -/
theorem kvsToMap_wf {ν : Type} [DecidableEq ν] : ∀ (n : Nat) (kvs : List (Tok ν × Path ν))
    (m : List (Tok ν × Val ν)), kvsToMap n kvs = .ok m →
    (Val.imap m).wf = true ∧ (Val.imap m).depth ≤ n := by
  intro n
  induction n with
  | zero => intro kvs m h; simp [kvsToMap] at h
  | succ n ih =>
    intro kvs m h
    rw [kvsToMap] at h
    cases hg : group [] kvs with
    | ok sl =>
      rw [hg] at h
      simp only at h
      obtain ⟨h1, h2⟩ := extract_spec (kvsToMap n) n (ih) sl m h
      have hn := group_nodup kvs [] sl (by simp) hg
      refine ⟨?_, ?_⟩
      · rw [Val.wf, Bool.and_eq_true, decide_eq_true_eq, h1]
        exact ⟨hn, wfI_of_mem m (fun e he => (h2 e he).1)⟩
      · rw [Val.depth]
        have := depthI_le n m (fun e he => (h2 e he).2)
        omega
    | err e => rw [hg] at h; simp at h
    | panic => rw [hg] at h; simp at h
    | timeout => rw [hg] at h; simp at h

/-- What `decodeToMapOrV` returns is a scalar or a tree of maps of depth at most the
fuel. -/
theorem decodeToMapOrV_wf {ν : Type} [DecidableEq ν] (L : NumLib ν) (n : Nat)
    (inp : List Char) (raw : Val ν) (h : decodeToMapOrV L n inp = .ok raw) :
    raw.wf = true ∧ raw.depth ≤ n := by
  unfold decodeToMapOrV at h
  cases hl : decodeLines L n inp with
  | ok paths =>
    rw [hl] at h
    simp only at h
    cases hc : collectKvs paths with
    | inl t =>
      rw [hc] at h
      simp only [Res.ok.injEq] at h
      subst h
      exact ⟨rfl, by simp [Val.depth]⟩
    | inr kvs =>
      rw [hc] at h
      simp only at h
      cases hk : kvsToMap n kvs with
      | ok m =>
        rw [hk] at h
        simp only [Res.ok.injEq] at h
        subst h
        exact kvsToMap_wf n kvs m hk
      | err e => rw [hk] at h; simp at h
      | panic => rw [hk] at h; simp at h
      | timeout => rw [hk] at h; simp at h
  | err e => rw [hl] at h; simp at h
  | panic => rw [hl] at h; simp at h
  | timeout => rw [hl] at h; simp at h

/-- When the lines are read and merged into the raw tree `raw`, `Decode` returns an error
exactly when some node of `raw` has mixed keys, and a value otherwise. -/
theorem Decode_error_iff {ν : Type} [DecidableEq ν] (L : NumLib ν) (n : Nat)
    (inp : List Char) (raw : Val ν) (h : decodeToMapOrV L n inp = .ok raw) :
    ((∃ e, Decode L n inp = .err e) ↔ raw.hasBadNode = true)
    ∧ (raw.hasBadNode = false → ∃ c, Decode L n inp = .ok c) := by
  obtain ⟨hw, hd⟩ := decodeToMapOrV_wf L n inp raw h
  obtain ⟨h1, h2⟩ := makeKeyStringOrCvtSlice_spec n raw hw hd
  have hD : Decode L n inp = makeKeyStringOrCvtSlice n raw := by
    unfold Decode; rw [h]
  rw [hD]
  refine ⟨⟨?_, fun hb => ⟨_, h1 hb⟩⟩, h2⟩
  rintro ⟨e, he⟩
  cases hb : raw.hasBadNode with
  | true => rfl
  | false =>
    obtain ⟨c, hc⟩ := h2 hb
    rw [hc] at he; simp at he

/-- C3: on a tree whose nodes are maps (no repeated key), with fuel for its depth,
`makeKeyStringOrCvtSlice` returns an error exactly when some node has a key set that is
neither all string keys nor all index keys, and a value otherwise; hence `Decode`, once the
lines are read and merged into a raw tree, returns an error exactly when that tree has such
a node; the document with the lines `a x` and `#0 y` fails with `invalid map`. -/
theorem C3_key_kind_rejection {ν : Type} [DecidableEq ν] (L : NumLib ν) (v : Val ν)
    (fuel : Nat) (hwf : v.wf = true) (hf : v.depth ≤ fuel) :
    ((∃ e, makeKeyStringOrCvtSlice fuel v = .err e) ↔ v.hasBadNode = true)
    ∧ (v.hasBadNode = false → ∃ c, makeKeyStringOrCvtSlice fuel v = .ok c)
    ∧ (∀ n inp raw, decodeToMapOrV L n inp = .ok raw →
        ((∃ e, Decode L n inp = .err e) ↔ raw.hasBadNode = true))
    ∧ ∀ n, Decode L (3 + n) ['a', ' ', 'x', '\n', '#', '0', ' ', 'y', '\n']
        = .err .invalidMap := by
  obtain ⟨h1, h2⟩ := makeKeyStringOrCvtSlice_spec fuel v hwf hf
  refine ⟨⟨?_, fun hb => ⟨_, h1 hb⟩⟩, h2,
    fun n inp raw h => (Decode_error_iff L n inp raw h).1,
    fun n => Decode_mono L 3 n _ _ rfl (by simp)⟩
  rintro ⟨e, he⟩
  cases hb : v.hasBadNode with
  | true => rfl
  | false =>
    obtain ⟨c, hc⟩ := h2 hb
    rw [hc] at he; simp at he

/-- C3 at the raw node of the lines `a x`, `#0 y`. -/
theorem C3_key_kind_rejection_witness :
    (Val.imap mixedNode).wf = true
    ∧ (Val.imap mixedNode).depth ≤ 1
    ∧ ((∃ e, makeKeyStringOrCvtSlice 1 (Val.imap mixedNode) = .err e)
        ↔ (Val.imap mixedNode).hasBadNode = true) :=
  ⟨by decide, by decide, (C3_key_kind_rejection intLib _ 1 (by decide) (by decide)).1⟩

/-! ## Empty document, idempotence, index tokens, single-token lines -/
/-- C11: on the empty text `Decode` returns the empty Object, the string-keyed map without
entries, which is neither the empty Array nor Null. -/
theorem C11_empty_document {ν : Type} [DecidableEq ν] (L : NumLib ν) (fuel : Nat) :
    Decode L (1 + fuel) [] = .ok (.smap [])
    ∧ (Val.smap [] : Val ν) ≠ .slice []
    ∧ (Val.smap [] : Val ν) ≠ .tok .null := by
  refine ⟨Decode_mono L 1 fuel _ _ rfl (by simp), ?_, ?_⟩
  · intro h; cases h
  · intro h; cases h

/-- A value that is not a `map[interface{}]interface{}` is returned unchanged, whatever
the fuel. -/
theorem makeKeyStringOrCvtSlice_canonical {ν : Type} [DecidableEq ν] (fuel : Nat)
    (c : Val ν) (hc : ∀ m, c ≠ .imap m) : makeKeyStringOrCvtSlice fuel c = .ok c := by
  cases c with
  | tok t => rw [makeKeyStringOrCvtSlice]
  | smap m => rw [makeKeyStringOrCvtSlice]
  | slice xs => rw [makeKeyStringOrCvtSlice]
  | imap m => exact absurd rfl (hc m)

/-- What the canonicalizer returns is never a `map[interface{}]interface{}`. -/
theorem makeKeyStringOrCvtSlice_result {ν : Type} [DecidableEq ν] (fuel : Nat)
    (r c : Val ν) (h : makeKeyStringOrCvtSlice fuel r = .ok c) : ∀ m, c ≠ .imap m := by
  intro m hcm
  subst hcm
  cases r with
  | tok t => rw [makeKeyStringOrCvtSlice] at h; cases h
  | smap d => rw [makeKeyStringOrCvtSlice] at h; cases h
  | slice xs => rw [makeKeyStringOrCvtSlice] at h; cases h
  | imap m2 =>
    cases fuel with
    | zero => rw [makeKeyStringOrCvtSlice] at h; cases h
    | succ n =>
      rw [makeKeyStringOrCvtSlice] at h
      cases hk : tryMakeKeyString m2 with
      | some sm =>
        rw [hk] at h
        simp only at h
        cases hm : mapValues (makeKeyStringOrCvtSlice n) sm with
        | ok q => rw [hm] at h; cases h
        | err e => rw [hm] at h; cases h
        | panic => rw [hm] at h; cases h
        | timeout => rw [hm] at h; cases h
      | none =>
        rw [hk] at h
        simp only at h
        cases hc : tryCvtSlice m2 with
        | none => rw [hc] at h; cases h
        | some sl =>
          rw [hc] at h
          simp only at h
          cases hm : mapSlice (makeKeyStringOrCvtSlice n) sl with
          | ok q => rw [hm] at h; cases h
          | err e => rw [hm] at h; cases h
          | panic => rw [hm] at h; cases h
          | timeout => rw [hm] at h; cases h

/-- C13: a canonical value (a scalar, a string-keyed Object or an Array) is returned
unchanged by `makeKeyStringOrCvtSlice`, whatever the fuel; hence when the canonicalization
of a raw tree `r` succeeds with `c`, canonicalizing `c` again returns `c`. -/
theorem C13_idempotent_canonicalization {ν : Type} [DecidableEq ν] (fuel fuel2 : Nat)
    (r c : Val ν) (h : makeKeyStringOrCvtSlice fuel r = .ok c) :
    makeKeyStringOrCvtSlice fuel2 c = .ok c
    ∧ (∀ n (t : Tok ν), makeKeyStringOrCvtSlice n (.tok t) = .ok (.tok t))
    ∧ (∀ n (d : List (List Char × Val ν)),
        makeKeyStringOrCvtSlice n (.smap d) = .ok (.smap d))
    ∧ (∀ n (xs : List (Val ν)), makeKeyStringOrCvtSlice n (.slice xs) = .ok (.slice xs)) :=
  ⟨makeKeyStringOrCvtSlice_canonical fuel2 c (makeKeyStringOrCvtSlice_result fuel r c h),
    fun n t => makeKeyStringOrCvtSlice_canonical n _ (fun m hm => by cases hm),
    fun n d => makeKeyStringOrCvtSlice_canonical n _ (fun m hm => by cases hm),
    fun n xs => makeKeyStringOrCvtSlice_canonical n _ (fun m hm => by cases hm)⟩

/-- C13 at the raw node of the lines `#2 c`, `#0 a`, which is canonicalized to the Array
of `a` and `c`. -/
theorem C13_idempotent_canonicalization_witness :
    makeKeyStringOrCvtSlice 1 (.imap sparseNode)
      = .ok (.slice [.tok (.str ['a']), .tok (.str ['c'])])
    ∧ makeKeyStringOrCvtSlice 0 (.slice [.tok (.str ['a']), .tok (.str ['c'])])
      = .ok (.slice [Val.tok (Tok.str ['a'] : Tok Int), .tok (.str ['c'])]) :=
  ⟨rfl, (C13_idempotent_canonicalization 1 0 (.imap sparseNode) _ rfl).1⟩

/-- C14: after `#`, a non-empty maximal run `ds` of decimal digits of value at most
2^63-1 is scanned to the index key of that value, the cursor being left right after the
digits; a value above 2^63-1 and a `#` followed by no digit are errors; the digits that
`%d` prints for `n` have the value `n`. -/
theorem C14_array_index_token {ν : Type} (ds rest : List Char) (hne : ds ≠ [])
    (hd : ∀ c ∈ ds, isIntChar c = true) (hr : ∀ c ∈ rest.head?, isIntChar c = false) :
    (digitsVal ds ≤ 2 ^ 63 - 1 →
      (scanArrIndex ('#' :: (ds ++ rest)) : Res (Tok ν × List Char))
        = .ok (.int (digitsVal ds : Int), rest))
    ∧ (2 ^ 63 - 1 < digitsVal ds →
      (scanArrIndex ('#' :: (ds ++ rest)) : Res (Tok ν × List Char)) = .err .badInt)
    ∧ (scanArrIndex ('#' :: rest) : Res (Tok ν × List Char)) = .err .badInt
    ∧ (∀ n : Nat, digitsVal (natDigits n) = n) := by
  have hs := scanWhile_append isIntChar ds rest hd hr
  have hs0 := scanWhile_append isIntChar [] rest (by simp) hr
  simp only [List.nil_append] at hs0
  refine ⟨?_, ?_, ?_, fun n => (natDigits_spec n).2.2⟩
  · intro hv
    simp only [scanArrIndex, List.tail_cons, scanInt, hs, parseInt, if_neg hne, if_pos hv]
  · intro hv
    simp only [scanArrIndex, List.tail_cons, scanInt, hs, parseInt, if_neg hne,
      if_neg (not_le.mpr hv)]
  · simp only [scanArrIndex, List.tail_cons, scanInt, hs0, parseInt, if_true]

/-- C14 at the text `#12` followed by a blank. -/
theorem C14_array_index_token_witness :
    (['1', '2'] : List Char) ≠ []
    ∧ (∀ c ∈ (['1', '2'] : List Char), isIntChar c = true)
    ∧ (∀ c ∈ ([' ', 'x'] : List Char).head?, isIntChar c = false)
    ∧ (scanArrIndex ['#', '1', '2', ' ', 'x'] : Res (Tok Int × List Char))
        = .ok (.int 12, [' ', 'x']) :=
  ⟨by decide, by decide, by decide,
    (C14_array_index_token ['1', '2'] [' ', 'x'] (by decide) (by decide) (by decide)).1
      (by decide)⟩

theorem collectKvs_first_leaf {ν : Type} : ∀ (pre post : List (Path ν)) (t : Tok ν),
    (∀ p ∈ pre, ∃ k v, p = Path.kv k v) → collectKvs (pre ++ .leaf t :: post) = .inl t := by
  intro pre
  induction pre with
  | nil => intro post t _; rfl
  | cons p pre ih =>
    intro post t h
    obtain ⟨k, v, hp⟩ := h p (List.mem_cons_self _ _)
    subst hp
    rw [List.cons_append, collectKvs, ih post t (fun q hq => h q (List.mem_cons_of_mem _ hq))]

/-- C17: when every line of the document is decoded and some line is a single token,
`Decode` returns the token of the first such line, whatever the other lines hold; the lines
`a b`, an empty line, `c d` decode to the empty string. -/
theorem C17_single_token_line {ν : Type} [DecidableEq ν] (L : NumLib ν) (fuel : Nat)
    (inp : List Char) (pre post : List (Path ν)) (t : Tok ν)
    (hlines : decodeLines L fuel inp = .ok (pre ++ .leaf t :: post))
    (hpre : ∀ p ∈ pre, ∃ k v, p = Path.kv k v) :
    Decode L fuel inp = .ok (.tok t)
    ∧ ∀ n, Decode L (4 + n) ['a', ' ', 'b', '\n', '\n', 'c', ' ', 'd', '\n']
        = .ok (.tok (.str [])) := by
  refine ⟨?_, fun n => Decode_mono L 4 n _ _ rfl (by simp)⟩
  unfold Decode decodeToMapOrV
  rw [hlines]
  simp only
  rw [collectKvs_first_leaf pre post t hpre]
  simp only
  rw [makeKeyStringOrCvtSlice]

/-- C17 at the lines `a b`, `x`, `c d`, `y`. -/
theorem C17_single_token_line_witness :
    decodeLines intLib 5
        ['a', ' ', 'b', '\n', 'x', '\n', 'c', ' ', 'd', '\n', 'y', '\n']
      = .ok ([.kv (.str ['a']) (.leaf (.str ['b']))] ++ .leaf (.str ['x'])
          :: [.kv (.str ['c']) (.leaf (.str ['d'])), .leaf (.str ['y'])])
    ∧ Decode intLib 5 ['a', ' ', 'b', '\n', 'x', '\n', 'c', ' ', 'd', '\n', 'y', '\n']
      = .ok (.tok (.str ['x'])) :=
  ⟨rfl, (C17_single_token_line intLib 5
    ['a', ' ', 'b', '\n', 'x', '\n', 'c', ' ', 'd', '\n', 'y', '\n']
    [.kv (.str ['a']) (.leaf (.str ['b']))]
    [.kv (.str ['c']) (.leaf (.str ['d'])), .leaf (.str ['y'])] (.str ['x']) rfl
    (by intro p hp; rw [List.mem_singleton] at hp; exact ⟨_, _, hp⟩)).1⟩

/-! ## One line per leaf -/
theorem prefixSl_cells {ν : Type} (L : NumLib ν) (k : Tok ν) (ps : List (Path ν)) :
    prefixSl (renderTok L k) (ps.map (Path.cells L)) = (ps.map (Path.kv k)).map (Path.cells L) := by
  induction ps with
  | nil => rfl
  | cons p ps ih =>
    simp only [prefixSl, List.map_cons, List.map_map] at ih ⊢
    rw [ih]
    rfl

theorem cells_entries {ν : Type} (L : NumLib ν) : ∀ (d : List (List Char × Val ν)),
    (∀ e ∈ d, toRows L e.2 = (pathsOf e.2).map (Path.cells L)
      ∧ (pathsOf e.2).length = e.2.leaves) →
    d.flatMap (fun e => prefixSl (escape e.1) (toRows L e.2)) = (pathsS d).map (Path.cells L)
    ∧ (pathsS d).length = leavesS d := by
  intro d
  induction d with
  | nil => intro _; exact ⟨rfl, rfl⟩
  | cons a d ih =>
    intro h
    obtain ⟨k, v⟩ := a
    obtain ⟨h1, h2⟩ := h (k, v) (List.mem_cons_self _ _)
    obtain ⟨i1, i2⟩ := ih (fun e he => h e (List.mem_cons_of_mem _ he))
    simp only at h1 h2
    refine ⟨?_, ?_⟩
    · rw [List.flatMap_cons, pathsS, List.map_append, i1, h1]
      have := prefixSl_cells L (Tok.str k) (pathsOf v)
      rw [renderTok] at this
      rw [this]
    · rw [pathsS, leavesS, List.length_append, List.length_map, i2, h2]

theorem cells_items {ν : Type} (L : NumLib ν) : ∀ (xs : List (Val ν)) (i : Nat),
    (∀ x ∈ xs, toRows L x = (pathsOf x).map (Path.cells L)
      ∧ (pathsOf x).length = x.leaves) →
    toRowsSlice L i xs = (pathsL i xs).map (Path.cells L)
    ∧ (pathsL i xs).length = leavesL xs := by
  intro xs
  induction xs with
  | nil => intro i _; exact ⟨rfl, rfl⟩
  | cons x xs ih =>
    intro i h
    obtain ⟨h1, h2⟩ := h x (List.mem_cons_self _ _)
    obtain ⟨i1, i2⟩ := ih (i + 1) (fun e he => h e (List.mem_cons_of_mem _ he))
    refine ⟨?_, ?_⟩
    · rw [toRowsSlice, pathsL, List.map_append, i1, h1]
      have := prefixSl_cells L (Tok.int (i : Int)) (pathsOf x)
      rw [renderTok, Int.toNat_ofNat] at this
      rw [this]
    · rw [pathsL, leavesL, List.length_append, List.length_map, i2, h2]

/-- The rows of a canonical value are the cells of the paths of its leaves. -/
theorem toRows_eq_cells {ν : Type} (L : NumLib ν) : ∀ (n : Nat) (v : Val ν),
    v.depth ≤ n → v.all isValueNode = true →
    toRows L v = (pathsOf v).map (Path.cells L) ∧ (pathsOf v).length = v.leaves := by
  intro n
  induction n with
  | zero =>
    intro v hd hv
    cases v with
    | tok t =>
      cases t with
      | null => exact ⟨rfl, rfl⟩
      | bool b => cases b <;> exact ⟨rfl, rfl⟩
      | num x => exact ⟨rfl, rfl⟩
      | str s => exact ⟨rfl, rfl⟩
      | int i => simp [Val.all, isValueNode] at hv
    | imap m => rw [Val.depth] at hd; omega
    | smap d => rw [Val.depth] at hd; omega
    | slice xs => rw [Val.depth] at hd; omega
  | succ n ih =>
    intro v hd hv
    cases v with
    | tok t =>
      cases t with
      | null => exact ⟨rfl, rfl⟩
      | bool b => cases b <;> exact ⟨rfl, rfl⟩
      | num x => exact ⟨rfl, rfl⟩
      | str s => exact ⟨rfl, rfl⟩
      | int i => simp [Val.all, isValueNode] at hv
    | imap m => simp [Val.all, isValueNode] at hv
    | smap d =>
      rw [Val.depth] at hd
      rw [all_smap] at hv
      have hs : (d.map Prod.fst).Sorted (· < ·) := by
        simpa [isValueNode] using hv.1
      rw [toRows_smap_sorted L d hs, pathsOf, Val.leaves]
      apply cells_entries
      intro e he
      exact ih e.2 (by have := depthS_mem d e he; omega) (hv.2 e he)
    | slice xs =>
      rw [Val.depth] at hd
      rw [all_slice] at hv
      rw [toRows, pathsOf, Val.leaves]
      apply cells_items
      intro e he
      exact ih e (by have := depthL_mem xs e he; omega) (hv.2 e he)

theorem cells_length {ν : Type} (L : NumLib ν) (p : Path ν) :
    (p.cells L).length = p.depth + 1 := by
  induction p with
  | leaf t => rfl
  | kv k p ih => rw [Path.cells, Path.depth, List.length_cons, ih]

/-- C12: for every canonical value the number of rows of `toRows` is the number of its
scalar leaves, the rows are, leaf by leaf, the rendered segments of the path of the leaf
(escaped key, `#i`) followed by the rendered scalar, and the row of a leaf at depth `n` has
`n + 1` cells. -/
theorem C12_one_line_per_leaf {ν : Type} (L : NumLib ν) (v : Val ν)
    (hv : v.all isValueNode = true) :
    (toRows L v).length = v.leaves
    ∧ toRows L v = (pathsOf v).map (Path.cells L)
    ∧ (pathsOf v).length = v.leaves
    ∧ ∀ p : Path ν, (p.cells L).length = p.depth + 1 := by
  obtain ⟨h1, h2⟩ := toRows_eq_cells L v.depth v (le_refl _) hv
  refine ⟨?_, h1, h2, cells_length L⟩
  rw [h1, List.length_map, h2]

/-- C12 at an Object with an Array, a nested Object and three leaves. -/
theorem C12_one_line_per_leaf_witness :
    nestedValue.all isValueNode = true
    ∧ (toRows intLib nestedValue).length = 3
    ∧ toRows intLib nestedValue
        = [[['k'], ['#', '0'], ['<', '7', '>']], [['k'], ['#', '1'], ['\\', '<', 'x']],
            [['z'], ['<', '>'], ['<', 't', 'r', 'u', 'e', '>']]]
    ∧ (toRows intLib nestedValue).length = nestedValue.leaves :=
  ⟨by decide, by decide, by decide, (C12_one_line_per_leaf intLib nestedValue (by decide)).1⟩

/-! ## Round trip without empty containers -/
theorem allI_iff {ν : Type} (p : Val ν → Bool) : ∀ (d : List (Tok ν × Val ν)),
    allI p d = true ↔ ∀ e ∈ d, e.2.all p = true := by
  intro d
  induction d with
  | nil => simp [allI]
  | cons a d ih =>
    obtain ⟨k, v⟩ := a
    rw [allI, Bool.and_eq_true, ih, List.forall_mem_cons]

/-- A test that holds of every tree holds at every node of a tree. -/
theorem all_of_forall {ν : Type} (p : Val ν → Bool) (hp : ∀ u, p u = true) :
    ∀ (n : Nat) (v : Val ν), v.depth ≤ n → v.all p = true := by
  intro n
  induction n with
  | zero =>
    intro v hd
    cases v with
    | tok t => rw [Val.all]; exact hp _
    | imap m => rw [Val.depth] at hd; omega
    | smap d => rw [Val.depth] at hd; omega
    | slice xs => rw [Val.depth] at hd; omega
  | succ n ih =>
    intro v hd
    cases v with
    | tok t => rw [Val.all]; exact hp _
    | imap m =>
      rw [Val.depth] at hd
      rw [Val.all, Bool.and_eq_true, allI_iff]
      exact ⟨hp _, fun e he => ih e.2 (by have := depthI_mem m e he; omega)⟩
    | smap d =>
      rw [Val.depth] at hd
      rw [all_smap]
      exact ⟨hp _, fun e he => ih e.2 (by have := depthS_mem d e he; omega)⟩
    | slice xs =>
      rw [Val.depth] at hd
      rw [all_slice]
      exact ⟨hp _, fun e he => ih e (by have := depthL_mem xs e he; omega)⟩

/-- C15, as stated, fails: the Object with the key made of U+FEFF and `a`, mapped to the
String `b`, has no empty container and no Number, its text begins with U+FEFF, and a fresh
decoder over that text returns the Object with the key `a`. -/
theorem C15_counterexample :
    bomObject.all isValueNode = true
    ∧ bomObject.all nonEmptyNode = true
    ∧ bomObject.all (numReadsBack intLib) = true
    ∧ bomObject.all indexableNode = true
    ∧ render (toRows intLib bomObject) = [bom, 'a', ' ', 'b', '\n']
    ∧ (∀ fuel, Decode intLib (3 + fuel) (NewDecoder (render (toRows intLib bomObject)))
        = .ok (.smap [(['a'], .tok (.str ['b']))]))
    ∧ Val.smap [(['a'], .tok (.str ['b']))] ≠ bomObject := by
  refine ⟨by decide, by decide, by decide, by decide, by decide,
    fun fuel => Decode_mono intLib 3 fuel _ _ rfl (by simp), ?_⟩
  intro h
  have h2 : (['a'] : List Char) = [bom, 'a'] := by
    unfold bomObject at h
    injection h with h
    injection h with h
    injection h with h
  exact absurd h2 (by decide)

/-- C15, amended: for every canonical value in which every Array and every Object is
non-empty and every Number is read back from its `%v` text (as every integer-valued float64
is), whose Arrays have indices that fit an `int64`, and whose text does not begin with
U+FEFF, the text of the rows of `toRows` given to a fresh decoder decodes to the value. -/
theorem C15_round_trip_nonempty {ν : Type} [DecidableEq ν] (L : NumLib ν) (v : Val ν)
    (hv : v.all isValueNode = true) (hne : v.all nonEmptyNode = true)
    (hnum : v.all (numReadsBack L) = true) (hidx : v.all indexableNode = true)
    (hbom : (render (toRows L v)).head? ≠ some bom) :
    ∃ N, ∀ fuel, N ≤ fuel → Decode L fuel (NewDecoder (render (toRows L v))) = .ok v := by
  rw [NewDecoder_eq _ hbom]
  exact round_trip L v hv hne hnum hidx

/-- C15 at an Array that holds an Object with a negative Number and a String with a
backslash. -/
theorem C15_round_trip_nonempty_witness :
    arrayValue.all isValueNode = true
    ∧ arrayValue.all nonEmptyNode = true
    ∧ arrayValue.all (numReadsBack intLib) = true
    ∧ arrayValue.all indexableNode = true
    ∧ (render (toRows intLib arrayValue)).head? ≠ some bom
    ∧ ∃ N, ∀ fuel, N ≤ fuel →
        Decode intLib fuel (NewDecoder (render (toRows intLib arrayValue))) = .ok arrayValue :=
  ⟨by decide, by decide, by decide, by decide, by decide,
    C15_round_trip_nonempty intLib arrayValue (by decide) (by decide) (by decide)
      (by decide) (by decide)⟩

/-! ## Table view -/
/-- C18: for the Object whose entry `r` is the Object with the key `a b` mapped to the
String `x`, the header row has the column `a\ b` and the data row of `r` holds the empty
string in it, not `x`: `tototot` stores the cell under the key itself and escapes the key
only for the column name, by which `toTableRows` looks the cell up. With the key `a`, which
escaping leaves unchanged, the cell is `x`. -/
theorem C18_table_cell_lost :
    toTableRows intLib tableWithBlankKey
      = .ok [[indexName, ['a', '\\', ' ', 'b']], [['r'], []]]
    ∧ escape ['a', ' ', 'b'] = ['a', '\\', ' ', 'b']
    ∧ escape ['x'] = ['x']
    ∧ toTableRows intLib tableWithPlainKey = .ok [[indexName, ['a']], [['r'], ['x']]] := by
  refine ⟨by decide, by decide, by decide, by decide⟩

/-! ## Line-order independence: the first loop of the tree builder -/
theorem groupStep_eq {ν : Type} [DecidableEq ν] (m : List (Tok ν × Slot ν))
    (s : Tok ν × Path ν) :
    groupStep m s =
      match stepSlot (mapGet m s.1) s.2 with
      | .ok sl => .ok (mapSet m s.1 sl)
      | .err e => .err e
      | .panic => .panic
      | .timeout => .timeout := by
  obtain ⟨k, p⟩ := s
  cases p with
  | leaf t => simp only [groupStep, stepSlot]
  | kv k2 v2 =>
    simp only [groupStep]
    cases hg : mapGet m k with
    | none => simp only [stepSlot]
    | some sl =>
      cases sl with
      | scalar t => simp only [stepSlot]
      | kvs l => simp only [stepSlot]

theorem pathsAt_cons_eq {ν : Type} [DecidableEq ν] (k : Tok ν) (p : Path ν)
    (l : List (Tok ν × Path ν)) : pathsAt k ((k, p) :: l) = p :: pathsAt k l := by
  simp [pathsAt]

theorem pathsAt_cons_ne {ν : Type} [DecidableEq ν] (k k0 : Tok ν) (p : Path ν)
    (l : List (Tok ν × Path ν)) (h : k0 ≠ k) : pathsAt k ((k0, p) :: l) = pathsAt k l := by
  simp [pathsAt, h]

/-- The first loop of `kvsToMap` seen key by key: when no key panics, the loop returns a
map that holds under every key what the chains with that head key leave there. -/
theorem group_fuse {ν : Type} [DecidableEq ν] : ∀ (l : List (Tok ν × Path ν))
    (m : List (Tok ν × Slot ν)),
    (∀ k, ∃ o, foldSlot (mapGet m k) (pathsAt k l) = .ok o) →
    ∃ m1, group m l = .ok m1 ∧ ∀ k, foldSlot (mapGet m k) (pathsAt k l) = .ok (mapGet m1 k) := by
  intro l
  induction l with
  | nil =>
    intro m _
    exact ⟨m, rfl, fun k => rfl⟩
  | cons s l ih =>
    intro m h
    obtain ⟨k0, p⟩ := s
    obtain ⟨o, ho⟩ := h k0
    rw [pathsAt_cons_eq, foldSlot] at ho
    cases hs : stepSlot (mapGet m k0) p with
    | ok sl =>
      rw [hs] at ho
      simp only at ho
      have hstep : groupStep m (k0, p) = .ok (mapSet m k0 sl) := by
        rw [groupStep_eq]; simp only; rw [hs]
      have hih : ∀ k, ∃ o, foldSlot (mapGet (mapSet m k0 sl) k) (pathsAt k l) = .ok o := by
        intro k
        by_cases hk : k = k0
        · subst hk
          rw [mapGet_mapSet_self]
          exact ⟨o, ho⟩
        · rw [mapGet_mapSet_other m k0 k sl hk]
          obtain ⟨o2, ho2⟩ := h k
          rw [pathsAt_cons_ne k k0 p l (fun hc => hk hc.symm)] at ho2
          exact ⟨o2, ho2⟩
      obtain ⟨m1, hm1, hm2⟩ := ih (mapSet m k0 sl) hih
      refine ⟨m1, ?_, ?_⟩
      · rw [group, hstep]
        exact hm1
      · intro k
        by_cases hk : k = k0
        · subst hk
          rw [pathsAt_cons_eq, foldSlot, hs]
          simp only
          have := hm2 k
          rw [mapGet_mapSet_self] at this
          exact this
        · rw [pathsAt_cons_ne k k0 p l (fun hc => hk hc.symm)]
          have := hm2 k
          rw [mapGet_mapSet_other m k0 k sl hk] at this
          exact this
    | err e => rw [hs] at ho; simp at ho
    | panic => rw [hs] at ho; simp at ho
    | timeout => rw [hs] at ho; simp at ho

theorem foldSlot_kvs {ν : Type} : ∀ (cs a : List (Tok ν × Path ν)),
    foldSlot (some (.kvs a)) (cs.map (fun c => Path.kv c.1 c.2))
      = .ok (some (.kvs (a ++ cs))) := by
  intro cs
  induction cs with
  | nil => intro a; simp [foldSlot]
  | cons c cs ih =>
    intro a
    rw [List.map_cons, foldSlot]
    simp only [stepSlot]
    rw [ih (a ++ [c])]
    simp

theorem foldSlot_none_kvs {ν : Type} (cs : List (Tok ν × Path ν)) (hcs : cs ≠ []) :
    foldSlot none (cs.map (fun c => Path.kv c.1 c.2)) = .ok (some (.kvs cs)) := by
  cases cs with
  | nil => exact absurd rfl hcs
  | cons c cs =>
    rw [List.map_cons, foldSlot]
    simp only [stepSlot]
    rw [foldSlot_kvs cs [c]]
    simp

theorem independent_perm {ν : Type} (a b : List (Tok ν × Path ν)) (h : a.Perm b)
    (ha : Independent a) : Independent b := by
  unfold Independent at ha ⊢
  exact (h.pairwise_iff (fun hxy => ⟨hxy.2, hxy.1⟩)).mp ha

theorem subChain_some {ν : Type} [DecidableEq ν] (k : Tok ν) (c x : Tok ν × Path ν) :
    subChain k c = some x ↔ c = (k, Path.kv x.1 x.2) := by
  obtain ⟨k0, p⟩ := c
  obtain ⟨x1, x2⟩ := x
  cases p with
  | leaf t => simp [subChain]
  | kv k2 p2 =>
    simp only [subChain]
    by_cases hk : k0 = k
    · simp [hk]
    · simp [hk]

/-- The chains that independent chains have under one head key: none, one scalar
assignment, or nested assignments whose remainders are independent. -/
theorem independent_key {ν : Type} [DecidableEq ν] (k : Tok ν) :
    ∀ (l : List (Tok ν × Path ν)), Independent l →
    (pathsAt k l = [])
    ∨ (∃ t, pathsAt k l = [Path.leaf t])
    ∨ (subChains k l ≠ []
        ∧ pathsAt k l = (subChains k l).map (fun c => Path.kv c.1 c.2)
        ∧ Independent (subChains k l)) := by
  intro l
  induction l with
  | nil => intro _; left; rfl
  | cons c l ih =>
    intro h
    unfold Independent at h
    rw [List.pairwise_cons] at h
    obtain ⟨hc, hl⟩ := h
    have ihl := ih hl
    obtain ⟨k0, p⟩ := c
    by_cases hk : k0 = k
    · subst hk
      rw [pathsAt_cons_eq]
      cases p with
      | leaf t =>
        right; left
        refine ⟨t, ?_⟩
        have hnone : ∀ b ∈ l, b.1 ≠ k0 := by
          intro b hb hbk
          have := (hc b hb).1
          apply this
          simp only [fullKeys, Path.keys, hbk]
          exact List.prefix_iff_eq_append.mpr (by simp)
        have : pathsAt k0 l = [] := by
          unfold pathsAt
          rw [List.map_eq_nil_iff, List.filter_eq_nil_iff]
          intro b hb
          simpa using hnone b hb
        rw [this]
      | kv k2 p2 =>
        right; right
        have hsub : subChains k0 ((k0, Path.kv k2 p2) :: l) = (k2, p2) :: subChains k0 l := by
          simp [subChains, subChain, List.filterMap_cons]
        rw [hsub]
        have hrel : ∀ x ∈ subChains k0 l,
            ¬ fullKeys (k2, p2) <+: fullKeys x ∧ ¬ fullKeys x <+: fullKeys (k2, p2) := by
          intro x hx
          unfold subChains at hx
          obtain ⟨b, hb, hbx⟩ := List.mem_filterMap.mp hx
          rw [subChain_some] at hbx
          have := hc b hb
          rw [hbx] at this
          simp only [fullKeys, Path.keys] at this ⊢
          rw [List.prefix_cons_inj, List.prefix_cons_inj] at this
          exact this
        rcases ihl with h1 | ⟨t, h2⟩ | ⟨h3, h4, h5⟩
        · have hs0 : subChains k0 l = [] := by
            unfold subChains
            rw [List.filterMap_eq_nil_iff]
            intro b hb
            have hbn : b.1 ≠ k0 := by
              intro hbk
              have : b.2 ∈ pathsAt k0 l := by
                unfold pathsAt
                exact List.mem_map.mpr ⟨b, List.mem_filter.mpr ⟨hb, by simpa using hbk⟩, rfl⟩
              rw [h1] at this
              simp at this
            obtain ⟨b1, b2⟩ := b
            cases b2 with
            | leaf t => rfl
            | kv k3 p3 => simp only [subChain]; rw [if_neg hbn]
          rw [hs0, h1]
          refine ⟨by simp, rfl, ?_⟩
          unfold Independent
          simp
        · exfalso
          have : Path.leaf t ∈ pathsAt k0 l := by rw [h2]; simp
          unfold pathsAt at this
          obtain ⟨b, hb, hbt⟩ := List.mem_map.mp this
          obtain ⟨hb1, hb2⟩ := List.mem_filter.mp hb
          have hbk : b.1 = k0 := by simpa using hb2
          have := (hc b hb1).2
          apply this
          simp only [fullKeys, Path.keys, hbk, hbt]
          exact List.prefix_iff_eq_append.mpr (by simp)
        · refine ⟨by simp, ?_, ?_⟩
          · rw [h4]; rfl
          · unfold Independent at h5 ⊢
            rw [List.pairwise_cons]
            exact ⟨hrel, h5⟩
    · rw [pathsAt_cons_ne k k0 p l hk]
      have hsub : subChains k ((k0, p) :: l) = subChains k l := by
        unfold subChains
        rw [List.filterMap_cons]
        have : subChain k (k0, p) = none := by
          cases p with
          | leaf t => rfl
          | kv k3 p3 => simp only [subChain]; rw [if_neg hk]
        rw [this]
      rw [hsub]
      exact ihl

/-- On independent chains the first loop of `kvsToMap` does not panic, and the map it
returns holds under every key what the chains with that head key leave there. -/
theorem group_independent {ν : Type} [DecidableEq ν] (l : List (Tok ν × Path ν))
    (h : Independent l) :
    ∃ m, group [] l = .ok m ∧ (m.map Prod.fst).Nodup
      ∧ ∀ k, foldSlot none (pathsAt k l) = .ok (mapGet m k) := by
  have hk : ∀ k, ∃ o, foldSlot (mapGet ([] : List (Tok ν × Slot ν)) k) (pathsAt k l)
      = .ok o := by
    intro k
    rw [mapGet]
    rcases independent_key k l h with h1 | ⟨t, h2⟩ | ⟨h3, h4, _⟩
    · rw [h1]; exact ⟨_, rfl⟩
    · rw [h2]; exact ⟨_, rfl⟩
    · rw [h4, foldSlot_none_kvs _ h3]; exact ⟨_, rfl⟩
  obtain ⟨m, hm1, hm2⟩ := group_fuse l [] hk
  exact ⟨m, hm1, group_nodup l [] m (by simp) hm1, fun k => by
    have := hm2 k
    rw [mapGet] at this
    exact this⟩

/-- On a permutation of independent chains the first loop of `kvsToMap` returns a map with
the same scalars and, under the other keys, permuted independent chains. -/
theorem group_perm {ν : Type} [DecidableEq ν] (l l2 : List (Tok ν × Path ν))
    (h : Independent l) (hp : l.Perm l2) :
    ∃ m m2, group [] l = .ok m ∧ group [] l2 = .ok m2
      ∧ (m.map Prod.fst).Nodup ∧ (m2.map Prod.fst).Nodup
      ∧ ∀ k, SlotRel (mapGet m k) (mapGet m2 k) := by
  have h2 := independent_perm l l2 hp h
  obtain ⟨m, hm1, hm2, hm3⟩ := group_independent l h
  obtain ⟨m2, hn1, hn2, hn3⟩ := group_independent l2 h2
  refine ⟨m, m2, hm1, hn1, hm2, hn2, ?_⟩
  intro k
  have hAB : (pathsAt k l).Perm (pathsAt k l2) := by
    unfold pathsAt
    exact (hp.filter _).map _
  have hsub : (subChains k l).Perm (subChains k l2) := by
    unfold subChains
    exact hp.filterMap _
  have e1 := hm3 k
  have e2 := hn3 k
  rcases independent_key k l h with a1 | ⟨t, a2⟩ | ⟨a3, a4, a5⟩
  · have b1 : pathsAt k l2 = [] := by
      rw [a1] at hAB
      exact hAB.symm.eq_nil
    rw [a1, foldSlot] at e1
    rw [b1, foldSlot] at e2
    simp only [Res.ok.injEq] at e1 e2
    rw [← e1, ← e2]
    exact trivial
  · have b2 : pathsAt k l2 = [Path.leaf t] := by
      rw [a2] at hAB
      exact List.perm_singleton.mp hAB.symm
    rw [a2, foldSlot] at e1
    rw [b2, foldSlot] at e2
    simp only [stepSlot, foldSlot, Res.ok.injEq] at e1 e2
    rw [← e1, ← e2]
    exact rfl
  · rcases independent_key k l2 h2 with b1 | ⟨t, b2⟩ | ⟨b3, b4, _⟩
    · exfalso
      rw [b1] at hAB
      have := hAB.eq_nil
      rw [a4, List.map_eq_nil_iff] at this
      exact a3 this
    · exfalso
      rw [b2] at hAB
      have := List.perm_singleton.mp hAB
      rw [a4] at this
      cases hc : subChains k l with
      | nil => exact a3 hc
      | cons c cs =>
        rw [hc] at this
        simp at this
    · rw [a4, foldSlot_none_kvs _ a3] at e1
      rw [b4, foldSlot_none_kvs _ b3] at e2
      simp only [Res.ok.injEq] at e1 e2
      rw [← e1, ← e2]
      exact ⟨hsub, a5⟩

/-- What `extract` returns holds, under every key, the value of the slot of that key. -/
theorem extract_get {ν : Type} [DecidableEq ν]
    (f : List (Tok ν × Path ν) → Res (List (Tok ν × Val ν))) :
    ∀ (m : List (Tok ν × Slot ν)) (r : List (Tok ν × Val ν)), extract f m = .ok r →
    r.map Prod.fst = m.map Prod.fst ∧ ∀ k, mapGet r k = (mapGet m k).bind (slotVal f) := by
  intro m
  induction m with
  | nil =>
    intro r h
    simp only [extract, Res.ok.injEq] at h
    subst h
    exact ⟨rfl, fun k => rfl⟩
  | cons a m ih =>
    intro r h
    obtain ⟨k0, sl⟩ := a
    cases sl with
    | scalar t =>
      rw [extract] at h
      cases hx : extract f m with
      | ok r2 =>
        rw [hx] at h
        simp only [Res.ok.injEq] at h
        subst h
        obtain ⟨i1, i2⟩ := ih r2 hx
        refine ⟨by rw [List.map_cons, List.map_cons, i1], ?_⟩
        intro k
        rw [mapGet, mapGet]
        by_cases hk : k = k0
        · rw [if_pos hk, if_pos hk]; rfl
        · rw [if_neg hk, if_neg hk, i2 k]
      | err e => rw [hx] at h; simp at h
      | panic => rw [hx] at h; simp at h
      | timeout => rw [hx] at h; simp at h
    | kvs sub =>
      rw [extract] at h
      cases hf : f sub with
      | ok mm =>
        rw [hf] at h
        simp only at h
        cases hx : extract f m with
        | ok r2 =>
          rw [hx] at h
          simp only [Res.ok.injEq] at h
          subst h
          obtain ⟨i1, i2⟩ := ih r2 hx
          refine ⟨by rw [List.map_cons, List.map_cons, i1], ?_⟩
          intro k
          rw [mapGet, mapGet]
          by_cases hk : k = k0
          · rw [if_pos hk, if_pos hk]
            simp only [Option.bind, slotVal, hf]
          · rw [if_neg hk, if_neg hk, i2 k]
        | err e => rw [hx] at h; simp at h
        | panic => rw [hx] at h; simp at h
        | timeout => rw [hx] at h; simp at h
      | err e => rw [hf] at h; simp at h
      | panic => rw [hf] at h; simp at h
      | timeout => rw [hf] at h; simp at h

/-- When the recursive call returns or runs out of fuel on every `[]kv` of the map,
`extract` runs out of fuel if the call does on one of them, and returns otherwise. -/
theorem extract_dich {ν : Type}
    (f : List (Tok ν × Path ν) → Res (List (Tok ν × Val ν))) :
    ∀ (m : List (Tok ν × Slot ν)),
    (∀ e ∈ m, ∀ sub, e.2 = .kvs sub → f sub = .timeout ∨ ∃ r, f sub = .ok r) →
    ((∃ e ∈ m, ∃ sub, e.2 = .kvs sub ∧ f sub = .timeout) → extract f m = .timeout)
    ∧ ((∀ e ∈ m, ∀ sub, e.2 = .kvs sub → ∃ r, f sub = .ok r) → ∃ r, extract f m = .ok r) := by
  intro m
  induction m with
  | nil =>
    intro _
    exact ⟨fun ⟨e, he, _⟩ => by simp at he, fun _ => ⟨[], rfl⟩⟩
  | cons a m ih =>
    intro h
    obtain ⟨k0, sl⟩ := a
    obtain ⟨i1, i2⟩ := ih (fun e he => h e (List.mem_cons_of_mem _ he))
    cases sl with
    | scalar t =>
      refine ⟨?_, ?_⟩
      · rintro ⟨e, he, sub, hs, hf⟩
        rcases List.mem_cons.mp he with he | he
        · subst he; simp at hs
        · rw [extract, i1 ⟨e, he, sub, hs, hf⟩]
      · intro hall
        obtain ⟨r, hr⟩ := i2 (fun e he => hall e (List.mem_cons_of_mem _ he))
        exact ⟨_, by rw [extract, hr]⟩
    | kvs sub0 =>
      rcases h (k0, .kvs sub0) (List.mem_cons_self _ _) sub0 rfl with h0 | ⟨r0, h0⟩
      · refine ⟨fun _ => by rw [extract, h0], ?_⟩
        intro hall
        obtain ⟨r, hr⟩ := hall (k0, .kvs sub0) (List.mem_cons_self _ _) sub0 rfl
        rw [h0] at hr; simp at hr
      · refine ⟨?_, ?_⟩
        · rintro ⟨e, he, sub, hs, hf⟩
          rcases List.mem_cons.mp he with he | he
          · subst he
            simp only [Slot.kvs.injEq] at hs
            subst hs
            rw [h0] at hf; simp at hf
          · rw [extract, h0]
            simp only
            rw [i1 ⟨e, he, sub, hs, hf⟩]
        · intro hall
          obtain ⟨r, hr⟩ := i2 (fun e he => hall e (List.mem_cons_of_mem _ he))
          exact ⟨_, by rw [extract, h0]; simp only; rw [hr]⟩

theorem mapValues_congr {κ α : Type} (f : α → Res α) : ∀ (l l2 : List (κ × α)),
    l.map Prod.fst = l2.map Prod.fst →
    (∀ e ∈ l, ∀ e2 ∈ l2, e.1 = e2.1 → f e.2 = f e2.2) →
    mapValues f l = mapValues f l2 := by
  intro l
  induction l with
  | nil =>
    intro l2 h _
    cases l2 with
    | nil => rfl
    | cons b l2 => simp at h
  | cons a l ih =>
    intro l2 h hf
    cases l2 with
    | nil => simp at h
    | cons b l2 =>
      obtain ⟨k, v⟩ := a
      obtain ⟨k2, v2⟩ := b
      simp only [List.map_cons, List.cons.injEq] at h
      obtain ⟨hk, ht⟩ := h
      subst hk
      have h1 : f v = f v2 :=
        hf (k, v) (List.mem_cons_self _ _) (k, v2) (List.mem_cons_self _ _) rfl
      have h2 := ih l2 ht (fun e he e2 he2 =>
        hf e (List.mem_cons_of_mem _ he) e2 (List.mem_cons_of_mem _ he2))
      rw [mapValues, mapValues, h1, h2]

theorem mapSlice_congr {κ α : Type} (f : α → Res α) : ∀ (l l2 : List (κ × α)),
    l.map Prod.fst = l2.map Prod.fst →
    (∀ e ∈ l, ∀ e2 ∈ l2, e.1 = e2.1 → f e.2 = f e2.2) →
    mapSlice f (l.map Prod.snd) = mapSlice f (l2.map Prod.snd) := by
  intro l
  induction l with
  | nil =>
    intro l2 h _
    cases l2 with
    | nil => rfl
    | cons b l2 => simp at h
  | cons a l ih =>
    intro l2 h hf
    cases l2 with
    | nil => simp at h
    | cons b l2 =>
      obtain ⟨k, v⟩ := a
      obtain ⟨k2, v2⟩ := b
      simp only [List.map_cons, List.cons.injEq] at h
      obtain ⟨hk, ht⟩ := h
      subst hk
      have h1 : f v = f v2 :=
        hf (k, v) (List.mem_cons_self _ _) (k, v2) (List.mem_cons_self _ _) rfl
      have h2 := ih l2 ht (fun e he e2 he2 =>
        hf e (List.mem_cons_of_mem _ he) e2 (List.mem_cons_of_mem _ he2))
      rw [List.map_cons, List.map_cons, mapSlice, mapSlice, h1, h2]

/-- A key is in a map exactly when its lookup finds something. -/
theorem mem_keys_iff_mapGet {κ α : Type} [DecidableEq κ] (m : List (κ × α)) (k : κ)
    (hnd : (m.map Prod.fst).Nodup) : k ∈ m.map Prod.fst ↔ ∃ v, mapGet m k = some v := by
  constructor
  · intro h
    obtain ⟨e, he, hk⟩ := List.mem_map.mp h
    obtain ⟨k0, v⟩ := e
    simp only at hk
    subst hk
    exact ⟨v, (mapGet_eq_some m k0 v hnd).mpr he⟩
  · rintro ⟨v, hv⟩
    exact List.mem_map.mpr ⟨(k, v), (mapGet_eq_some m k v hnd).mp hv, rfl⟩

/-- Related nodes have the same keys. -/
theorem nodeRel_keys {ν : Type} [DecidableEq ν] (n : Nat) (r r2 : List (Tok ν × Val ν))
    (h : NodeRel n r r2) (k : Tok ν) : k ∈ r.map Prod.fst ↔ k ∈ r2.map Prod.fst := by
  obtain ⟨h1, h2, h3⟩ := h
  rw [mem_keys_iff_mapGet r k h1, mem_keys_iff_mapGet r2 k h2]
  have := h3 k
  cases ha : mapGet r k with
  | none =>
    cases hb : mapGet r2 k with
    | none => simp
    | some v2 => rw [ha, hb] at this; exact this.elim
  | some v =>
    cases hb : mapGet r2 k with
    | none => rw [ha, hb] at this; exact this.elim
    | some v2 => simp

/-- Related nodes have children canonicalized alike under the same key. -/
theorem nodeRel_mem {ν : Type} [DecidableEq ν] (n : Nat) (r r2 : List (Tok ν × Val ν))
    (h : NodeRel n r r2) (k : Tok ν) (v v2 : Val ν) (hv : (k, v) ∈ r) (hv2 : (k, v2) ∈ r2) :
    makeKeyStringOrCvtSlice n v = makeKeyStringOrCvtSlice n v2 := by
  obtain ⟨h1, h2, h3⟩ := h
  have := h3 k
  rw [(mapGet_eq_some r k v h1).mpr hv, (mapGet_eq_some r2 k v2 h2).mpr hv2] at this
  exact this

theorem all_keys_congr {κ α : Type} (p : κ → Bool) (r r2 : List (κ × α))
    (h : ∀ k, k ∈ r.map Prod.fst ↔ k ∈ r2.map Prod.fst) :
    r.all (fun e => p e.1) = r2.all (fun e => p e.1) := by
  have key : ∀ (a b : List (κ × α)), (∀ k, k ∈ a.map Prod.fst → k ∈ b.map Prod.fst) →
      b.all (fun e => p e.1) = true → a.all (fun e => p e.1) = true := by
    intro a b hab hb
    rw [List.all_eq_true] at hb ⊢
    intro e he
    obtain ⟨e2, he2, hk⟩ := List.mem_map.mp (hab e.1 (List.mem_map.mpr ⟨e, he, rfl⟩))
    have := hb e2 he2
    rw [hk] at this
    exact this
  cases h1 : r.all (fun e => p e.1) with
  | true => exact (key r2 r (fun k hk => (h k).mpr hk) h1).symm
  | false =>
    cases h2 : r2.all (fun e => p e.1) with
    | false => rfl
    | true => rw [key r r2 (fun k hk => (h k).mp hk) h2] at h1; cases h1

/-- Two lists of entries with strictly ascending keys and the same keys as sets have the
same list of keys. -/
theorem sorted_keys_eq {κ α β : Type} [LinearOrder κ] (l : List (κ × α)) (l2 : List (κ × β))
    (h1 : (l.map Prod.fst).Sorted (· < ·)) (h2 : (l2.map Prod.fst).Sorted (· < ·))
    (h : ∀ k, k ∈ l.map Prod.fst ↔ k ∈ l2.map Prod.fst) :
    l.map Prod.fst = l2.map Prod.fst :=
  List.eq_of_perm_of_sorted ((List.perm_ext_iff_of_nodup h1.nodup h2.nodup).mpr h) h1 h2

/-- Related nodes are canonicalized alike with one unit of fuel more. -/
theorem nodeRel_canon {ν : Type} [DecidableEq ν] (n : Nat) (r r2 : List (Tok ν × Val ν))
    (h : NodeRel n r r2) :
    makeKeyStringOrCvtSlice (n + 1) (.imap r) = makeKeyStringOrCvtSlice (n + 1) (.imap r2) := by
  have hkeys := nodeRel_keys n r r2 h
  have hmem := nodeRel_mem n r r2 h
  obtain ⟨hnd, hnd2, _⟩ := h
  have hstr := all_keys_congr (fun k : Tok ν => k.isStr) r r2 hkeys
  have hint := all_keys_congr (fun k : Tok ν => k.isInt) r r2 hkeys
  rw [makeKeyStringOrCvtSlice, makeKeyStringOrCvtSlice]
  cases hs : tryMakeKeyString r with
  | some sm =>
    have hall : r.all (fun e => e.1.isStr) = true := by
      cases hb : r.all (fun e => e.1.isStr) with
      | true => rfl
      | false =>
        have := (tryMakeKeyStringAux_none r []).mpr hb
        rw [tryMakeKeyString] at hs
        rw [hs] at this
        cases this
    cases hs2 : tryMakeKeyString r2 with
    | none =>
      have := (tryMakeKeyStringAux_none r2 []).mp hs2
      rw [← hstr, hall] at this
      cases this
    | some sm2 =>
      obtain ⟨a1, a2⟩ := tryMakeKeyStringAux_some r [] sm List.sorted_nil hnd
        (fun e he => by simp at he) hs
      obtain ⟨b1, b2⟩ := tryMakeKeyStringAux_some r2 [] sm2 List.sorted_nil hnd2
        (fun e he => by simp at he) hs2
      have hk : sm.map Prod.fst = sm2.map Prod.fst := by
        apply sorted_keys_eq sm sm2 a1 b1
        intro s
        constructor
        · intro hsm
          obtain ⟨e, he, hk⟩ := List.mem_map.mp hsm
          have h1 := (a2 e).mp he
          rcases h1 with h1 | h1
          · simp at h1
          · have h3 : Tok.str e.1 ∈ r2.map Prod.fst :=
              (hkeys _).mp (List.mem_map.mpr ⟨_, h1, rfl⟩)
            obtain ⟨e2, he2, hk2⟩ := List.mem_map.mp h3
            obtain ⟨k2, v2⟩ := e2
            simp only at hk2
            subst hk2
            rw [← hk]
            exact List.mem_map.mpr ⟨(e.1, v2), (b2 (e.1, v2)).mpr (Or.inr he2), rfl⟩
        · intro hsm
          obtain ⟨e, he, hk⟩ := List.mem_map.mp hsm
          have h1 := (b2 e).mp he
          rcases h1 with h1 | h1
          · simp at h1
          · have h3 : Tok.str e.1 ∈ r.map Prod.fst :=
              (hkeys _).mpr (List.mem_map.mpr ⟨_, h1, rfl⟩)
            obtain ⟨e2, he2, hk2⟩ := List.mem_map.mp h3
            obtain ⟨k2, v2⟩ := e2
            simp only at hk2
            subst hk2
            rw [← hk]
            exact List.mem_map.mpr ⟨(e.1, v2), (a2 (e.1, v2)).mpr (Or.inr he2), rfl⟩
      have hv : mapValues (makeKeyStringOrCvtSlice n) sm
          = mapValues (makeKeyStringOrCvtSlice n) sm2 := by
        apply mapValues_congr _ sm sm2 hk
        intro e he e2 he2 hee
        have h1 := (a2 e).mp he
        have h2 := (b2 e2).mp he2
        rcases h1 with h1 | h1
        · simp at h1
        rcases h2 with h2 | h2
        · simp at h2
        rw [← hee] at h2
        exact hmem _ _ _ h1 h2
      simp only
      rw [hv]
  | none =>
    have hall : r.all (fun e => e.1.isStr) = false :=
      (tryMakeKeyStringAux_none r []).mp hs
    have hs2 : tryMakeKeyString r2 = none :=
      (tryMakeKeyStringAux_none r2 []).mpr (by rw [← hstr]; exact hall)
    rw [hs2]
    simp only
    cases hi : r.all (fun e => e.1.isInt) with
    | false =>
      have c1 : tryCvtSlice r = none := by
        rw [tryCvtSlice, intKeys_none r hi]
      have c2 : tryCvtSlice r2 = none := by
        rw [tryCvtSlice, intKeys_none r2 (by rw [← hint]; exact hi)]
      rw [c1, c2]
    | true =>
      obtain ⟨ents, a1, a2, a3⟩ := tryCvtSlice_spec r hnd hi
      obtain ⟨ents2, b1, b2, b3⟩ := tryCvtSlice_spec r2 hnd2 (by rw [← hint]; exact hi)
      rw [a3, b3]
      simp only
      have hk : ents.map Prod.fst = ents2.map Prod.fst := by
        apply sorted_keys_eq ents ents2 a1 b1
        intro i
        constructor
        · intro hi1
          obtain ⟨e, he, hk⟩ := List.mem_map.mp hi1
          have h1 : (Tok.int e.1, e.2) ∈ r :=
            a2.subset (List.mem_map.mpr ⟨e, he, rfl⟩)
          have h3 : Tok.int e.1 ∈ r2.map Prod.fst :=
            (hkeys _).mp (List.mem_map.mpr ⟨_, h1, rfl⟩)
          obtain ⟨e2, he2, hk2⟩ := List.mem_map.mp h3
          obtain ⟨e3, he3, hk3⟩ := List.mem_map.mp (b2.symm.subset he2)
          rw [← hk3] at hk2
          simp only [Tok.int.injEq] at hk2
          rw [← hk, ← hk2]
          exact List.mem_map.mpr ⟨e3, he3, rfl⟩
        · intro hi1
          obtain ⟨e, he, hk⟩ := List.mem_map.mp hi1
          have h1 : (Tok.int e.1, e.2) ∈ r2 :=
            b2.subset (List.mem_map.mpr ⟨e, he, rfl⟩)
          have h3 : Tok.int e.1 ∈ r.map Prod.fst :=
            (hkeys _).mpr (List.mem_map.mpr ⟨_, h1, rfl⟩)
          obtain ⟨e2, he2, hk2⟩ := List.mem_map.mp h3
          obtain ⟨e3, he3, hk3⟩ := List.mem_map.mp (a2.symm.subset he2)
          rw [← hk3] at hk2
          simp only [Tok.int.injEq] at hk2
          rw [← hk, ← hk2]
          exact List.mem_map.mpr ⟨e3, he3, rfl⟩
      have hv := mapSlice_congr (makeKeyStringOrCvtSlice n) ents ents2 hk (by
        intro e he e2 he2 hee
        have h1 : (Tok.int e.1, e.2) ∈ r :=
          a2.subset (List.mem_map.mpr ⟨e, he, rfl⟩)
        have h2 : (Tok.int e2.1, e2.2) ∈ r2 :=
          b2.subset (List.mem_map.mpr ⟨e2, he2, rfl⟩)
        rw [← hee] at h2
        exact hmem _ _ _ h1 h2)
      rw [hv]

/-- On independent chains, a key that ends up holding a `[]kv` holds the remainders of the
chains with that head key, which are independent again. -/
theorem slot_shape {ν : Type} [DecidableEq ν] (k : Tok ν) (l sub : List (Tok ν × Path ν))
    (h : Independent l) (hf : foldSlot none (pathsAt k l) = .ok (some (.kvs sub))) :
    sub = subChains k l ∧ sub ≠ [] ∧ Independent sub := by
  rcases independent_key k l h with a1 | ⟨t, a2⟩ | ⟨a3, a4, a5⟩
  · rw [a1, foldSlot] at hf
    simp at hf
  · rw [a2, foldSlot] at hf
    simp [stepSlot, foldSlot] at hf
  · rw [a4, foldSlot_none_kvs _ a3] at hf
    simp only [Res.ok.injEq, Option.some.injEq, Slot.kvs.injEq] at hf
    subst hf
    exact ⟨rfl, a3, a5⟩

/-- The remainders of chains are shorter than the chains. -/
theorem subChains_depth {ν : Type} [DecidableEq ν] (k : Tok ν) (l : List (Tok ν × Path ν))
    (n : Nat) (h : ∀ c ∈ l, c.2.depth ≤ n) (c2 : Tok ν × Path ν) (hc : c2 ∈ subChains k l) :
    c2.2.depth + 1 ≤ n := by
  unfold subChains at hc
  obtain ⟨c, hc1, hc2⟩ := List.mem_filterMap.mp hc
  have := (subChain_some k c c2).mp hc2
  have hd := h c hc1
  rw [this] at hd
  exact hd

/-- On independent chains `kvsToMap` returns a raw node, given one unit of fuel more than
the longest chain has nested keys. -/
theorem kvsToMap_independent_ok {ν : Type} [DecidableEq ν] : ∀ (n : Nat)
    (l : List (Tok ν × Path ν)), Independent l → (∀ c ∈ l, c.2.depth ≤ n) →
    ∃ r, kvsToMap (n + 1) l = .ok r := by
  intro n
  induction n with
  | zero =>
    intro l h hd
    obtain ⟨m, hm1, hm2, hm3⟩ := group_independent l h
    have hall : ∀ e ∈ m, ∀ sub, e.2 = Slot.kvs sub → ∃ r, kvsToMap 0 sub = .ok r := by
      intro e he sub hs
      exfalso
      obtain ⟨k, sl⟩ := e
      simp only at hs
      subst hs
      have hg := (mapGet_eq_some m k _ hm2).mpr he
      have hf := hm3 k
      rw [hg] at hf
      obtain ⟨s1, s2, _⟩ := slot_shape k l sub h hf
      cases sub with
      | nil => exact s2 rfl
      | cons c2 cs =>
        have := subChains_depth k l 0 hd c2 (by rw [← s1]; exact List.mem_cons_self _ _)
        omega
    obtain ⟨r, hr⟩ := (extract_dich (kvsToMap 0) m
      (fun e he sub hs => Or.inr (hall e he sub hs))).2 hall
    exact ⟨r, by rw [kvsToMap, hm1]; exact hr⟩
  | succ n ih =>
    intro l h hd
    obtain ⟨m, hm1, hm2, hm3⟩ := group_independent l h
    have hall : ∀ e ∈ m, ∀ sub, e.2 = Slot.kvs sub → ∃ r, kvsToMap (n + 1) sub = .ok r := by
      intro e he sub hs
      obtain ⟨k, sl⟩ := e
      simp only at hs
      subst hs
      have hg := (mapGet_eq_some m k _ hm2).mpr he
      have hf := hm3 k
      rw [hg] at hf
      obtain ⟨s1, _, s3⟩ := slot_shape k l sub h hf
      apply ih sub s3
      intro c2 hc2
      have := subChains_depth k l (n + 1) hd c2 (by rw [← s1]; exact hc2)
      omega
    obtain ⟨r, hr⟩ := (extract_dich (kvsToMap (n + 1)) m
      (fun e he sub hs => Or.inr (hall e he sub hs))).2 hall
    exact ⟨r, by rw [kvsToMap, hm1]; exact hr⟩

theorem depth_bound {ν : Type} : ∀ (l : List (Tok ν × Path ν)),
    ∃ n, ∀ c ∈ l, c.2.depth ≤ n := by
  intro l
  induction l with
  | nil => exact ⟨0, fun c hc => by simp at hc⟩
  | cons a l ih =>
    obtain ⟨n, hn⟩ := ih
    refine ⟨max n a.2.depth, ?_⟩
    intro c hc
    rcases List.mem_cons.mp hc with hc | hc
    · subst hc; exact le_max_right _ _
    · exact le_trans (hn c hc) (le_max_left _ _)

/-- A slot found in the map of the first loop, and the slot under the same key in the map
of a permutation of the chains. -/
theorem slotRel_kvs {ν : Type} [DecidableEq ν] (m m2 : List (Tok ν × Slot ν))
    (hnd : (m.map Prod.fst).Nodup) (hnd2 : (m2.map Prod.fst).Nodup)
    (hrel : ∀ k, SlotRel (mapGet m k) (mapGet m2 k)) :
    (∀ e ∈ m, ∀ sub, e.2 = Slot.kvs sub →
      ∃ sub2, (e.1, Slot.kvs sub2) ∈ m2 ∧ sub.Perm sub2 ∧ Independent sub)
    ∧ (∀ e ∈ m2, ∀ sub2, e.2 = Slot.kvs sub2 →
      ∃ sub, (e.1, Slot.kvs sub) ∈ m ∧ sub.Perm sub2 ∧ Independent sub) := by
  constructor
  · intro e he sub hs
    obtain ⟨k, sl⟩ := e
    simp only at hs
    subst hs
    have hg := (mapGet_eq_some m k _ hnd).mpr he
    have hr := hrel k
    rw [hg] at hr
    cases hb : mapGet m2 k with
    | none => rw [hb] at hr; exact hr.elim
    | some sl2 =>
      rw [hb] at hr
      cases sl2 with
      | scalar t => exact hr.elim
      | kvs sub2 => exact ⟨sub2, (mapGet_eq_some m2 k _ hnd2).mp hb, hr.1, hr.2⟩
  · intro e he sub2 hs
    obtain ⟨k, sl⟩ := e
    simp only at hs
    subst hs
    have hg := (mapGet_eq_some m2 k _ hnd2).mpr he
    have hr := hrel k
    rw [hg] at hr
    cases hb : mapGet m k with
    | none => rw [hb] at hr; exact hr.elim
    | some sl =>
      rw [hb] at hr
      cases sl with
      | scalar t => exact hr.elim
      | kvs sub => exact ⟨sub, (mapGet_eq_some m k _ hnd).mp hb, hr.1, hr.2⟩

/-- On independent chains and on a permutation of them, `kvsToMap` runs out of fuel alike
or returns raw nodes that are canonicalized alike. -/
theorem buildRel_perm {ν : Type} [DecidableEq ν] : ∀ (n : Nat)
    (l l2 : List (Tok ν × Path ν)), Independent l → l.Perm l2 → BuildRel n l l2 := by
  intro n
  induction n with
  | zero =>
    intro l l2 _ _
    exact Or.inl ⟨by rw [kvsToMap], by rw [kvsToMap]⟩
  | succ n ih =>
    intro l l2 h hp
    obtain ⟨m, m2, hg1, hg2, hnd, hnd2, hrel⟩ := group_perm l l2 h hp
    have e1 : kvsToMap (n + 1) l = extract (kvsToMap n) m := by rw [kvsToMap, hg1]
    have e2 : kvsToMap (n + 1) l2 = extract (kvsToMap n) m2 := by rw [kvsToMap, hg2]
    obtain ⟨s1, s2⟩ := slotRel_kvs m m2 hnd hnd2 hrel
    have d1 : ∀ e ∈ m, ∀ sub, e.2 = Slot.kvs sub →
        kvsToMap n sub = .timeout ∨ ∃ r, kvsToMap n sub = .ok r := by
      intro e he sub hs
      obtain ⟨sub2, _, hp2, hi2⟩ := s1 e he sub hs
      rcases ih sub sub2 hi2 hp2 with ⟨a, _⟩ | ⟨r, _, a, _, _⟩
      · exact Or.inl a
      · exact Or.inr ⟨r, a⟩
    have d2 : ∀ e ∈ m2, ∀ sub2, e.2 = Slot.kvs sub2 →
        kvsToMap n sub2 = .timeout ∨ ∃ r, kvsToMap n sub2 = .ok r := by
      intro e he sub2 hs
      obtain ⟨sub, _, hp2, hi2⟩ := s2 e he sub2 hs
      rcases ih sub sub2 hi2 hp2 with ⟨_, a⟩ | ⟨_, r, _, a, _⟩
      · exact Or.inl a
      · exact Or.inr ⟨r, a⟩
    obtain ⟨x1, x2⟩ := extract_dich (kvsToMap n) m d1
    obtain ⟨y1, y2⟩ := extract_dich (kvsToMap n) m2 d2
    by_cases hto : ∃ e ∈ m, ∃ sub, e.2 = Slot.kvs sub ∧ kvsToMap n sub = .timeout
    · left
      refine ⟨e1.trans (x1 hto), e2.trans (y1 ?_)⟩
      obtain ⟨e, he, sub, hs, ht⟩ := hto
      obtain ⟨sub2, hm2, hp2, hi2⟩ := s1 e he sub hs
      refine ⟨_, hm2, sub2, rfl, ?_⟩
      rcases ih sub sub2 hi2 hp2 with ⟨_, a⟩ | ⟨r, _, a, _, _⟩
      · exact a
      · rw [ht] at a; cases a
    · right
      have ok1 : ∀ e ∈ m, ∀ sub, e.2 = Slot.kvs sub → ∃ r, kvsToMap n sub = .ok r := by
        intro e he sub hs
        rcases d1 e he sub hs with a | a
        · exact absurd ⟨e, he, sub, hs, a⟩ hto
        · exact a
      have ok2 : ∀ e ∈ m2, ∀ sub2, e.2 = Slot.kvs sub2 → ∃ r, kvsToMap n sub2 = .ok r := by
        intro e he sub2 hs
        obtain ⟨sub, hm, hp2, hi2⟩ := s2 e he sub2 hs
        rcases ih sub sub2 hi2 hp2 with ⟨a, _⟩ | ⟨_, r, _, a, _⟩
        · exact absurd ⟨_, hm, sub, rfl, a⟩ hto
        · exact ⟨r, a⟩
      obtain ⟨r, hr⟩ := x2 ok1
      obtain ⟨r2, hr2⟩ := y2 ok2
      refine ⟨r, r2, e1.trans hr, e2.trans hr2, ?_⟩
      obtain ⟨k1, g1⟩ := extract_get (kvsToMap n) m r hr
      obtain ⟨k2, g2⟩ := extract_get (kvsToMap n) m2 r2 hr2
      apply nodeRel_canon
      refine ⟨by rw [k1]; exact hnd, by rw [k2]; exact hnd2, ?_⟩
      intro k
      rw [g1 k, g2 k]
      have hr := hrel k
      cases ha : mapGet m k with
      | none =>
        rw [ha] at hr
        cases hb : mapGet m2 k with
        | none => exact trivial
        | some sl2 => rw [hb] at hr; cases sl2 <;> exact hr.elim
      | some sl =>
        rw [ha] at hr
        cases hb : mapGet m2 k with
        | none => rw [hb] at hr; cases sl <;> exact hr.elim
        | some sl2 =>
          rw [hb] at hr
          cases sl with
          | scalar t =>
            cases sl2 with
            | scalar t2 =>
              have : t = t2 := hr
              subst this
              exact rfl
            | kvs b => exact hr.elim
          | kvs a =>
            cases sl2 with
            | scalar t2 => exact hr.elim
            | kvs b =>
              obtain ⟨hp2, hi2⟩ := hr
              have hma := (mapGet_eq_some m k _ hnd).mp ha
              rcases ih a b hi2 hp2 with ⟨c, _⟩ | ⟨ra, rb, c1, c2, c3⟩
              · exact absurd ⟨_, hma, a, rfl, c⟩ hto
              · simp only [Option.bind, slotVal, c1, c2]
                exact c3

/-- Claim C16 (line-order independence): for chains whose full key paths are pairwise
distinct and none a prefix of another, `kvsToMap` followed by `makeKeyStringOrCvtSlice`
gives on every permutation of the chains the same outcome as on the chains themselves, with
any fuel; and with enough fuel that outcome is a value or the error `invalid map`, never a
panic. -/
theorem C16_line_order_independence {ν : Type} [DecidableEq ν]
    (l l2 : List (Tok ν × Path ν)) (hind : Independent l) (hperm : l.Perm l2) :
    (∀ fuel, buildAndCanon fuel l = buildAndCanon fuel l2)
    ∧ ∃ N, ∀ fuel, N ≤ fuel →
        ((∃ v, buildAndCanon fuel l = .ok v ∧ buildAndCanon fuel l2 = .ok v)
          ∨ (buildAndCanon fuel l = .err .invalidMap
              ∧ buildAndCanon fuel l2 = .err .invalidMap)) := by
  have hall : ∀ fuel, buildAndCanon fuel l = buildAndCanon fuel l2 := by
    intro fuel
    unfold buildAndCanon
    rcases buildRel_perm fuel l l2 hind hperm with ⟨a, b⟩ | ⟨r, r2, a, b, c⟩
    · rw [a, b]
    · rw [a, b]
      exact c
  refine ⟨hall, ?_⟩
  obtain ⟨n, hn⟩ := depth_bound l
  obtain ⟨r, hr⟩ := kvsToMap_independent_ok n l hind hn
  refine ⟨n + 1, ?_⟩
  intro fuel hfuel
  obtain ⟨d, rfl⟩ := Nat.exists_eq_add_of_le hfuel
  have hk := kvsToMap_mono (n + 1) d l _ hr (by intro h; cases h)
  obtain ⟨w1, w2⟩ := kvsToMap_wf _ _ _ hk
  obtain ⟨b1, b2⟩ := makeKeyStringOrCvtSlice_spec (n + 1 + d) (.imap r) w1 w2
  have hb : buildAndCanon (n + 1 + d) l = makeKeyStringOrCvtSlice (n + 1 + d) (.imap r) := by
    unfold buildAndCanon
    rw [hk]
  cases hbad : (Val.imap r).hasBadNode with
  | true =>
    right
    have := b1 hbad
    exact ⟨hb.trans this, (hall _).symm.trans (hb.trans this)⟩
  | false =>
    left
    obtain ⟨c, hc⟩ := b2 hbad
    exact ⟨c, hb.trans hc, (hall _).symm.trans (hb.trans hc)⟩

/-- Claim C16, instance: the lines `a b x`, `c y`, `a d z` and the same lines in the order
`a d z`, `a b x`, `c y`. -/
theorem C16_line_order_independence_witness :
    Independent orderedChains ∧ orderedChains.Perm permutedChains
    ∧ ((∀ fuel, buildAndCanon fuel orderedChains = buildAndCanon fuel permutedChains)
      ∧ ∃ N, ∀ fuel, N ≤ fuel →
        ((∃ v, buildAndCanon fuel orderedChains = .ok v
            ∧ buildAndCanon fuel permutedChains = .ok v)
          ∨ (buildAndCanon fuel orderedChains = .err .invalidMap
              ∧ buildAndCanon fuel permutedChains = .err .invalidMap))) :=
  have hi : Independent orderedChains := by
    unfold Independent orderedChains
    decide
  have hp : orderedChains.Perm permutedChains :=
    @List.perm_append_comm _ [orderedChains.get ⟨0, by decide⟩,
      orderedChains.get ⟨1, by decide⟩] [orderedChains.get ⟨2, by decide⟩]
  ⟨hi, hp, C16_line_order_independence orderedChains permutedChains hi hp⟩

end Joro
